import Mathlib

/-!
Overkit core: a shallow embedding of `src/core/Decomp.cpp` and
`src/core/OverlapComponent.cpp`, of `collect_none::Collect` (`CollectNone.hpp`),
`CoordsInCellNonUniform` (`GeometryOps.inl`) and `IsoLine4NodeInverse`
(`GeometricPrimitiveOpsLine.inl`), with the region hash of `RegionHash.hpp` and
the mask operations exercised by `tests/DistributedFieldOpsTests.cpp`.

The definitions below transcribe `ExtendLocalRange`, `DetectNeighbors`,
`RetrieveDecompInfo`, `CartPointToCell` and `RangePointToCell` of
`src/src/core/Decomp.cpp`, the grid event listener, `SyncEdits_`,
`CreateOverlap(s)`, `DestroyOverlap(s)` and `ClearOverlaps` of
`src/src/core/OverlapComponent.cpp`, and the functions named above into Lean
functions; the theorems that follow them settle properties of these functions.

Conventions.
* `int` values are modelled as `Int`.  Signed overflow is undefined behaviour in
  C++, so the embedding describes the executions in which no index arithmetic
  overflows.
* `double` values are modelled as rational numbers with exact arithmetic; a run
  in which a non-finite value arises has no result in the model.
* `tuple<T>` is a fixed triple (`MAX_DIMS = 3`); `range` is a pair of
  `tuple<int>` (`Begin` inclusive, `End` exclusive).  A dimension index is valid
  when it is below `MAX_DIMS`; the statements speak about valid indices only.
* `Cart.hpp`, `Range.hpp`, `Set.hpp`, `Map.hpp`, `ElemMap.hpp`, `Array.hpp` and
  `DistributedRegionHash.hpp` are not among the sources.  The few members of
  them that the code calls are modelled from the specification and marked as
  such; the containers are ordered lists of keys or entries, passed by value
  where the code hands a function a container of its own; in `ClearOverlaps`,
  which hands `DestroyOverlaps` a view of the keys of the container it erases
  from, the keys read during the erasures are a parameter; the distributed hash
  is a parameter of `DetectNeighbors`.
* `RegionHash.inl` and the bodies of `DetectEdge` and `DilateMask` are not among
  the sources either: the region hash and the mask operations are modelled from
  the specification and marked as such; the expected values of the tests are
  transcribed from the test file.
* Debug assertions (`OVK_DEBUG_ASSERT`) are not part of the state changes.
* MPI is modelled by its effect on one rank: every posted request completes, in
  an order the program does not control, and a completed receive holds what the
  sending rank packed; a reduction over the ranks takes the contributions of the
  other ranks as an argument.
-/

namespace ovk

/-! ## Data model -/

/-- The constant `MAX_DIMS` of `Global.hpp`. -/
def MAX_DIMS : Nat := 3

/-- The type `tuple<T>`: one value per dimension, `MAX_DIMS` of them. -/
structure tuple (α : Type) where
  v0 : α
  v1 : α
  v2 : α
deriving DecidableEq, Repr

namespace tuple

/-- Component read `Tuple(iDim)`; only `iDim < MAX_DIMS` is a valid index. -/
def get {α : Type} (t : tuple α) (iDim : Nat) : α :=
  match iDim with
  | 0 => t.v0
  | 1 => t.v1
  | _ => t.v2

/-- Component write `Tuple(iDim) = a`; an index outside the tuple writes nothing. -/
def set {α : Type} (t : tuple α) (iDim : Nat) (a : α) : tuple α :=
  match iDim with
  | 0 => ⟨a, t.v1, t.v2⟩
  | 1 => ⟨t.v0, a, t.v2⟩
  | 2 => ⟨t.v0, t.v1, a⟩
  | _ => t

end tuple

/-- The type `range` (`interval<int,MAX_DIMS>`): `Begin` inclusive, `End` exclusive. -/
structure range where
  Begin : tuple Int
  End : tuple Int
deriving DecidableEq, Repr

namespace range

/-- Modelled from the spec: `Range.Contains(Point)` of the absent `Range.hpp`
("supports containment"): the point lies in `[Begin(d), End(d))` in each of the
`MAX_DIMS` dimensions. -/
def Contains (R : range) (Point : tuple Int) : Bool :=
  decide (R.Begin.v0 ≤ Point.v0 ∧ Point.v0 < R.End.v0) &&
  decide (R.Begin.v1 ≤ Point.v1 ∧ Point.v1 < R.End.v1) &&
  decide (R.Begin.v2 ≤ Point.v2 ∧ Point.v2 < R.End.v2)

/-- The assignment `Range.Begin(iDim) = a`. -/
def setBegin (R : range) (iDim : Nat) (a : Int) : range := ⟨R.Begin.set iDim a, R.End⟩

/-- The assignment `Range.End(iDim) = a`. -/
def setEnd (R : range) (iDim : Nat) (a : Int) : range := ⟨R.Begin, R.End.set iDim a⟩

end range

/-- The enumeration `periodic_storage`. -/
inductive periodic_storage where
  | UNIQUE
  | DUPLICATED
deriving DecidableEq, Repr

/-- The members of `cart` that `Decomp.cpp` reads: `Dimension()`, `Range()`,
`Periodic()` and `PeriodicStorage()`. -/
structure cart where
  Dimension : Nat
  Range : range
  Periodic : tuple Bool
  PeriodicStorage : periodic_storage
deriving DecidableEq, Repr

namespace cart

/-- Modelled from the spec: the period of dimension `iDim`, from the absent
`Cart.hpp`.  With `UNIQUE` storage the wrap-around point is stored once, so the
period is the extent of the global range; with `DUPLICATED` storage both copies
are stored, so the period is one less. -/
def PeriodSize (Cart : cart) (iDim : Nat) : Int :=
  match Cart.PeriodicStorage with
  | periodic_storage.UNIQUE => Cart.Range.End.get iDim - Cart.Range.Begin.get iDim
  | periodic_storage.DUPLICATED => Cart.Range.End.get iDim - Cart.Range.Begin.get iDim - 1

/-- Modelled from the spec: one dimension of `Cart.PeriodicAdjust`. -/
def PeriodicAdjustDim (Cart : cart) (iDim : Nat) (x : Int) : Int :=
  if iDim < Cart.Dimension ∧ Cart.Periodic.get iDim = true then
    Cart.Range.Begin.get iDim + (x - Cart.Range.Begin.get iDim) % Cart.PeriodSize iDim
  else x

/-- Modelled from the spec: `Cart.PeriodicAdjust(Point)` of the absent `Cart.hpp`
("wraps a point into canonical domain"): in each periodic dimension below
`Dimension()` the coordinate is replaced by its representative in
`[Begin(d), Begin(d) + period)`; the other coordinates are kept. -/
def PeriodicAdjust (Cart : cart) (Point : tuple Int) : tuple Int :=
  ⟨Cart.PeriodicAdjustDim 0 Point.v0, Cart.PeriodicAdjustDim 1 Point.v1,
    Cart.PeriodicAdjustDim 2 Point.v2⟩

end cart

/-! ## `ExtendLocalRange` (Decomp.cpp, lines 104-127) -/

/-- Body of the first loop of `ExtendLocalRange` (lines 108-115), with the amount
subtracted from `Begin` and added to `End` as a parameter; `DetectNeighbors`
runs the same loop with the literal `1` (lines 29-36). -/
def ExtendStep (Cart : cart) (LocalRange : range) (Amount : Int) (ExtendedRange : range)
    (iDim : Nat) : range :=
  let R1 :=
    if LocalRange.Begin.get iDim ≠ Cart.Range.Begin.get iDim ∨ Cart.Periodic.get iDim = true then
      ExtendedRange.setBegin iDim (ExtendedRange.Begin.get iDim - Amount)
    else ExtendedRange
  if LocalRange.End.get iDim ≠ Cart.Range.End.get iDim ∨ Cart.Periodic.get iDim = true then
    R1.setEnd iDim (R1.End.get iDim + Amount)
  else R1

/-- Body of the second loop of `ExtendLocalRange` (lines 118-122). -/
def UniqueStep (Cart : cart) (LocalRange : range) (ExtendedRange : range) (iDim : Nat) : range :=
  if LocalRange.End.get iDim = Cart.Range.End.get iDim ∧ Cart.Periodic.get iDim = true then
    ExtendedRange.setEnd iDim (ExtendedRange.End.get iDim + 1)
  else ExtendedRange

/-- The function `ExtendLocalRange(Cart, LocalRange, ExtendAmount)`. -/
def ExtendLocalRange (Cart : cart) (LocalRange : range) (ExtendAmount : Int) : range :=
  let ExtendedRange :=
    (List.range Cart.Dimension).foldl (ExtendStep Cart LocalRange ExtendAmount) LocalRange
  if Cart.PeriodicStorage = periodic_storage.UNIQUE then
    (List.range Cart.Dimension).foldl (UniqueStep Cart LocalRange) ExtendedRange
  else ExtendedRange

/-! ## Containers -/

/-- Modelled from the spec: `set<int>::Insert` of the absent `Set.hpp`.  The set is
an ordered collection without duplicates ("deduplicate into an ordered
neighbor-rank set"), kept here as an increasing list; inserting a value already
present changes nothing. -/
def set_Insert : List Int → Int → List Int
  | [], a => [a]
  | b :: S, a => if a < b then a :: b :: S else if a = b then b :: S else b :: set_Insert S a

/-- Modelled from the spec: `set<int>::Erase` of the absent `Set.hpp`: the value is
removed when present. -/
def set_Erase (S : List Int) (a : Int) : List Int := S.filter (fun b => decide (b ≠ a))

/-- Modelled from the spec: insertion into a `map<int,T>` of the absent `Map.hpp`
(entries ordered by key, one entry per key): the entry of `Key` is created or
overwritten. -/
def map_Insert {β : Type} : List (Int × β) → Int → β → List (Int × β)
  | [], Key, Value => [(Key, Value)]
  | (k, v) :: M, Key, Value =>
    if Key < k then (Key, Value) :: (k, v) :: M
    else if Key = k then (k, Value) :: M
    else (k, v) :: map_Insert M Key Value

/-- Modelled from the spec: the lookup `Map(Key)` of the absent `Map.hpp`. -/
def map_Find {β : Type} (M : List (Int × β)) (Key : Int) : Option β :=
  (M.find? (fun e => decide (e.1 = Key))).map Prod.snd

/-! ## `DetectNeighbors` (Decomp.cpp, lines 25-102) -/

/-- The record `decomp_hash_region_data` (`distributed_region_data<range>`): the
extents a rank registered and that rank. -/
structure decomp_hash_region_data where
  Extents : range
  Rank : Int
deriving DecidableEq, Repr

/-- The interface of `decomp_hash` that `DetectNeighbors` uses.  The class
`distributed_region_hash` is not among the sources, so the hash is a parameter:
`MapPointToBin` and `BinIndexerToIndex` are the two calls of line 67-68, and
`RetrieveBin iBin` is the list of region records that `RetrieveBins` stores, in
record order, into the bin with index `iBin`. -/
structure decomp_hash where
  MapPointToBin : tuple Int → tuple Int
  BinIndexerToIndex : tuple Int → Int
  RetrieveBin : Int → List decomp_hash_region_data

/-- Lines 67-68: the index of the bin of a point,
`DecompHash.BinIndexer().ToIndex(DecompHash.MapPointToBin(Point))`. -/
def binIndexOf (DecompHash : decomp_hash) (Point : tuple Int) : Int :=
  DecompHash.BinIndexerToIndex (DecompHash.MapPointToBin Point)

/-- The values `a, a+1, ..., b-1` visited by `for (int i = a; i < b; ++i)`. -/
def loopValues (a b : Int) : List Int :=
  (List.range (b - a).toNat).map (fun (n : Nat) => a + Int.ofNat n)

/-- Lines 28-36 of `DetectNeighbors`: the local range grown by one layer. -/
def DetectNeighbors_ExtendedRange (Cart : cart) (LocalRange : range) : range :=
  (List.range Cart.Dimension).foldl (ExtendStep Cart LocalRange 1) LocalRange

/-- Lines 42-56 of `DetectNeighbors`: the columns written to `ExtendedPoints`, in
the order of the loop nest (`k` outermost, `i` innermost). -/
def DetectNeighbors_ExtendedPoints (Cart : cart) (LocalRange : range) : List (tuple Int) :=
  let ExtendedRange := DetectNeighbors_ExtendedRange Cart LocalRange
  (loopValues (ExtendedRange.Begin.get 2) (ExtendedRange.End.get 2)).flatMap fun k =>
    (loopValues (ExtendedRange.Begin.get 1) (ExtendedRange.End.get 1)).flatMap fun j =>
      (loopValues (ExtendedRange.Begin.get 0) (ExtendedRange.End.get 0)).flatMap fun i =>
        if LocalRange.Contains ⟨i, j, k⟩ then [] else [Cart.PeriodicAdjust ⟨i, j, k⟩]

/-- Lines 88-94: the first region of the bin, in record order, whose extents
contain the point (the loop leaves at the first hit). -/
def FirstContaining (Bin : List decomp_hash_region_data) (Point : tuple Int) :
    Option decomp_hash_region_data :=
  Bin.find? (fun Region => Region.Extents.Contains Point)

/-- Body of the loop of lines 81-95. -/
def RankStep (DecompHash : decomp_hash) (Bins : List (Int × List decomp_hash_region_data))
    (UniqueExtendedRanks : List Int) (Point : tuple Int) : List Int :=
  let iBin := binIndexOf DecompHash Point
  match FirstContaining ((map_Find Bins iBin).getD []) Point with
  | some Region => set_Insert UniqueExtendedRanks Region.Rank
  | none => UniqueExtendedRanks

/-- The function `DetectNeighbors(Cart, Comm, LocalRange, DecompHash)`; of `Comm`
only `Comm.Rank()` is used.  The arrays `ExtendedPoints` and
`ExtendedPointBinIndices` are the lists of their columns: the loops of lines 61
and 81 visit, in order, the columns that the enumeration loop of lines 43-56
wrote.  (Their declared size `NumExtendedPoints` of line 38 is the difference of
two point counts; `Range.Count` is not among the sources and plays no part
here.) -/
def DetectNeighbors (Cart : cart) (CommRank : Int) (LocalRange : range)
    (DecompHash : decomp_hash) : List Int :=
  let ExtendedPoints := DetectNeighbors_ExtendedPoints Cart LocalRange
  let ExtendedPointBinIndices := ExtendedPoints.map (binIndexOf DecompHash)
  let UniqueBinIndices := ExtendedPointBinIndices.foldl set_Insert []
  let Bins := UniqueBinIndices.foldl
    (fun M iBin => map_Insert M iBin (DecompHash.RetrieveBin iBin)) []
  let UniqueExtendedRanks := ExtendedPoints.foldl (RankStep DecompHash Bins) []
  set_Erase UniqueExtendedRanks CommRank

/-! ## Communicators and example inputs -/

/-- Modelled from the spec: the region records held by the hash that
`CreateDecompHash` (lines 21-23) builds when each of the `NumRanks` ranks of the
communicator registers its own local range: one record `(LocalRange, Rank)` per
rank ("one rank's owned region, registered once per rank"), in rank order.  The
constructor of `distributed_region_hash` is not among the sources. -/
def RegisteredRegions (NumRanks : Nat) (LocalRangeOf : Nat → range) :
    List decomp_hash_region_data :=
  (List.range NumRanks).map fun r => ⟨LocalRangeOf r, Int.ofNat r⟩

/-- Modelled from the spec: a retrieved hash holds the local ranges of the ranks
when every record of every bin is a registered record, and the bin of a point of
the global range lists every registered record whose extents contain the point
("that bin's retrieved records include every registered region whose extents
contain P"). -/
def HoldsLocalRanges (Cart : cart) (DecompHash : decomp_hash) (NumRanks : Nat)
    (LocalRangeOf : Nat → range) : Prop :=
  (∀ iBin, ∀ Region ∈ DecompHash.RetrieveBin iBin,
    Region ∈ RegisteredRegions NumRanks LocalRangeOf) ∧
  (∀ Point, Cart.Range.Contains Point = true →
    ∀ Region ∈ RegisteredRegions NumRanks LocalRangeOf,
      Region.Extents.Contains Point = true →
      Region ∈ DecompHash.RetrieveBin (binIndexOf DecompHash Point))

/-- A hash with a single bin: every point maps to bin `0`, which holds all the
registered records in rank order. -/
def singleBinHash (NumRanks : Nat) (LocalRangeOf : Nat → range) : decomp_hash :=
  ⟨fun _ => ⟨0, 0, 0⟩, fun _ => 0, fun _ => RegisteredRegions NumRanks LocalRangeOf⟩

/-- The one-dimensional range `[a, b)`, as the tests write it:
`{{a,0,0}, {b,1,1}}`. -/
def range1D (a b : Int) : range := ⟨⟨a, 0, 0⟩, ⟨b, 1, 1⟩⟩

/-- A periodic one-dimensional cart over `[0, n)`. -/
def periodicCart1D (n : Int) (Storage : periodic_storage) : cart :=
  ⟨1, range1D 0 n, ⟨true, false, false⟩, Storage⟩

/-- Four ranks owning one point each of `[0, 4)`. -/
def onePointRanges (r : Nat) : range := range1D (Int.ofNat r) (Int.ofNat r + 1)

/-- The range holds at least one point: `Begin(d) < End(d)` in every dimension. -/
def range.NonEmpty (R : range) : Prop :=
  ∀ d, d < MAX_DIMS → R.Begin.get d < R.End.get d

/-- The local ranges of the ranks cover the global range of the cart without
overlap: they lie in the global range, and every point of the global range lies
in the local range of exactly one rank. -/
def CoverWithoutOverlap (Cart : cart) (NumRanks : Nat) (LocalRangeOf : Nat → range) : Prop :=
  (∀ r, r < NumRanks → ∀ Point, (LocalRangeOf r).Contains Point = true →
    Cart.Range.Contains Point = true) ∧
  (∀ Point, Cart.Range.Contains Point = true →
    ∃ r, (r < NumRanks ∧ (LocalRangeOf r).Contains Point = true) ∧
      ∀ s, s < NumRanks ∧ (LocalRangeOf s).Contains Point = true → s = r)

/-- A one-dimensional cart over `[0, n)` without periodic dimension, as the tests
build it (`IsPeriodic = false`, `Duplicated = false`). -/
def plainCart1D (n : Int) : cart :=
  ⟨1, range1D 0 n, ⟨false, false, false⟩, periodic_storage.UNIQUE⟩

/-- Three ranks on the five points of a `DUPLICATED` periodic line of period 4:
`[0,2)`, `[2,4)` and `[4,5)`; the last rank owns the second copy of point `0`. -/
def duplicatedRanges (r : Nat) : range :=
  match r with
  | 0 => range1D 0 2
  | 1 => range1D 2 4
  | _ => range1D 4 5

/-- Three ranks on six points, the middle one owning nothing: `[0,3)`, `[3,3)`
and `[3,6)`. -/
def emptyMiddleRanges (r : Nat) : range :=
  match r with
  | 0 => range1D 0 3
  | 1 => range1D 3 3
  | _ => range1D 3 6

/-- Two ranks on six points, as in the one-dimensional tests: `[0,3)` and
`[3,6)`. -/
def halfRanges (r : Nat) : range :=
  match r with
  | 0 => range1D 0 3
  | _ => range1D 3 6

/-- The cart of the test `CountDistributedMask`: the two-dimensional global range
`{{6,6,1}}`, no periodic dimension, `UNIQUE` storage (the test passes
`IsPeriodic = false`, `Duplicated = false`). -/
def quadrantCart : cart :=
  ⟨2, ⟨⟨0, 0, 0⟩, ⟨6, 6, 1⟩⟩, ⟨false, false, false⟩, periodic_storage.UNIQUE⟩

/-- The 2x2 split of the 6x6 domain into 3x3 blocks, ranks in the row-major order
of a Cartesian communicator with dimensions `{2,2,1}`: rank `2*i + j` owns block
`i` of dimension 0 and block `j` of dimension 1, so ranks 0 and 3, and ranks 1
and 2, are diagonally opposite. -/
def quadrantRanges (r : Nat) : range :=
  match r with
  | 0 => ⟨⟨0, 0, 0⟩, ⟨3, 3, 1⟩⟩
  | 1 => ⟨⟨0, 3, 0⟩, ⟨3, 6, 1⟩⟩
  | 2 => ⟨⟨3, 0, 0⟩, ⟨6, 3, 1⟩⟩
  | _ => ⟨⟨3, 3, 0⟩, ⟨6, 6, 1⟩⟩

/-- A ghost point of quadrant `B` that lies in quadrant `A`: in each dimension the
coordinate of `B` next to `A`, or the first coordinate of `A` when both have the
same extent there. -/
def quadrantGhost (A B : Nat) : tuple Int :=
  ⟨if (quadrantRanges A).Begin.v0 = (quadrantRanges B).Begin.v0 then (quadrantRanges A).Begin.v0
    else if (quadrantRanges A).Begin.v0 < (quadrantRanges B).Begin.v0 then 2 else 3,
   if (quadrantRanges A).Begin.v1 = (quadrantRanges B).Begin.v1 then (quadrantRanges A).Begin.v1
    else if (quadrantRanges A).Begin.v1 < (quadrantRanges B).Begin.v1 then 2 else 3,
   0⟩

/-! ## `RetrieveDecompInfo` (Decomp.cpp, lines 167-222) -/

/-- The struct `decomp_info` (Decomp.hpp, lines 40-43). -/
structure decomp_info where
  LocalRange : range
  ExtendedRange : range
deriving DecidableEq, Repr

/-- Modelled from the spec: position of element `(i, j, iDim)` in the storage of
an `array<int,3>` with extents `{2,2,MAX_DIMS}`, from the absent `Array.hpp`
(row-major, the last index contiguous).  `RetrievedRangeValues.Data(iRecv,i,j,0)`
points at this position of the block of `4*MAX_DIMS` integers of receive
`iRecv`. -/
def RangeValuesOffset (i j iDim : Nat) : Nat := (i * 2 + j) * MAX_DIMS + iDim

/-- Lines 187-194: the send buffer `SelfRangeValues`, filled dimension by
dimension. -/
def PackRanges (LocalRange ExtendedRange : range) : List Int :=
  (List.range MAX_DIMS).foldl
    (fun SelfRangeValues iDim =>
      (((SelfRangeValues.set (RangeValuesOffset 0 0 iDim) (LocalRange.Begin.get iDim)).set
        (RangeValuesOffset 0 1 iDim) (LocalRange.End.get iDim)).set
        (RangeValuesOffset 1 0 iDim) (ExtendedRange.Begin.get iDim)).set
        (RangeValuesOffset 1 1 iDim) (ExtendedRange.End.get iDim))
    (List.replicate (4 * MAX_DIMS) 0)

/-- The constructor `tuple<int>(const int *)`: `MAX_DIMS` consecutive integers
starting at the given position. -/
def tupleAt (Values : List Int) (Offset : Nat) : tuple Int :=
  ⟨Values.getD Offset 0, Values.getD (Offset + 1) 0, Values.getD (Offset + 2) 0⟩

/-- Lines 211-216: the `decomp_info` decoded from the block of `4*MAX_DIMS`
integers of one receive. -/
def DecodeRanges (Values : List Int) : decomp_info :=
  ⟨⟨tupleAt Values (RangeValuesOffset 0 0 0), tupleAt Values (RangeValuesOffset 0 1 0)⟩,
    ⟨tupleAt Values (RangeValuesOffset 1 0 0), tupleAt Values (RangeValuesOffset 1 1 0)⟩⟩

/-- Lines 196-200: the messages posted by a rank, one per rank of `SendToRanks`,
each carrying the rank's own `SelfRangeValues`. -/
def PostedSends (SendToRanks : List Int) (LocalRange ExtendedRange : range) :
    List (Int × List Int) :=
  SendToRanks.map fun Rank => (Rank, PackRanges LocalRange ExtendedRange)

/-- The call `MPI_Waitany` of line 206 on the requests that are still active.
With no active request it yields `MPI_UNDEFINED` (`none`); otherwise one active
request completes and becomes inactive.  Which one completes first is not
determined by the program: `Pick` selects it among the active ones. -/
def MPI_Waitany (Pick : Nat) (Active : List Nat) : Option (Nat × List Nat) :=
  match Active with
  | [] => none
  | iFirst :: Rest =>
    some ((iFirst :: Rest).getD (Pick % (iFirst :: Rest).length) iFirst,
      (iFirst :: Rest).eraseIdx (Pick % (iFirst :: Rest).length))

/-- Lines 208-217: the handling of a completed request.  A receive stores the
decoded ranges under the rank of its sender (`Fetch` creates the entry when it
is missing, and both fields of the entry are then assigned); a send needs no
handling. -/
def CompleteRequest (RecvFromRanks : List Int) (Received : Nat → List Int)
    (RetrievedDecompInfo : List (Int × decomp_info)) (iRequest : Nat) :
    List (Int × decomp_info) :=
  if iRequest < RecvFromRanks.length then
    map_Insert RetrievedDecompInfo (RecvFromRanks.getD iRequest 0)
      (DecodeRanges (Received iRequest))
  else RetrievedDecompInfo

/-- Lines 204-218: the loop `while (true)`, run for at most `Fuel` calls of
`MPI_Waitany`.  `Completion k` is the choice made by the `k`-th call.  The
result is the map and the number of requests that completed before
`MPI_UNDEFINED` was returned; `none` means that `Fuel` calls did not reach
`MPI_UNDEFINED`. -/
def WaitLoop (Completion : Nat → Nat) (RecvFromRanks : List Int) (Received : Nat → List Int) :
    Nat → Nat → List Nat → List (Int × decomp_info) → Option (List (Int × decomp_info) × Nat)
  | 0, _, _, _ => none
  | Fuel + 1, NumCompleted, Active, RetrievedDecompInfo =>
    match MPI_Waitany (Completion NumCompleted) Active with
    | none => some (RetrievedDecompInfo, NumCompleted)
    | some (iRequest, StillActive) =>
      WaitLoop Completion RecvFromRanks Received Fuel (NumCompleted + 1) StillActive
        (CompleteRequest RecvFromRanks Received RetrievedDecompInfo iRequest)

/-- The function `RetrieveDecompInfo(Comm, Ranks, LocalRange, ExtendedRange)` as
one rank runs it.  `SendToRanks` is what `DynamicHandshake` returned (line 171;
the handshake is not among the sources).  `RangesOf Rank` is the pair
`(LocalRange, ExtendedRange)` that rank `Rank` passed to its own call: by lines
187-200 the message a rank posts is `PackRanges` of its own pair, so the block
of receive `iRecv` holds `PackRanges` of the pair of `RecvFromRanks(iRecv)` once
that receive has completed.  The requests are numbered as they are appended:
the receives `0 .. NumRecvs-1`, then the sends. -/
def RetrieveDecompInfo (Fuel : Nat) (Completion : Nat → Nat) (SendToRanks : List Int)
    (RangesOf : Int → range × range) (Ranks : List Int) :
    Option (List (Int × decomp_info) × Nat) :=
  let RecvFromRanks := Ranks
  let NumSends := SendToRanks.length
  let NumRecvs := RecvFromRanks.length
  let Received := fun iRecv =>
    PackRanges (RangesOf (RecvFromRanks.getD iRecv 0)).1 (RangesOf (RecvFromRanks.getD iRecv 0)).2
  WaitLoop Completion RecvFromRanks Received Fuel 0 (List.range (NumRecvs + NumSends)) []

/-! ## `RangePointToCell` (Decomp.cpp, lines 149-165) -/

/-- Modelled from the spec: `MakeEmptyRange(NumDims)` of the absent `Range.hpp`:
"an empty range has `Begin == End` in every dimension".  Only the dimensions at
or above `NumDims` of it survive in `RangePointToCell`. -/
def MakeEmptyRange (_NumDims : Nat) : range := ⟨⟨0, 0, 0⟩, ⟨0, 0, 0⟩⟩

/-- Body of the loop of `RangePointToCell` (lines 153-161). -/
def PointToCellStep (Cart : cart) (Range : range) (CellRange : range) (iDim : Nat) : range :=
  let R1 := CellRange.setBegin iDim (Range.Begin.get iDim)
  if Range.End.get iDim ≠ Cart.Range.End.get iDim ∨
      (Cart.Periodic.get iDim = true ∧ Cart.PeriodicStorage = periodic_storage.UNIQUE) then
    R1.setEnd iDim (Range.End.get iDim)
  else
    R1.setEnd iDim (Range.End.get iDim - 1)

/-- The function `RangePointToCell(Cart, Range)`. -/
def RangePointToCell (Cart : cart) (Range : range) : range :=
  (List.range Cart.Dimension).foldl (PointToCellStep Cart Range) (MakeEmptyRange Cart.Dimension)

/-- A one-dimensional range that is empty in every dimension, at position `a` of
dimension 0: `{{a,0,0}, {a,0,0}}`. -/
def emptyRangeAt (a : Int) : range := ⟨⟨a, 0, 0⟩, ⟨a, 0, 0⟩⟩

/-- One rank registered, the second one missing from the hash: the calling rank 0
owns `[0,3)` of six points and no record covers `[3,6)`. -/
def lowerHalfOnly (_r : Nat) : range := range1D 0 3


/-! ## Overlap component (OverlapComponent.cpp) -/

/-- An overlap ID `elem<int,2>`: the pair `(MGridID, NGridID)`. -/
abbrev overlap_id := Int × Int

/-- The value `overlap_event_flags::NONE`.  The flags are bit masks combined with
`|`; the header that gives the masks their values is not among the sources, and
`NONE` is the empty mask. -/
def overlap_event_flags_NONE : Nat := 0

/-- One call `OverlapEvent_.Trigger(OverlapID, Flags, LastInSequence)`. -/
structure overlap_event where
  OverlapID : overlap_id
  Flags : Nat
  LastInSequence : Bool
deriving DecidableEq, Repr

/-- The pending flags of one rank: for each overlap whose M grid (resp. N grid) is
local to the rank, the member `EventFlags` of its `local_m` (resp. `local_n`). -/
structure local_edits where
  LocalMs_ : List (overlap_id × Nat)
  LocalNs_ : List (overlap_id × Nat)
deriving DecidableEq, Repr

/-- The members of `overlap_component` that the event logic reads and writes, on
one rank.  `OverlapRecords_` is the list of its keys in iteration order; of a
`local_m` and a `local_n` only `EventFlags` is kept. -/
structure overlap_component where
  GridEventFlags_ : List (Int × Nat)
  OverlapRecords_ : List overlap_id
  LocalMs_ : List (overlap_id × Nat)
  LocalNs_ : List (overlap_id × Nat)
deriving DecidableEq, Repr

/-- The order of `elem<int,2>` keys: lexicographic. -/
def elem_less (a b : overlap_id) : Bool :=
  decide (a.1 < b.1) || (decide (a.1 = b.1) && decide (a.2 < b.2))

/-- Modelled from the spec: `Insert` of a key-ordered `elem_map` (absent
`ElemMap.hpp`): the entry of the key is created or overwritten. -/
def elem_map_Insert {β : Type} : List (overlap_id × β) → overlap_id → β → List (overlap_id × β)
  | [], Key, Value => [(Key, Value)]
  | (k, v) :: M, Key, Value =>
    if elem_less Key k then (Key, Value) :: (k, v) :: M
    else if Key = k then (k, Value) :: M
    else (k, v) :: elem_map_Insert M Key Value

/-- Modelled from the spec: `Erase` of an `elem_map` (absent `ElemMap.hpp`). -/
def elem_map_Erase {β : Type} (M : List (overlap_id × β)) (Key : overlap_id) :
    List (overlap_id × β) :=
  M.filter (fun e => decide (e.1 ≠ Key))

/-- Modelled from the spec: `Insert` of a key into the ordered key set of
`OverlapRecords_` (absent `ElemMap.hpp`). -/
def elem_set_Insert : List overlap_id → overlap_id → List overlap_id
  | [], Key => [Key]
  | k :: S, Key =>
    if elem_less Key k then Key :: k :: S
    else if Key = k then k :: S
    else k :: elem_set_Insert S Key

/-- Modelled from the spec: `Erase` of a key from `OverlapRecords_`. -/
def elem_set_Erase (S : List overlap_id) (Key : overlap_id) : List overlap_id :=
  S.filter (fun k => decide (k ≠ Key))

/-- Lines 128-141 of `SyncEdits_`: whether some local `EventFlags` differs from
`NONE`. -/
def HasLocalEdits (LocalMs_ LocalNs_ : List (overlap_id × Nat)) : Bool :=
  LocalMs_.any (fun LocalMEntry => decide (LocalMEntry.2 ≠ overlap_event_flags_NONE)) ||
  LocalNs_.any (fun LocalNEntry => decide (LocalNEntry.2 ≠ overlap_event_flags_NONE))

/-- Lines 148-156: the map `GridIDsToIndex` sends the `i`-th key of
`OverlapRecords_` to `i`. -/
def GridIDsToIndex : List overlap_id → overlap_id → Nat
  | [], _ => 0
  | Key :: Keys, OverlapID =>
    if Key = OverlapID then 0 else GridIDsToIndex Keys OverlapID + 1

/-- Lines 161-171: `AllOverlapEventFlags(iOverlap) |= EventFlags` for every entry
of a local map; an index outside the array writes nothing. -/
def AccumulateFlags (OverlapRecords_ : List overlap_id) (Entries : List (overlap_id × Nat))
    (AllOverlapEventFlags : List Nat) : List Nat :=
  Entries.foldl
    (fun Flags Entry =>
      Flags.set (GridIDsToIndex OverlapRecords_ Entry.1)
        (Flags.getD (GridIDsToIndex OverlapRecords_ Entry.1) 0 ||| Entry.2))
    AllOverlapEventFlags

/-- Lines 158-171: the array `AllOverlapEventFlags` of one rank before the
reduction. -/
def LocalOverlapEventFlags (OverlapRecords_ : List overlap_id)
    (LocalMs_ LocalNs_ : List (overlap_id × Nat)) : List Nat :=
  AccumulateFlags OverlapRecords_ LocalNs_
    (AccumulateFlags OverlapRecords_ LocalMs_
      (List.replicate OverlapRecords_.length overlap_event_flags_NONE))

/-- The reduction `MPI_Allreduce(..., MPI_BOR, ...)` of line 173: the element-wise
bitwise OR of the arrays of all ranks. -/
def Allreduce_BOR (Mine : List Nat) (Others : List (List Nat)) : List Nat :=
  Others.foldl (fun Acc Other => List.zipWith (fun a b => a ||| b) Acc Other) Mine

/-- The pattern `Trigger(ID, Flags, --NumRemaining == 0)` run over a list of IDs:
lines 180-186 of `SyncEdits_` (where an ID whose flags are `NONE` triggers
nothing) and, with constant flags, lines 347-350 and 466-469. -/
def TriggerLoop (Flags : overlap_id → Nat) : Int → List overlap_id → List overlap_event
  | _, [] => []
  | NumTriggers, OverlapID :: Rest =>
    if Flags OverlapID ≠ overlap_event_flags_NONE then
      ⟨OverlapID, Flags OverlapID, decide (NumTriggers - 1 = 0)⟩ ::
        TriggerLoop Flags (NumTriggers - 1) Rest
    else TriggerLoop Flags NumTriggers Rest

/-- The function `overlap_component::SyncEdits_()` on one rank, with the pending
flags of the other ranks of the communicator (every rank holds the same
`OverlapRecords_`).  The result is the new state and the events triggered, in
order. -/
def SyncEdits_ (Others : List local_edits) (C : overlap_component) :
    overlap_component × List overlap_event :=
  let HasEdits := HasLocalEdits C.LocalMs_ C.LocalNs_ ||
    Others.any (fun Other => HasLocalEdits Other.LocalMs_ Other.LocalNs_)
  if HasEdits = false then (C, [])
  else
    let AllOverlapEventFlags :=
      Allreduce_BOR (LocalOverlapEventFlags C.OverlapRecords_ C.LocalMs_ C.LocalNs_)
        (Others.map fun Other =>
          LocalOverlapEventFlags C.OverlapRecords_ Other.LocalMs_ Other.LocalNs_)
    let NumTriggers :=
      (AllOverlapEventFlags.filter (fun EventFlags =>
        decide (EventFlags ≠ overlap_event_flags_NONE))).length
    let Events :=
      TriggerLoop
        (fun OverlapID => AllOverlapEventFlags.getD (GridIDsToIndex C.OverlapRecords_ OverlapID) 0)
        (Int.ofNat NumTriggers) C.OverlapRecords_
    (⟨C.GridEventFlags_, C.OverlapRecords_,
        C.LocalMs_.map (fun LocalMEntry => (LocalMEntry.1, overlap_event_flags_NONE)),
        C.LocalNs_.map (fun LocalNEntry => (LocalNEntry.1, overlap_event_flags_NONE))⟩,
      Events)

/-- The loops `Trigger(OverlapID, Flags, --NumRemaining == 0)` of `CreateOverlaps`
(lines 347-350) and `DestroyOverlaps` (lines 466-469), with
`NumRemaining = OverlapIDs.Count()`.  The flags `CREATE` and `DESTROY` are
parameters: their values are not among the sources. -/
def TriggerBatch (EventFlags : Nat) : Int → List overlap_id → List overlap_event
  | _, [] => []
  | NumRemaining, OverlapID :: Rest =>
    ⟨OverlapID, EventFlags, decide (NumRemaining - 1 = 0)⟩ ::
      TriggerBatch EventFlags (NumRemaining - 1) Rest

/-- The function `overlap_component::CreateOverlap(OverlapID)`.  `GridIsLocal` is
`Domain.GridInfo(GridID).IsLocal()`; a new `local_m` or `local_n` starts with
`EventFlags = NONE`. -/
def CreateOverlap (GridIsLocal : Int → Bool) (CREATE : Nat) (Others : List local_edits)
    (OverlapID : overlap_id) (C : overlap_component) : overlap_component × List overlap_event :=
  let Synced := SyncEdits_ Others C
  let LocalMs_ :=
    if GridIsLocal OverlapID.1 then
      elem_map_Insert Synced.1.LocalMs_ OverlapID overlap_event_flags_NONE
    else Synced.1.LocalMs_
  let LocalNs_ :=
    if GridIsLocal OverlapID.2 then
      elem_map_Insert Synced.1.LocalNs_ OverlapID overlap_event_flags_NONE
    else Synced.1.LocalNs_
  (⟨Synced.1.GridEventFlags_, elem_set_Insert Synced.1.OverlapRecords_ OverlapID, LocalMs_,
      LocalNs_⟩,
    Synced.2 ++ [⟨OverlapID, CREATE, true⟩])

/-- Body of the loop of lines 312-327 of `CreateOverlaps`. -/
def InsertLocal (GridIsLocal : Int → Bool) (L : local_edits) (OverlapID : overlap_id) :
    local_edits :=
  ⟨if GridIsLocal OverlapID.1 then elem_map_Insert L.LocalMs_ OverlapID overlap_event_flags_NONE
      else L.LocalMs_,
    if GridIsLocal OverlapID.2 then elem_map_Insert L.LocalNs_ OverlapID overlap_event_flags_NONE
      else L.LocalNs_⟩

/-- The function `overlap_component::CreateOverlaps(OverlapIDs)`. -/
def CreateOverlaps (GridIsLocal : Int → Bool) (CREATE : Nat) (Others : List local_edits)
    (OverlapIDs : List overlap_id) (C : overlap_component) :
    overlap_component × List overlap_event :=
  let Synced := SyncEdits_ Others C
  let Locals := OverlapIDs.foldl (InsertLocal GridIsLocal)
    ⟨Synced.1.LocalMs_, Synced.1.LocalNs_⟩
  let Records := OverlapIDs.foldl elem_set_Insert Synced.1.OverlapRecords_
  (⟨Synced.1.GridEventFlags_, Records, Locals.LocalMs_, Locals.LocalNs_⟩,
    Synced.2 ++ TriggerBatch CREATE (Int.ofNat OverlapIDs.length) OverlapIDs)

/-- The function `overlap_component::DestroyOverlap(OverlapID)`. -/
def DestroyOverlap (DESTROY : Nat) (Others : List local_edits) (OverlapID : overlap_id)
    (C : overlap_component) : overlap_component × List overlap_event :=
  let Synced := SyncEdits_ Others C
  (⟨Synced.1.GridEventFlags_, elem_set_Erase Synced.1.OverlapRecords_ OverlapID,
      elem_map_Erase Synced.1.LocalMs_ OverlapID, elem_map_Erase Synced.1.LocalNs_ OverlapID⟩,
    Synced.2 ++ [⟨OverlapID, DESTROY, true⟩])

/-- The function `overlap_component::DestroyOverlaps(OverlapIDs)`. -/
def DestroyOverlaps (DESTROY : Nat) (Others : List local_edits) (OverlapIDs : List overlap_id)
    (C : overlap_component) : overlap_component × List overlap_event :=
  let Synced := SyncEdits_ Others C
  (⟨Synced.1.GridEventFlags_, OverlapIDs.foldl elem_set_Erase Synced.1.OverlapRecords_,
      OverlapIDs.foldl elem_map_Erase Synced.1.LocalMs_,
      OverlapIDs.foldl elem_map_Erase Synced.1.LocalNs_⟩,
    Synced.2 ++ TriggerBatch DESTROY (Int.ofNat OverlapIDs.length) OverlapIDs)

/-- The bitwise OR of the flags of the entries of a local map whose key is the
given overlap ID. -/
def PendingFlags (Entries : List (overlap_id × Nat)) (OverlapID : overlap_id) : Nat :=
  (Entries.filter (fun Entry => decide (Entry.1 = OverlapID))).foldl (fun a Entry => a ||| Entry.2) 0

/-- The bitwise OR of the pending M-side and N-side flags of an overlap ID,
combined over the calling rank and the other ranks. -/
def GlobalPendingFlags (Others : List local_edits) (C : overlap_component)
    (OverlapID : overlap_id) : Nat :=
  Others.foldl
    (fun a Other => a ||| (PendingFlags Other.LocalMs_ OverlapID |||
      PendingFlags Other.LocalNs_ OverlapID))
    (PendingFlags C.LocalMs_ OverlapID ||| PendingFlags C.LocalNs_ OverlapID)

/-- A component of one rank with three overlap records, a pending flag `1` on the
M side of overlap `(1,2)` and an untouched N side of overlap `(2,1)`. -/
def threeRecordComponent : overlap_component :=
  ⟨[], [(1, 2), (1, 3), (2, 1)], [((1, 2), 1)], [((2, 1), 0)]⟩

/-- The edits pending on a second rank: flag `2` on the N side of overlap `(1,2)`
and flag `4` on the M side of overlap `(2,1)`. -/
def secondRankEdits : List local_edits :=
  [⟨[((2, 1), 4)], [((1, 2), 2)]⟩]

/-! ## Region hash (RegionHash.hpp) -/

/-- The points of a range in the order of a loop nest with the last dimension
outermost. -/
def range.Points (R : range) : List (tuple Int) :=
  (loopValues R.Begin.v2 R.End.v2).flatMap fun k =>
    (loopValues R.Begin.v1 R.End.v1).flatMap fun j =>
      (loopValues R.Begin.v0 R.End.v0).map fun i => ⟨i, j, k⟩

/-- Modelled from the spec: `Range.Empty()` of the absent `Range.hpp` ("an empty
range has `Begin == End`"; a range holds no point as soon as `End(d) <= Begin(d)`
in one dimension). -/
def range.IsEmpty (R : range) : Bool :=
  decide (R.End.v0 ≤ R.Begin.v0 ∨ R.End.v1 ≤ R.Begin.v1 ∨ R.End.v2 ≤ R.Begin.v2)

/-- Modelled from the spec: the bounding range of two ranges (`UnionRanges` of the
absent `Range.hpp`); an empty range contributes nothing. -/
def UnionRanges (Left Right : range) : range :=
  if Left.IsEmpty then Right
  else if Right.IsEmpty then Left
  else
    ⟨⟨min Left.Begin.v0 Right.Begin.v0, min Left.Begin.v1 Right.Begin.v1,
      min Left.Begin.v2 Right.Begin.v2⟩,
     ⟨max Left.End.v0 Right.End.v0, max Left.End.v1 Right.End.v1,
      max Left.End.v2 Right.End.v2⟩⟩

/-- Modelled from the spec: `ClampToRange(Range, Point)` of the absent `Range.hpp`
("clamps point into the domain"): each coordinate is moved to the nearest value
of `[Begin(d), End(d) - 1]`. -/
def ClampToRange (Range : range) (Point : tuple Int) : tuple Int :=
  ⟨max Range.Begin.v0 (min (Range.End.v0 - 1) Point.v0),
   max Range.Begin.v1 (min (Range.End.v1 - 1) Point.v1),
   max Range.Begin.v2 (min (Range.End.v2 - 1) Point.v2)⟩

/-- Modelled from the spec: `region_hash<int>::GetBinSize_(Extents, NumBins)`,
declared at line 59 of `RegionHash.hpp`; its body is in the absent
`RegionHash.inl` ("bin size is derived once from the extents and bin counts"):
the extent of each dimension divided by its bin count, rounded up, so that
`NumBins` bins cover the extents. -/
def GetBinSize_ (Extents : range) (NumBins : tuple Int) : tuple Int :=
  ⟨(Extents.End.v0 - Extents.Begin.v0 + NumBins.v0 - 1) / NumBins.v0,
   (Extents.End.v1 - Extents.Begin.v1 + NumBins.v1 - 1) / NumBins.v1,
   (Extents.End.v2 - Extents.Begin.v2 + NumBins.v2 - 1) / NumBins.v2⟩

/-- Modelled from the spec: `region_hash<int>::MapToUniformCell_(NumDims, Origin,
CellSize, Point)`, declared at line 61 of `RegionHash.hpp`; its body is in the
absent `RegionHash.inl` ("divides by bin size per dimension").  The division
rounds down; dimensions at or above `NumDims` map to cell `0`. -/
def MapToUniformCell_ (NumDims : Nat) (Origin CellSize Point : tuple Int) : tuple Int :=
  ⟨if 0 < NumDims then (Point.v0 - Origin.v0) / CellSize.v0 else 0,
   if 1 < NumDims then (Point.v1 - Origin.v1) / CellSize.v1 else 0,
   if 2 < NumDims then (Point.v2 - Origin.v2) / CellSize.v2 else 0⟩

/-- Modelled from the spec: `BinIndexer_.ToIndex(BinLoc)` of the `field_indexer`
over the bin range ("linearizes via a row-major/column-major indexer over the
bin Range"); the first dimension runs fastest. -/
def BinIndexer_ToIndex (BinRange : range) (BinLoc : tuple Int) : Int :=
  (BinLoc.v0 - BinRange.Begin.v0) + (BinRange.End.v0 - BinRange.Begin.v0) *
    ((BinLoc.v1 - BinRange.Begin.v1) + (BinRange.End.v1 - BinRange.Begin.v1) *
      (BinLoc.v2 - BinRange.Begin.v2))

/-- The class `region_hash<int>` (`RegionHash.hpp`, lines 23-66).  The members
`BinRegionIndicesStarts_` and `BinRegionIndices_` (the CSR pair) are modelled by
the index list of each bin. -/
structure region_hash where
  NumDims_ : Nat
  BinRange_ : range
  Extents_ : range
  BinSize_ : tuple Int
  BinRegionIndices_ : Int → List Nat

/-- Modelled from the spec: the bin location of a point, the part of `MapToBin`
before the indexer ("clamps point into the domain, divides by bin size per
dimension"). -/
def region_hash.MapToBinLoc (Hash : region_hash) (Point : tuple Int) : tuple Int :=
  ClampToRange Hash.BinRange_
    (MapToUniformCell_ Hash.NumDims_ Hash.Extents_.Begin Hash.BinSize_ Point)

/-- Modelled from the spec: `region_hash::MapToBin(Point)`, declared at line 38 of
`RegionHash.hpp`; its body is in the absent `RegionHash.inl`. -/
def region_hash.MapToBin (Hash : region_hash) (Point : tuple Int) : Int :=
  BinIndexer_ToIndex Hash.BinRange_ (Hash.MapToBinLoc Point)

/-- Modelled from the spec: `region_hash::RetrieveBin(iBin)`, declared at line 40
of `RegionHash.hpp` ("pure lookup"). -/
def region_hash.RetrieveBin (Hash : region_hash) (iBin : Int) : List Nat :=
  Hash.BinRegionIndices_ iBin

/-- Modelled from the spec: the bounding bin-range of a region ("integer regions
map to a contiguous sub-range of bins directly"): from the bin of its lower
corner to the bin of its last point, both clamped to the bin range. -/
def RegionBinRange (NumDims : Nat) (BinRange Extents : range) (BinSize : tuple Int)
    (Region : range) : range :=
  let Lower := ClampToRange BinRange
    (MapToUniformCell_ NumDims Extents.Begin BinSize Region.Begin)
  let Upper := ClampToRange BinRange
    (MapToUniformCell_ NumDims Extents.Begin BinSize
      ⟨Region.End.v0 - 1, Region.End.v1 - 1, Region.End.v2 - 1⟩)
  ⟨Lower, ⟨Upper.v0 + 1, Upper.v1 + 1, Upper.v2 + 1⟩⟩

/-- One append to the index list of bin `iBin`. -/
def AppendToBin (Bins : Int → List Nat) (iBin : Int) (iRegion : Nat) : Int → List Nat :=
  fun b => if b = iBin then Bins b ++ [iRegion] else Bins b

/-- Modelled from the spec: the insertion loop of the constructor ("for each
input region, compute its bounding bin-range and append the region's index to
every overlapping bin's index list"); `iRegion` is the index of the first region
of the list. -/
def InsertRegions (NumDims : Nat) (BinRange Extents : range) (BinSize : tuple Int) :
    Nat → List range → (Int → List Nat) → (Int → List Nat)
  | _, [], Bins => Bins
  | iRegion, Region :: Rest, Bins =>
    InsertRegions NumDims BinRange Extents BinSize (iRegion + 1) Rest
      ((RegionBinRange NumDims BinRange Extents BinSize Region).Points.foldl
        (fun B BinLoc => AppendToBin B (BinIndexer_ToIndex BinRange BinLoc) iRegion) Bins)

/-- Modelled from the spec: the constructor `region_hash(NumDims, NumBins,
Regions)`, declared at line 36 of `RegionHash.hpp`; its body is in the absent
`RegionHash.inl`.  The bin range is `[0, NumBins(d))`, the extents are the
bounding range of the regions, and every region is appended to the bins of its
bounding bin-range. -/
def MakeRegionHash (NumDims : Nat) (NumBins : tuple Int) (Regions : List range) :
    region_hash :=
  let BinRange : range := ⟨⟨0, 0, 0⟩, NumBins⟩
  let Extents := Regions.foldl UnionRanges (MakeEmptyRange NumDims)
  let BinSize := GetBinSize_ Extents NumBins
  ⟨NumDims, BinRange, Extents, BinSize,
    InsertRegions NumDims BinRange Extents BinSize 0 Regions (fun _ => [])⟩

/-- Modelled from the spec: the hash that `DetectNeighbors` queries, over a
`region_hash` of the registered local ranges: `MapPointToBin` and the indexer
are those of the region hash, and the retrieved bin holds the records
`(Extents, Rank)` of the region indices of the bin, in index order.  The class
`distributed_region_hash` is not among the sources; the distribution of the bins
over the ranks is not modelled. -/
def UniformBinHash (NumDims : Nat) (NumBins : tuple Int) (NumRanks : Nat)
    (LocalRangeOf : Nat → range) : decomp_hash :=
  let Records := RegisteredRegions NumRanks LocalRangeOf
  let Hash := MakeRegionHash NumDims NumBins (Records.map fun Record => Record.Extents)
  ⟨Hash.MapToBinLoc, BinIndexer_ToIndex Hash.BinRange_,
    fun iBin => (Hash.RetrieveBin iBin).filterMap fun iRegion => Records[iRegion]?⟩

/-! ## Mask operations (tests/DistributedFieldOpsTests.cpp)

`DetectEdge` and `DilateMask` are called by the tests; their bodies are not among
the sources.  A distributed field is modelled by its global view: one value per
point of the index space, read at the canonical representative of a point, which
is what every rank holds once the ghost values agree with their owners. -/

/-- The enumeration `edge_type` of the calls `DetectEdge(Mask, edge_type::INNER, ...)`. -/
inductive edge_type where
  | INNER
  | OUTER
deriving DecidableEq, Repr

/-- The enumeration `mask_bc` of the calls `DetectEdge(..., mask_bc::FALSE, ...)`. -/
inductive mask_bc where
  | FALSE
  | TRUE
  | MIRROR
deriving DecidableEq, Repr

/-- Modelled from the spec: a `distributed_field<bool>` over the partition of a
cart, seen globally (the class is not among the sources). -/
structure distributed_field where
  Cart : cart
  Values : tuple Int → Bool

/-- The constructor `distributed_field<bool> Mask(Partition, Value)` of the tests. -/
def MakeDistributedField (Cart : cart) (Value : Bool) : distributed_field :=
  ⟨Cart, fun _ => Value⟩

/-- Modelled from the spec: `Field.Fill(Range, Value)` as the tests use it: the
points of `Range` take `Value`. -/
def distributed_field.Fill (Field : distributed_field) (Range : range) (Value : Bool) :
    distributed_field :=
  ⟨Field.Cart, fun Point => if Range.Contains Point then Value else Field.Values Point⟩

/-- Modelled from the spec: `Field.Exchange()` ("ghost exchange"): every point
takes the value of its canonical representative. -/
def distributed_field.Exchange (Field : distributed_field) : distributed_field :=
  ⟨Field.Cart, fun Point => Field.Values (Field.Cart.PeriodicAdjust Point)⟩

/-- The elements that `ElementsAreArray` compares, over the global range of the
field, in the order of `range.Points`. -/
def distributed_field.Elements (Field : distributed_field) : List Bool :=
  Field.Cart.Range.Points.map Field.Values

/-- The cart that `CreatePartition` of the tests builds (lines 47-53): the global
range `{{n0,n1,n2}}` starts at the origin, only the last dimension can be
periodic. -/
def CreatePartition_Cart (NumDims : Nat) (GlobalSize : tuple Int) (IsPeriodic Duplicated : Bool) :
    cart :=
  ⟨NumDims, ⟨⟨0, 0, 0⟩, GlobalSize⟩,
    if IsPeriodic then (⟨false, false, false⟩ : tuple Bool).set (NumDims - 1) true
    else ⟨false, false, false⟩,
    if Duplicated then periodic_storage.DUPLICATED else periodic_storage.UNIQUE⟩

/-- The lambda `ToRange1D` of the tests (lines 101-103). -/
def ToRange1D (LowerCorner UpperCorner : Int) : range :=
  ⟨⟨LowerCorner, 0, 0⟩, ⟨UpperCorner + 1, 1, 1⟩⟩

/-- The lambda `ToRange2D` of the tests (lines 105-108). -/
def ToRange2D (LowerCorner UpperCorner : Int × Int) : range :=
  ⟨⟨LowerCorner.1, LowerCorner.2, 0⟩, ⟨UpperCorner.1 + 1, UpperCorner.2 + 1, 1⟩⟩

/-- One dimension of `RangeIncludeExteriorPoint`. -/
def IncludeExteriorPointStep (Cart : cart) (Range : range) (iDim : Nat) : range :=
  if Cart.Periodic.get iDim = true then Range
  else
    (Range.setBegin iDim (Range.Begin.get iDim - 1)).setEnd iDim (Range.End.get iDim + 1)

/-- Modelled from the spec: the global range with its exterior points, as the
tests obtain it from `CartIncludeExteriorPoint` (lines 116-117): one more point on
each side of every non-periodic dimension below `Dimension()`. -/
def CartIncludeExteriorPoint (Cart : cart) : cart :=
  ⟨Cart.Dimension, (List.range Cart.Dimension).foldl (IncludeExteriorPointStep Cart) Cart.Range,
    Cart.Periodic, Cart.PeriodicStorage⟩

/-- Sum of two index tuples. -/
def tuple.add (a b : tuple Int) : tuple Int := ⟨a.v0 + b.v0, a.v1 + b.v1, a.v2 + b.v2⟩

/-- Modelled from the spec: the value of a mask at any point of the index space:
the point is wrapped across the periodic dimensions; inside the global range it
has the value of the mask, and "a neighbour beyond a non-periodic boundary takes
the value given by the boundary policy (FALSE, TRUE or MIRROR)".  The spec names
`MIRROR` without defining it: `Mirror` is the rule that sends a point beyond the
boundary to the point whose value it takes. -/
def MaskValue (Mirror : tuple Int → tuple Int) (BoundaryCondition : mask_bc)
    (Mask : distributed_field) (Point : tuple Int) : Bool :=
  if Mask.Cart.Range.Contains (Mask.Cart.PeriodicAdjust Point) then
    Mask.Values (Mask.Cart.PeriodicAdjust Point)
  else
    match BoundaryCondition with
    | mask_bc.FALSE => false
    | mask_bc.TRUE => true
    | mask_bc.MIRROR => Mask.Values (Mirror (Mask.Cart.PeriodicAdjust Point))

/-- The offsets of one dimension: `-Amount .. Amount` below `NumDims`, else `0`. -/
def NeighborOffsetsDim (NumDims iDim : Nat) (Amount : Int) : List Int :=
  if iDim < NumDims then loopValues (-Amount) (Amount + 1) else [0]

/-- The offsets from a point to the points of its neighbourhood of radius `Amount`
(the `3^d` neighbours for `Amount = 1`). -/
def NeighborOffsets (NumDims : Nat) (Amount : Int) : List (tuple Int) :=
  (NeighborOffsetsDim NumDims 2 Amount).flatMap fun k =>
    (NeighborOffsetsDim NumDims 1 Amount).flatMap fun j =>
      (NeighborOffsetsDim NumDims 0 Amount).map fun i => ⟨i, j, k⟩

/-- Modelled from the spec: the value of the edge mask at a point; the body of
`DetectEdge` is not among the sources.  The spec describes the inner edge of a
mask as the "boundary of the filled region" and refers to "the worked case in the
reference test suite" for the rest.  The model reads the inner edge as the true
points with a false point among the points at the offsets `-1..1` in every
dimension of the cart, and the outer edge as the false points with a true point
among them; the expected values of the tests of `DetectEdge` (lines 123-349 of
`DistributedFieldOpsTests.cpp`) are what this reading is checked against. -/
def EdgeValue (Mirror : tuple Int → tuple Int) (Mask : distributed_field) (EdgeType : edge_type)
    (BoundaryCondition : mask_bc) (Point : tuple Int) : Bool :=
  match EdgeType with
  | edge_type.INNER =>
    MaskValue Mirror BoundaryCondition Mask Point &&
      (NeighborOffsets Mask.Cart.Dimension 1).any fun Offset =>
        !MaskValue Mirror BoundaryCondition Mask (Point.add Offset)
  | edge_type.OUTER =>
    !MaskValue Mirror BoundaryCondition Mask Point &&
      (NeighborOffsets Mask.Cart.Dimension 1).any fun Offset =>
        MaskValue Mirror BoundaryCondition Mask (Point.add Offset)

/-- Modelled from the spec: `DetectEdge(Mask, EdgeType, BoundaryCondition,
IncludeExteriorPoint, EdgeMask)` as the tests call it (line 126); the returned
field is `EdgeMask`, over the cart with the exterior points when
`IncludeExteriorPoint` is set. -/
def DetectEdge (Mirror : tuple Int → tuple Int) (Mask : distributed_field)
    (EdgeType : edge_type) (BoundaryCondition : mask_bc) (IncludeExteriorPoint : Bool) :
    distributed_field :=
  ⟨if IncludeExteriorPoint then CartIncludeExteriorPoint Mask.Cart else Mask.Cart,
    EdgeValue Mirror Mask EdgeType BoundaryCondition⟩

/-- Modelled from the spec: `DilateMask(Mask, Amount, BoundaryCondition)` as the
tests call it (line 769); the returned field is `Mask` after the call:
"afterwards a point is true iff some point within Chebyshev distance n of it was
true before". -/
def DilateMask (Mirror : tuple Int → tuple Int) (Mask : distributed_field) (Amount : Int)
    (BoundaryCondition : mask_bc) : distributed_field :=
  ⟨Mask.Cart, fun Point =>
    (NeighborOffsets Mask.Cart.Dimension Amount).any fun Offset =>
      MaskValue Mirror BoundaryCondition Mask (Point.add Offset)⟩

/-- The reference neighbourhood of the spec: the offset is at most `Amount` in
absolute value in each dimension below `NumDims` (Chebyshev distance at most
`Amount`) and zero in the others. -/
def IsNeighborOffset (NumDims : Nat) (Amount : Int) (Offset : tuple Int) : Prop :=
  ∀ d, d < MAX_DIMS →
    if d < NumDims then -Amount ≤ Offset.get d ∧ Offset.get d ≤ Amount else Offset.get d = 0

/-- The mask of the tests "1D, periodic boundary" (lines 155-158): six points,
true on `4..5` and on `0..1`, after `Exchange()`. -/
def seamMask (Duplicated : Bool) : distributed_field :=
  (((MakeDistributedField (CreatePartition_Cart 1 ⟨6, 1, 1⟩ true Duplicated) false).Fill
    (ToRange1D 4 5) true).Fill (ToRange1D 0 1) true).Exchange

/-- The expected values of the tests "1D, periodic boundary, inner edge" (lines
162-167): true on `4..5` and `0..1`, reset to false at `5` and at `0`, after
`Exchange()`. -/
def seamExpectedValues (Duplicated : Bool) : distributed_field :=
  (((((MakeDistributedField (CreatePartition_Cart 1 ⟨6, 1, 1⟩ true Duplicated) false).Fill
    (ToRange1D 4 5) true).Fill (ToRange1D 5 5) false).Fill (ToRange1D 0 1) true).Fill
    (ToRange1D 0 0) false).Exchange

/-! ## Grid events and the life cycle of overlaps (OverlapComponent.cpp) -/

/-- The value `grid_event_flags::NONE`: the empty mask, as for the overlap flags. -/
def grid_event_flags_NONE : Nat := 0

/-- Lines 64-66 of the grid event listener:
`GridEventFlags_.Fetch(GridID, NONE) |= Flags`.  `Fetch` (absent `Map.hpp`)
returns the entry of the key, created with the default when there is none. -/
def AccumulateGridFlags (GridEventFlags_ : List (Int × Nat)) (GridID : Int) (Flags : Nat) :
    List (Int × Nat) :=
  map_Insert GridEventFlags_ GridID
    ((map_Find GridEventFlags_ GridID).getD grid_event_flags_NONE ||| Flags)

/-- Lines 90-98 of `DestroyOverlapsForDyingGrids_`: the grids whose accumulated
flags hold the bit `DESTROY`.  The mask `grid_event_flags::DESTROY` is a
parameter: its value is not among the sources. -/
def DyingGridIDs (GRID_DESTROY : Nat) (GridEventFlags_ : List (Int × Nat)) : List Int :=
  GridEventFlags_.foldl
    (fun DyingGridIDs EventEntry =>
      if EventEntry.2 &&& GRID_DESTROY ≠ grid_event_flags_NONE then
        set_Insert DyingGridIDs EventEntry.1
      else DyingGridIDs)
    []

/-- Lines 100-108 of `DestroyOverlapsForDyingGrids_`: the overlaps with a dying M
grid or a dying N grid. -/
def DyingOverlapIDs (DyingGridIDs : List Int) (OverlapRecords_ : List overlap_id) :
    List overlap_id :=
  OverlapRecords_.foldl
    (fun DyingOverlapIDs OverlapID =>
      if OverlapID.1 ∈ DyingGridIDs ∨ OverlapID.2 ∈ DyingGridIDs then
        elem_set_Insert DyingOverlapIDs OverlapID
      else DyingOverlapIDs)
    []

/-- The function `overlap_component::DestroyOverlapsForDyingGrids_()` (lines
88-112). -/
def DestroyOverlapsForDyingGrids_ (GRID_DESTROY DESTROY : Nat) (Others : List local_edits)
    (C : overlap_component) : overlap_component × List overlap_event :=
  DestroyOverlaps DESTROY Others
    (DyingOverlapIDs (DyingGridIDs GRID_DESTROY C.GridEventFlags_) C.OverlapRecords_) C

/-- The function `overlap_component::OnGridEvent_()` (lines 80-86). -/
def OnGridEvent_ (GRID_DESTROY DESTROY : Nat) (Others : List local_edits)
    (C : overlap_component) : overlap_component × List overlap_event :=
  let Destroyed := DestroyOverlapsForDyingGrids_ GRID_DESTROY DESTROY Others C
  (⟨[], Destroyed.1.OverlapRecords_, Destroyed.1.LocalMs_, Destroyed.1.LocalNs_⟩, Destroyed.2)

/-- The grid event listener that the constructor registers (lines 62-70). -/
def GridEventListener (GRID_DESTROY DESTROY : Nat) (Others : List local_edits)
    (C : overlap_component) (GridID : Int) (Flags : Nat) (LastInSequence : Bool) :
    overlap_component × List overlap_event :=
  let Accumulated : overlap_component :=
    ⟨AccumulateGridFlags C.GridEventFlags_ GridID Flags, C.OverlapRecords_, C.LocalMs_,
      C.LocalNs_⟩
  if LastInSequence then OnGridEvent_ GRID_DESTROY DESTROY Others Accumulated
  else (Accumulated, [])

/-- A sequence of grid events: the events `Earlier` are delivered with
`LastInSequence = false`, then `Last` with `LastInSequence = true`. -/
def DeliverGridEvents (GRID_DESTROY DESTROY : Nat) (Others : List local_edits)
    (C : overlap_component) (Earlier : List (Int × Nat)) (Last : Int × Nat) :
    overlap_component × List overlap_event :=
  GridEventListener GRID_DESTROY DESTROY Others
    (Earlier.foldl
      (fun C Event => (GridEventListener GRID_DESTROY DESTROY Others C Event.1 Event.2 false).1)
      C)
    Last.1 Last.2 true

/-- The flags of the events of a sequence on one grid, OR-ed together. -/
def SequenceFlags (Events : List (Int × Nat)) (GridID : Int) : Nat :=
  (Events.filter fun Event => decide (Event.1 = GridID)).foldl (fun a Event => a ||| Event.2)
    grid_event_flags_NONE

/-- The function `overlap_component::OverlapExists(OverlapID)` (lines 204-218). -/
def OverlapExists (C : overlap_component) (OverlapID : overlap_id) : Bool :=
  decide (OverlapID ∈ C.OverlapRecords_)

/-- The function `overlap_component::ClearOverlaps()` (lines 508-512): it calls
`DestroyOverlaps` (lines 414-506) with an `array_view` of the keys of
`OverlapRecords_` itself.  `SyncEdits_` (line 460) leaves `OverlapRecords_`
unchanged, so the loops of lines 462-465 (events) and 483-486 (local maps) read
the keys of the component.  The loop of lines 488-490 erases from
`OverlapRecords_` while it iterates the view of its keys; what the view yields
during these erasures is decided by `ElemSet.hpp` and `ArrayView.hpp`, which are
not among the sources: `ViewDuringErase` is the sequence of keys that this loop
passes to `OverlapRecords_.Erase`. -/
def ClearOverlaps (DESTROY : Nat) (Others : List local_edits)
    (ViewDuringErase : List overlap_id) (C : overlap_component) :
    overlap_component × List overlap_event :=
  let OverlapIDs := C.OverlapRecords_
  let Synced := SyncEdits_ Others C
  (⟨Synced.1.GridEventFlags_, ViewDuringErase.foldl elem_set_Erase Synced.1.OverlapRecords_,
      OverlapIDs.foldl elem_map_Erase Synced.1.LocalMs_,
      OverlapIDs.foldl elem_map_Erase Synced.1.LocalNs_⟩,
    Synced.2 ++ TriggerBatch DESTROY (Int.ofNat OverlapIDs.length) OverlapIDs)

/-- The state of a component after its constructor: no grid flags, no overlaps. -/
def NewOverlapComponent : overlap_component := ⟨[], [], [], []⟩

/-- One call that creates or destroys the overlaps it names. -/
inductive overlap_call where
  | CreateOverlap (OverlapID : overlap_id)
  | CreateOverlaps (OverlapIDs : List overlap_id)
  | DestroyOverlap (OverlapID : overlap_id)
  | DestroyOverlaps (OverlapIDs : List overlap_id)
deriving DecidableEq, Repr

/-- The state after one call; `Others` holds the edits pending on the other ranks
when the call is made. -/
def ApplyCall (GridIsLocal : Int → Bool) (CREATE DESTROY : Nat) (C : overlap_component)
    (Call : List local_edits × overlap_call) : overlap_component :=
  match Call.2 with
  | overlap_call.CreateOverlap OverlapID =>
    (CreateOverlap GridIsLocal CREATE Call.1 OverlapID C).1
  | overlap_call.CreateOverlaps OverlapIDs =>
    (CreateOverlaps GridIsLocal CREATE Call.1 OverlapIDs C).1
  | overlap_call.DestroyOverlap OverlapID => (DestroyOverlap DESTROY Call.1 OverlapID C).1
  | overlap_call.DestroyOverlaps OverlapIDs => (DestroyOverlaps DESTROY Call.1 OverlapIDs C).1

/-- The state after a sequence of calls on a new component.  The debug assertions
of the calls (a created overlap does not exist yet, a destroyed one exists) are
not part of the state change. -/
def RunCalls (GridIsLocal : Int → Bool) (CREATE DESTROY : Nat)
    (Calls : List (List local_edits × overlap_call)) : overlap_component :=
  Calls.foldl (ApplyCall GridIsLocal CREATE DESTROY) NewOverlapComponent

/-- The reference of the spec: whether an ID is "created and not since destroyed"
after one more call. -/
def CreatedNotDestroyedStep (OverlapID : overlap_id) (Exists : Bool) : overlap_call → Bool
  | overlap_call.CreateOverlap ID => Exists || decide (OverlapID = ID)
  | overlap_call.CreateOverlaps IDs => Exists || decide (OverlapID ∈ IDs)
  | overlap_call.DestroyOverlap ID => Exists && decide (OverlapID ≠ ID)
  | overlap_call.DestroyOverlaps IDs => Exists && decide (OverlapID ∉ IDs)

/-- The reference of the spec: the IDs "created and not since destroyed" by a
sequence of calls on a new component. -/
def CreatedNotDestroyed (Calls : List (List local_edits × overlap_call))
    (OverlapID : overlap_id) : Bool :=
  Calls.foldl (fun Exists Call => CreatedNotDestroyedStep OverlapID Exists Call.2) false

/-- The state of a component agrees with a set of existing overlaps: the records
are the existing IDs, and the local maps hold the existing IDs whose M grid
(resp. N grid) is local. -/
def TracksOverlaps (GridIsLocal : Int → Bool) (C : overlap_component)
    (Exists : overlap_id → Bool) : Prop :=
  (∀ x, x ∈ C.OverlapRecords_ ↔ Exists x = true) ∧
  (∀ x, x ∈ C.LocalMs_.map Prod.fst ↔ Exists x = true ∧ GridIsLocal x.1 = true) ∧
  (∀ x, x ∈ C.LocalNs_.map Prod.fst ↔ Exists x = true ∧ GridIsLocal x.2 = true)

/-! ## `collect_none::Collect` (CollectNone.hpp, lines 62-92) -/

/-- Lines 81-85 of `Collect` for one cell and one component `iCount`.
`PackedValues` is the array `PackedValues_(iCount)`, one value per cell, and
`VertexValues` the row `VertexValues_(iCount, 0 .. NumVertices-1)` assembled for
the cell.  Line 83 reads `PackedValues_(iCount)(iVertex)`; an index outside an
array gives `none`. -/
def CollectNoneCell (VertexValues : List Bool) (iCell : Nat) (PackedValues : List Bool) :
    Option (List Bool) :=
  if iCell < PackedValues.length then
    (List.range VertexValues.length).foldlM
      (fun Packed iVertex =>
        match Packed[iVertex]?, VertexValues[iVertex]? with
        | some PackedValue, some VertexValue =>
          some (Packed.set iCell (PackedValue && !VertexValue))
        | _, _ => none)
      (PackedValues.set iCell true)
  else none

/-- Lines 71-88 of `Collect` for one component: the cells `0 .. NumCells-1` in
order; `VertexValuesOf iCell` is what `AssembleVertexValues_` (not among the
sources) delivers for the cell. -/
def CollectNone (VertexValuesOf : Nat → List Bool) (NumCells : Nat) (PackedValues : List Bool) :
    Option (List Bool) :=
  (List.range NumCells).foldlM
    (fun Packed iCell => CollectNoneCell (VertexValuesOf iCell) iCell Packed) PackedValues

/-- The reference of the claim: the packed value of a cell is true iff none of the
vertex values of the cell is true. -/
def NoneOfVertices (VertexValues : List Bool) : Bool :=
  VertexValues.all fun VertexValue => !VertexValue

/-- Two cells of two vertices each (a line of three points): the first cell has a
true vertex, the second has none. -/
def twoCellVertexValues (iCell : Nat) : List Bool :=
  match iCell with
  | 0 => [true, false]
  | _ => [false, false]

/-! ## `CoordsInCellNonUniform` (GeometryOps.inl, lines 296-371) -/

/-- Lines 348-349 (and 323-324, 305-306): the cell index of one dimension clamped
to `[Begin+1, End-3]` of the extents of the coordinate field, first from below
(`Max`), then from above (`Min`). -/
def ShiftCell (Extents : range) (Cell : tuple Int) (iDim : Nat) : Int :=
  min (max (Cell.get iDim) (Extents.Begin.get iDim + 1)) (Extents.End.get iDim - 3)

/-- Lines 351-364, the case of three dimensions: the index tuples passed to
`Coords(0).Indexer().ToIndex(i,j,0)` for the nodes `0 .. 63`, in the order of the
loop nest (`k` outermost, `i` innermost).  The loop variable `k` is not passed
on: line 355 writes `0` in its place. -/
def CoordsInCellNonUniform_Points3D (Extents : range) (Cell : tuple Int) : List (tuple Int) :=
  (loopValues (ShiftCell Extents Cell 2 - 1) (ShiftCell Extents Cell 2 + 2 + 1)).flatMap fun _k =>
    (loopValues (ShiftCell Extents Cell 1 - 1) (ShiftCell Extents Cell 1 + 2 + 1)).flatMap fun j =>
      (loopValues (ShiftCell Extents Cell 0 - 1) (ShiftCell Extents Cell 0 + 2 + 1)).map fun i =>
        ⟨i, j, 0⟩

/-- Lines 326-336, the case of two dimensions: the index tuples passed to
`ToIndex(i,j,0)` for the nodes `0 .. 15`. -/
def CoordsInCellNonUniform_Points2D (Extents : range) (Cell : tuple Int) : List (tuple Int) :=
  (loopValues (ShiftCell Extents Cell 1 - 1) (ShiftCell Extents Cell 1 + 2 + 1)).flatMap fun j =>
    (loopValues (ShiftCell Extents Cell 0 - 1) (ShiftCell Extents Cell 0 + 2 + 1)).map fun i =>
      ⟨i, j, 0⟩

/-- Lines 307-311, the case of one dimension: the values `iPoint` used in
`Coords(0)[iPoint]` for the nodes `0 .. 3`. -/
def CoordsInCellNonUniform_Indices1D (Extents : range) (Cell : tuple Int) : List Int :=
  loopValues (ShiftCell Extents Cell 0 - 1) (ShiftCell Extents Cell 0 + 3)

/-- The reference of the claim: the grid points `(i,j,k)` of the `4x4x4` stencil
`ShiftedCell-1 .. ShiftedCell+2` in each dimension, in `i`-fastest order. -/
def Stencil4x4x4 (Extents : range) (Cell : tuple Int) : List (tuple Int) :=
  (loopValues (ShiftCell Extents Cell 2 - 1) (ShiftCell Extents Cell 2 + 2 + 1)).flatMap fun k =>
    (loopValues (ShiftCell Extents Cell 1 - 1) (ShiftCell Extents Cell 1 + 2 + 1)).flatMap fun j =>
      (loopValues (ShiftCell Extents Cell 0 - 1) (ShiftCell Extents Cell 0 + 2 + 1)).map fun i =>
        ⟨i, j, k⟩

/-! ## `IsoLine4NodeInverse` (GeometricPrimitiveOpsLine.inl, lines 23-61)

A `double` is modelled by a rational number: the arithmetic is exact, and a run
in which a non-finite value arises (a division by a zero derivative) has no
result in the model.  `LagrangeInterpCubic` and `LagrangeInterpCubicDeriv` are
not among the sources and are parameters. -/

/-- The function `IsoLine4Node(NodeCoords, LocalCoord)` (lines 23-35). -/
def IsoLine4Node (LagrangeInterpCubic : ℚ → List ℚ) (NodeCoords : List ℚ) (LocalCoord : ℚ) : ℚ :=
  (List.range 4).foldl
    (fun Coord i => Coord + (LagrangeInterpCubic LocalCoord).getD i 0 * NodeCoords.getD i 0) 0

/-- Lines 46-49: the derivative of the interpolant at `LocalCoord`. -/
def IsoLine4NodeDeriv (LagrangeInterpCubicDeriv : ℚ → List ℚ) (NodeCoords : List ℚ)
    (LocalCoord : ℚ) : ℚ :=
  (List.range 4).foldl
    (fun Deriv i => Deriv + (LagrangeInterpCubicDeriv LocalCoord).getD i 0 * NodeCoords.getD i 0)
    0

/-- The Newton loop of lines 42-51, with the number of steps that remain: it
stops when `std::abs(Error) <= Tolerance`. -/
def NewtonLoop (LagrangeInterpCubic LagrangeInterpCubicDeriv : ℚ → List ℚ)
    (NodeCoords : List ℚ) (Coord Tolerance : ℚ) : Nat → ℚ → Option ℚ
  | 0, LocalCoord => some LocalCoord
  | Steps + 1, LocalCoord =>
    if |Coord - IsoLine4Node LagrangeInterpCubic NodeCoords LocalCoord| ≤ Tolerance then
      some LocalCoord
    else if IsoLine4NodeDeriv LagrangeInterpCubicDeriv NodeCoords LocalCoord = 0 then none
    else
      NewtonLoop LagrangeInterpCubic LagrangeInterpCubicDeriv NodeCoords Coord Tolerance Steps
        (LocalCoord +
          (Coord - IsoLine4Node LagrangeInterpCubic NodeCoords LocalCoord) /
            IsoLine4NodeDeriv LagrangeInterpCubicDeriv NodeCoords LocalCoord)

/-- The function `IsoLine4NodeInverse(NodeCoords, Coord, MaybeSuccess, Tolerance,
MaxSteps)` with `MaybeSuccess` given: the returned local coordinate and the
value written to `Success` (line 56: `Error <= Tolerance && !std::isnan(Error)`;
a rational is never a NaN). -/
def IsoLine4NodeInverse (LagrangeInterpCubic LagrangeInterpCubicDeriv : ℚ → List ℚ)
    (NodeCoords : List ℚ) (Coord Tolerance : ℚ) (MaxSteps : Int) : Option (ℚ × Bool) :=
  (NewtonLoop LagrangeInterpCubic LagrangeInterpCubicDeriv NodeCoords Coord Tolerance
      MaxSteps.toNat (1 / 2)).map fun LocalCoord =>
    (LocalCoord,
      decide (Coord - IsoLine4Node LagrangeInterpCubic NodeCoords LocalCoord ≤ Tolerance))

/-- An instance of the parameter `LagrangeInterpCubic`: the cubic Lagrange basis on
the nodes `-1, 0, 1, 2`. -/
def cubicLagrangeBasis (U : ℚ) : List ℚ :=
  [-(U * (U - 1) * (U - 2)) / 6, (U + 1) * (U - 1) * (U - 2) / 2,
    -((U + 1) * U * (U - 2)) / 2, (U + 1) * U * (U - 1) / 6]

/-- An instance of the parameter `LagrangeInterpCubicDeriv`: the derivatives of
`cubicLagrangeBasis`. -/
def cubicLagrangeBasisDeriv (U : ℚ) : List ℚ :=
  [-(3 * U * U - 6 * U + 2) / 6, (3 * U * U - 4 * U - 1) / 2,
    -(3 * U * U - 2 * U - 2) / 2, (3 * U * U - 1) / 6]

/-! ## `CartPointToCell` (Decomp.cpp, lines 129-147) -/

/-- Body of the loop of `CartPointToCell` (lines 133-140), on the range of the
cell cart. -/
def CellCartStep (Cart : cart) (CellRange : range) (iDim : Nat) : range :=
  let R1 := CellRange.setBegin iDim (Cart.Range.Begin.get iDim)
  if Cart.Periodic.get iDim = true ∧ Cart.PeriodicStorage = periodic_storage.UNIQUE then
    R1.setEnd iDim (Cart.Range.End.get iDim)
  else
    R1.setEnd iDim (Cart.Range.End.get iDim - 1)

/-- The function `CartPointToCell(Cart)`.  The constructor `cart(NumDims)` of line
131 is not among the sources: the range it leaves in the dimensions at or above
`Dimension()` is modelled by that of `MakeEmptyRange`; the periodic flags and the
storage are overwritten by lines 142-143. -/
def CartPointToCell (Cart : cart) : cart :=
  ⟨Cart.Dimension,
    (List.range Cart.Dimension).foldl (CellCartStep Cart) (MakeEmptyRange Cart.Dimension),
    Cart.Periodic, periodic_storage.UNIQUE⟩

/-- The index tuple lies in the range in the dimensions below `NumDims`. -/
def range.ContainsInDims (R : range) (NumDims : Nat) (Point : tuple Int) : Prop :=
  ∀ d, d < NumDims → d < MAX_DIMS → R.Begin.get d ≤ Point.get d ∧ Point.get d < R.End.get d

/-- The ranges of the ranks partition a range in the dimensions below `NumDims`:
no range reaches outside it, and every index of it lies in the range of exactly
one rank. -/
def PartitionInDims (NumDims : Nat) (Whole : range) (NumRanks : Nat) (RangeOf : Nat → range) :
    Prop :=
  (∀ r, r < NumRanks → ∀ Point, (RangeOf r).ContainsInDims NumDims Point →
    Whole.ContainsInDims NumDims Point) ∧
  (∀ Point, Whole.ContainsInDims NumDims Point →
    ∃ r, (r < NumRanks ∧ (RangeOf r).ContainsInDims NumDims Point) ∧
      ∀ s, s < NumRanks ∧ (RangeOf s).ContainsInDims NumDims Point → s = r)

/-! ## The size of `ExtendedPoints` in `DetectNeighbors` (Decomp.cpp, line 38) -/

/-- Modelled from the spec: `Range.Count()` of the absent `Range.hpp` ("count"):
the number of index tuples of a range with `Begin(d) <= End(d)`, the product of
its extents. -/
def range.Count (R : range) : Int :=
  (R.End.v0 - R.Begin.v0) * (R.End.v1 - R.Begin.v1) * (R.End.v2 - R.Begin.v2)

/-- Line 38 of `DetectNeighbors`:
`NumExtendedPoints = ExtendedRange.Count() - LocalRange.Count()`, the number of
columns of the array `ExtendedPoints`. -/
def NumExtendedPoints (Cart : cart) (LocalRange : range) : Int :=
  (DetectNeighbors_ExtendedRange Cart LocalRange).Count - LocalRange.Count

/-! ## Basic facts about tuples and ranges -/

namespace tuple

theorem get_set_self {α : Type} (t : tuple α) (d : Nat) (a : α) (hd : d < 3) :
    (t.set d a).get d = a := by
  have h : d = 0 ∨ d = 1 ∨ d = 2 := by omega
  rcases h with h | h | h <;> subst h <;> rfl

theorem get_set_other {α : Type} (t : tuple α) (d e : Nat) (a : α) (he : e < 3) (hne : d ≠ e) :
    (t.set d a).get e = t.get e := by
  have h : e = 0 ∨ e = 1 ∨ e = 2 := by omega
  match d with
  | 0 => rcases h with h | h | h <;> subst h <;> first | rfl | exact absurd rfl hne
  | 1 => rcases h with h | h | h <;> subst h <;> first | rfl | exact absurd rfl hne
  | 2 => rcases h with h | h | h <;> subst h <;> first | rfl | exact absurd rfl hne
  | _ + 3 => rfl

theorem ext_get {α : Type} (s t : tuple α) (h : ∀ d, d < 3 → s.get d = t.get d) : s = t := by
  cases s; cases t
  have h0 := h 0 (by omega)
  have h1 := h 1 (by omega)
  have h2 := h 2 (by omega)
  simp only [get] at h0 h1 h2
  subst h0 h1 h2
  rfl

end tuple

theorem ExtendStep_Begin (Cart : cart) (L : range) (A : Int) (R : range) (i d : Nat)
    (hd : d < 3) :
    (ExtendStep Cart L A R i).Begin.get d =
      if i = d ∧ (L.Begin.get d ≠ Cart.Range.Begin.get d ∨ Cart.Periodic.get d = true)
      then R.Begin.get d - A else R.Begin.get d := by
  by_cases hid : i = d
  · subst hid
    unfold ExtendStep
    by_cases hB : L.Begin.get i ≠ Cart.Range.Begin.get i ∨ Cart.Periodic.get i = true <;>
      by_cases hE : L.End.get i ≠ Cart.Range.End.get i ∨ Cart.Periodic.get i = true <;>
      simp only [hB, hE, if_true, if_false, true_and, range.setBegin, range.setEnd,
        tuple.get_set_self _ _ _ hd]
  · unfold ExtendStep
    by_cases hB : L.Begin.get i ≠ Cart.Range.Begin.get i ∨ Cart.Periodic.get i = true <;>
      by_cases hE : L.End.get i ≠ Cart.Range.End.get i ∨ Cart.Periodic.get i = true <;>
      simp only [hB, hE, hid, if_true, if_false, false_and, range.setBegin, range.setEnd,
        tuple.get_set_other _ _ _ _ hd hid]

theorem ExtendStep_End (Cart : cart) (L : range) (A : Int) (R : range) (i d : Nat)
    (hd : d < 3) :
    (ExtendStep Cart L A R i).End.get d =
      if i = d ∧ (L.End.get d ≠ Cart.Range.End.get d ∨ Cart.Periodic.get d = true)
      then R.End.get d + A else R.End.get d := by
  by_cases hid : i = d
  · subst hid
    unfold ExtendStep
    by_cases hB : L.Begin.get i ≠ Cart.Range.Begin.get i ∨ Cart.Periodic.get i = true <;>
      by_cases hE : L.End.get i ≠ Cart.Range.End.get i ∨ Cart.Periodic.get i = true <;>
      simp only [hB, hE, if_true, if_false, true_and, range.setBegin, range.setEnd,
        tuple.get_set_self _ _ _ hd]
  · unfold ExtendStep
    by_cases hB : L.Begin.get i ≠ Cart.Range.Begin.get i ∨ Cart.Periodic.get i = true <;>
      by_cases hE : L.End.get i ≠ Cart.Range.End.get i ∨ Cart.Periodic.get i = true <;>
      simp only [hB, hE, hid, if_true, if_false, false_and, range.setBegin, range.setEnd,
        tuple.get_set_other _ _ _ _ hd hid]

theorem UniqueStep_Begin (Cart : cart) (L : range) (R : range) (i : Nat) :
    (UniqueStep Cart L R i).Begin = R.Begin := by
  unfold UniqueStep
  split <;> rfl

theorem UniqueStep_End (Cart : cart) (L : range) (R : range) (i d : Nat) (hd : d < 3) :
    (UniqueStep Cart L R i).End.get d =
      if i = d ∧ (L.End.get d = Cart.Range.End.get d ∧ Cart.Periodic.get d = true)
      then R.End.get d + 1 else R.End.get d := by
  by_cases hid : i = d
  · subst hid
    unfold UniqueStep
    by_cases hE : L.End.get i = Cart.Range.End.get i ∧ Cart.Periodic.get i = true <;>
      simp only [hE, if_true, if_false, true_and, and_self, range.setEnd,
        tuple.get_set_self _ _ _ hd]
  · unfold UniqueStep
    by_cases hE : L.End.get i = Cart.Range.End.get i ∧ Cart.Periodic.get i = true <;>
      simp only [hE, hid, if_true, if_false, false_and, and_self, range.setEnd,
        tuple.get_set_other _ _ _ _ hd hid]

theorem foldl_ExtendStep_Begin (Cart : cart) (L : range) (A : Int) (n : Nat) (R : range)
    (d : Nat) (hd : d < 3) :
    ((List.range n).foldl (ExtendStep Cart L A) R).Begin.get d =
      if d < n ∧ (L.Begin.get d ≠ Cart.Range.Begin.get d ∨ Cart.Periodic.get d = true)
      then R.Begin.get d - A else R.Begin.get d := by
  induction n with
  | zero => simp
  | succ n ih =>
    rw [List.range_succ, List.foldl_append, List.foldl_cons, List.foldl_nil,
      ExtendStep_Begin _ _ _ _ _ _ hd, ih]
    by_cases hc : L.Begin.get d ≠ Cart.Range.Begin.get d ∨ Cart.Periodic.get d = true
    · by_cases h1 : n = d
      · have h2 : ¬ d < n := by omega
        have h3 : d < n + 1 := by omega
        simp [hc, h1, h3]
      · by_cases h2 : d < n
        · have h3 : d < n + 1 := by omega
          simp [hc, h1, h2, h3]
        · have h3 : ¬ d < n + 1 := by omega
          simp [hc, h1, h2, h3]
    · simp [hc]

theorem foldl_ExtendStep_End (Cart : cart) (L : range) (A : Int) (n : Nat) (R : range)
    (d : Nat) (hd : d < 3) :
    ((List.range n).foldl (ExtendStep Cart L A) R).End.get d =
      if d < n ∧ (L.End.get d ≠ Cart.Range.End.get d ∨ Cart.Periodic.get d = true)
      then R.End.get d + A else R.End.get d := by
  induction n with
  | zero => simp
  | succ n ih =>
    rw [List.range_succ, List.foldl_append, List.foldl_cons, List.foldl_nil,
      ExtendStep_End _ _ _ _ _ _ hd, ih]
    by_cases hc : L.End.get d ≠ Cart.Range.End.get d ∨ Cart.Periodic.get d = true
    · by_cases h1 : n = d
      · have h2 : ¬ d < n := by omega
        have h3 : d < n + 1 := by omega
        simp [hc, h1, h3]
      · by_cases h2 : d < n
        · have h3 : d < n + 1 := by omega
          simp [hc, h1, h2, h3]
        · have h3 : ¬ d < n + 1 := by omega
          simp [hc, h1, h2, h3]
    · simp [hc]

theorem foldl_UniqueStep_Begin (Cart : cart) (L : range) (n : Nat) (R : range) :
    ((List.range n).foldl (UniqueStep Cart L) R).Begin = R.Begin := by
  induction n with
  | zero => simp
  | succ n ih =>
    rw [List.range_succ, List.foldl_append, List.foldl_cons, List.foldl_nil,
      UniqueStep_Begin, ih]

theorem foldl_UniqueStep_End (Cart : cart) (L : range) (n : Nat) (R : range)
    (d : Nat) (hd : d < 3) :
    ((List.range n).foldl (UniqueStep Cart L) R).End.get d =
      if d < n ∧ (L.End.get d = Cart.Range.End.get d ∧ Cart.Periodic.get d = true)
      then R.End.get d + 1 else R.End.get d := by
  induction n with
  | zero => simp
  | succ n ih =>
    rw [List.range_succ, List.foldl_append, List.foldl_cons, List.foldl_nil,
      UniqueStep_End _ _ _ _ _ hd, ih]
    by_cases hc : L.End.get d = Cart.Range.End.get d ∧ Cart.Periodic.get d = true
    · by_cases h1 : n = d
      · have h2 : ¬ d < n := by omega
        have h3 : d < n + 1 := by omega
        simp [hc, h1, h3]
      · by_cases h2 : d < n
        · have h3 : d < n + 1 := by omega
          simp [hc, h1, h2, h3]
        · have h3 : ¬ d < n + 1 := by omega
          simp [hc, h1, h2, h3]
    · simp [hc]

/-- Closed form of `Begin(d)` of `ExtendLocalRange`, for every cart. -/
theorem ExtendLocalRange_Begin (Cart : cart) (L : range) (A : Int) (d : Nat) (hd : d < 3) :
    (ExtendLocalRange Cart L A).Begin.get d =
      if d < Cart.Dimension ∧
        (L.Begin.get d ≠ Cart.Range.Begin.get d ∨ Cart.Periodic.get d = true)
      then L.Begin.get d - A else L.Begin.get d := by
  unfold ExtendLocalRange
  by_cases hU : Cart.PeriodicStorage = periodic_storage.UNIQUE
  · simp only [hU, if_true]
    rw [foldl_UniqueStep_Begin, foldl_ExtendStep_Begin _ _ _ _ _ _ hd]
  · simp only [hU, if_false]
    rw [foldl_ExtendStep_Begin _ _ _ _ _ _ hd]

/-- Closed form of `End(d)` of `ExtendLocalRange`, for every cart. -/
theorem ExtendLocalRange_End (Cart : cart) (L : range) (A : Int) (d : Nat) (hd : d < 3) :
    (ExtendLocalRange Cart L A).End.get d =
      (if d < Cart.Dimension ∧
        (L.End.get d ≠ Cart.Range.End.get d ∨ Cart.Periodic.get d = true)
      then L.End.get d + A else L.End.get d) +
      (if Cart.PeriodicStorage = periodic_storage.UNIQUE ∧ d < Cart.Dimension ∧
        L.End.get d = Cart.Range.End.get d ∧ Cart.Periodic.get d = true then 1 else 0) := by
  unfold ExtendLocalRange
  by_cases hU : Cart.PeriodicStorage = periodic_storage.UNIQUE
  · simp only [hU, if_true, true_and]
    rw [foldl_UniqueStep_End _ _ _ _ _ hd, foldl_ExtendStep_End _ _ _ _ _ _ hd]
    split_ifs <;> simp
  · simp only [hU, if_false, false_and]
    rw [foldl_ExtendStep_End _ _ _ _ _ _ hd]
    simp

/-! ## Claims about `ExtendLocalRange` -/

/-- C1: for a cart with `DUPLICATED` storage, or with no periodic dimension below
`Cart.Dimension()`, `ExtendLocalRange` moves `Begin(d)` down and `End(d)` up by
`ExtendAmount` in every dimension `d` below `Cart.Dimension()`, except that a face
lying on the global bound of the cart in a non-periodic dimension stays where it
is; the dimensions at or above `Cart.Dimension()` are returned unchanged. -/
theorem ExtendLocalRange_faces_without_wrap_layer (Cart : cart) (LocalRange : range)
    (ExtendAmount : Int)
    (hStorage : Cart.PeriodicStorage = periodic_storage.DUPLICATED ∨
      ∀ d, d < Cart.Dimension → Cart.Periodic.get d = false)
    (d : Nat) (hd : d < MAX_DIMS) :
    (d < Cart.Dimension →
      (ExtendLocalRange Cart LocalRange ExtendAmount).Begin.get d =
        (if LocalRange.Begin.get d = Cart.Range.Begin.get d ∧ Cart.Periodic.get d = false
          then LocalRange.Begin.get d else LocalRange.Begin.get d - ExtendAmount) ∧
      (ExtendLocalRange Cart LocalRange ExtendAmount).End.get d =
        (if LocalRange.End.get d = Cart.Range.End.get d ∧ Cart.Periodic.get d = false
          then LocalRange.End.get d else LocalRange.End.get d + ExtendAmount)) ∧
    (Cart.Dimension ≤ d →
      (ExtendLocalRange Cart LocalRange ExtendAmount).Begin.get d = LocalRange.Begin.get d ∧
      (ExtendLocalRange Cart LocalRange ExtendAmount).End.get d = LocalRange.End.get d) := by
  have hd3 : d < 3 := hd
  rw [ExtendLocalRange_Begin _ _ _ _ hd3, ExtendLocalRange_End _ _ _ _ hd3]
  constructor
  · intro hlt
    have hnoU : ¬ (Cart.PeriodicStorage = periodic_storage.UNIQUE ∧ d < Cart.Dimension ∧
        LocalRange.End.get d = Cart.Range.End.get d ∧ Cart.Periodic.get d = true) := by
      rintro ⟨hU, -, -, hP⟩
      rcases hStorage with h | h
      · rw [hU] at h
        exact periodic_storage.noConfusion h
      · rw [h d hlt] at hP
        exact Bool.noConfusion hP
    rw [if_neg hnoU]
    cases hP : Cart.Periodic.get d <;>
      by_cases hB : LocalRange.Begin.get d = Cart.Range.Begin.get d <;>
      by_cases hE : LocalRange.End.get d = Cart.Range.End.get d <;>
      simp [hlt, hB, hE]
  · intro hge
    have hnlt : ¬ d < Cart.Dimension := by omega
    simp [hnlt]

/-- Witness for C1: a two-dimensional `DUPLICATED` cart, periodic in dimension 1,
with a local range touching the lower global bound in dimension 0. -/
theorem ExtendLocalRange_faces_without_wrap_layer_witness :
    ((⟨2, ⟨⟨0, 0, 0⟩, ⟨6, 6, 1⟩⟩, ⟨false, true, false⟩, periodic_storage.DUPLICATED⟩ :
        cart).PeriodicStorage = periodic_storage.DUPLICATED ∨
      ∀ d, d < 2 → (⟨false, true, false⟩ : tuple Bool).get d = false) ∧
    (0 < 2 →
      (ExtendLocalRange ⟨2, ⟨⟨0, 0, 0⟩, ⟨6, 6, 1⟩⟩, ⟨false, true, false⟩,
          periodic_storage.DUPLICATED⟩ ⟨⟨0, 3, 0⟩, ⟨3, 6, 1⟩⟩ 2).Begin.get 0 =
        (if (0 : Int) = 0 ∧ false = false then (0 : Int) else 0 - 2) ∧
      (ExtendLocalRange ⟨2, ⟨⟨0, 0, 0⟩, ⟨6, 6, 1⟩⟩, ⟨false, true, false⟩,
          periodic_storage.DUPLICATED⟩ ⟨⟨0, 3, 0⟩, ⟨3, 6, 1⟩⟩ 2).End.get 0 =
        (if (3 : Int) = 6 ∧ false = false then (3 : Int) else 3 + 2)) ∧
    (2 ≤ 0 →
      (ExtendLocalRange ⟨2, ⟨⟨0, 0, 0⟩, ⟨6, 6, 1⟩⟩, ⟨false, true, false⟩,
          periodic_storage.DUPLICATED⟩ ⟨⟨0, 3, 0⟩, ⟨3, 6, 1⟩⟩ 2).Begin.get 0 = 0 ∧
      (ExtendLocalRange ⟨2, ⟨⟨0, 0, 0⟩, ⟨6, 6, 1⟩⟩, ⟨false, true, false⟩,
          periodic_storage.DUPLICATED⟩ ⟨⟨0, 3, 0⟩, ⟨3, 6, 1⟩⟩ 2).End.get 0 = 3) :=
  ⟨Or.inl rfl,
    ExtendLocalRange_faces_without_wrap_layer
      ⟨2, ⟨⟨0, 0, 0⟩, ⟨6, 6, 1⟩⟩, ⟨false, true, false⟩, periodic_storage.DUPLICATED⟩
      ⟨⟨0, 3, 0⟩, ⟨3, 6, 1⟩⟩ 2 (Or.inl rfl) 0 (by decide)⟩

/-- C2: with `UNIQUE` storage `ExtendLocalRange` adds exactly one layer at the
wrap point.  In a periodic dimension `d` below `Cart.Dimension()` whose local
`End(d)` is the global `End(d)`, the result has
`End(d) = LocalRange.End(d) + ExtendAmount + 1`, one more than under `DUPLICATED`
storage; every other face is the one computed under `DUPLICATED` storage. -/
theorem ExtendLocalRange_unique_wrap_layer (Cart : cart) (LocalRange : range)
    (ExtendAmount : Int) (hU : Cart.PeriodicStorage = periodic_storage.UNIQUE)
    (d : Nat) (hd : d < MAX_DIMS) :
    (ExtendLocalRange Cart LocalRange ExtendAmount).Begin.get d =
      (ExtendLocalRange ⟨Cart.Dimension, Cart.Range, Cart.Periodic, periodic_storage.DUPLICATED⟩
        LocalRange ExtendAmount).Begin.get d ∧
    ((d < Cart.Dimension ∧ Cart.Periodic.get d = true ∧
        LocalRange.End.get d = Cart.Range.End.get d) →
      (ExtendLocalRange Cart LocalRange ExtendAmount).End.get d =
        LocalRange.End.get d + ExtendAmount + 1 ∧
      (ExtendLocalRange Cart LocalRange ExtendAmount).End.get d =
        (ExtendLocalRange
          ⟨Cart.Dimension, Cart.Range, Cart.Periodic, periodic_storage.DUPLICATED⟩
          LocalRange ExtendAmount).End.get d + 1) ∧
    (¬ (d < Cart.Dimension ∧ Cart.Periodic.get d = true ∧
        LocalRange.End.get d = Cart.Range.End.get d) →
      (ExtendLocalRange Cart LocalRange ExtendAmount).End.get d =
        (ExtendLocalRange
          ⟨Cart.Dimension, Cart.Range, Cart.Periodic, periodic_storage.DUPLICATED⟩
          LocalRange ExtendAmount).End.get d) := by
  have hd3 : d < 3 := hd
  simp only [ExtendLocalRange_Begin _ _ _ _ hd3, ExtendLocalRange_End _ _ _ _ hd3, hU]
  refine ⟨trivial, ?_, ?_⟩
  · rintro ⟨h1, h2, h3⟩
    simp [h1, h2, h3]
  · intro hn
    have hn2 : ¬ (d < Cart.Dimension ∧ LocalRange.End.get d = Cart.Range.End.get d ∧
        Cart.Periodic.get d = true) := by
      rintro ⟨a, b, c⟩
      exact hn ⟨a, c, b⟩
    simp [hn2]

/-- Witness for C2: a one-dimensional periodic `UNIQUE` cart of four points and
the local range `[3,4)` that ends at the wrap point. -/
theorem ExtendLocalRange_unique_wrap_layer_witness :
    (⟨1, ⟨⟨0, 0, 0⟩, ⟨4, 1, 1⟩⟩, ⟨true, false, false⟩, periodic_storage.UNIQUE⟩ :
        cart).PeriodicStorage = periodic_storage.UNIQUE ∧
    (ExtendLocalRange ⟨1, ⟨⟨0, 0, 0⟩, ⟨4, 1, 1⟩⟩, ⟨true, false, false⟩,
        periodic_storage.UNIQUE⟩ ⟨⟨3, 0, 0⟩, ⟨4, 1, 1⟩⟩ 1).End.get 0 = 4 + 1 + 1 :=
  ⟨rfl,
    ((ExtendLocalRange_unique_wrap_layer
      ⟨1, ⟨⟨0, 0, 0⟩, ⟨4, 1, 1⟩⟩, ⟨true, false, false⟩, periodic_storage.UNIQUE⟩
      ⟨⟨3, 0, 0⟩, ⟨4, 1, 1⟩⟩ 1 rfl 0 (by decide)).2.1 ⟨by decide, rfl, rfl⟩).1⟩

/-! ## Facts about the containers -/

theorem mem_set_Insert (S : List Int) (a x : Int) : x ∈ set_Insert S a ↔ x = a ∨ x ∈ S := by
  induction S with
  | nil => simp [set_Insert]
  | cons b S ih =>
    unfold set_Insert
    by_cases h1 : a < b
    · simp [h1]
    · by_cases h2 : a = b
      · subst h2
        simp
      · simp only [h1, h2, if_false, List.mem_cons, ih]
        tauto

theorem set_Insert_lower_bound (S : List Int) (a c : Int) (hca : c < a)
    (hS : ∀ x ∈ S, c < x) : ∀ x ∈ set_Insert S a, c < x := by
  intro x hx
  rcases (mem_set_Insert S a x).1 hx with h | h
  · rw [h]; exact hca
  · exact hS x h

theorem sorted_set_Insert (S : List Int) (a : Int) (hS : S.Pairwise (fun x y => x < y)) :
    (set_Insert S a).Pairwise (fun x y => x < y) := by
  induction S with
  | nil => simp [set_Insert]
  | cons b S ih =>
    rw [List.pairwise_cons] at hS
    unfold set_Insert
    by_cases h1 : a < b
    · simp only [h1, if_true]
      rw [List.pairwise_cons, List.pairwise_cons]
      refine ⟨?_, hS.1, hS.2⟩
      intro x hx
      rcases List.mem_cons.1 hx with h | h
      · rw [h]; exact h1
      · exact lt_trans h1 (hS.1 x h)
    · by_cases h2 : a = b
      · subst h2
        simp only [h1, if_false, if_true]
        rw [List.pairwise_cons]
        exact hS
      · simp only [h1, h2, if_false]
        rw [List.pairwise_cons]
        refine ⟨?_, ih hS.2⟩
        have hba : b < a := by omega
        exact set_Insert_lower_bound S a b hba hS.1

theorem mem_set_Erase (S : List Int) (a x : Int) : x ∈ set_Erase S a ↔ x ∈ S ∧ x ≠ a := by
  simp [set_Erase, List.mem_filter]

theorem sorted_set_Erase (S : List Int) (a : Int) (hS : S.Pairwise (fun x y => x < y)) :
    (set_Erase S a).Pairwise (fun x y => x < y) :=
  List.Pairwise.filter _ hS

theorem mem_foldl_set_Insert (l : List Int) (S : List Int) (x : Int) :
    x ∈ l.foldl set_Insert S ↔ x ∈ S ∨ x ∈ l := by
  induction l generalizing S with
  | nil => simp
  | cons a l ih =>
    rw [List.foldl_cons, ih, mem_set_Insert, List.mem_cons]
    tauto

theorem map_Find_map_Insert {β : Type} (M : List (Int × β)) (k : Int) (v : β) (i : Int) :
    map_Find (map_Insert M k v) i = if i = k then some v else map_Find M i := by
  induction M with
  | nil =>
    by_cases h : i = k
    · subst h
      simp [map_Insert, map_Find]
    · have h2 : ¬ k = i := fun e => h e.symm
      simp [map_Insert, map_Find, h, h2]
  | cons e M ih =>
    obtain ⟨k0, v0⟩ := e
    unfold map_Insert
    by_cases h1 : k < k0
    · by_cases h : i = k
      · subst h
        simp [h1, map_Find]
      · have h2 : ¬ k = i := fun e => h e.symm
        simp [h1, map_Find, h, h2]
    · by_cases h2 : k = k0
      · subst h2
        by_cases h : i = k
        · subst h
          simp [map_Find]
        · have h3 : ¬ k = i := fun e => h e.symm
          simp [map_Find, h, h3]
      · simp only [h1, h2, if_false]
        by_cases h : i = k
        · subst h
          have h3 : ¬ k0 = i := fun e => h2 e.symm
          have ih2 := ih
          simp only [map_Find, if_true] at ih2
          simp [map_Find, h3, List.find?_cons, ih2]
        · simp only [h, if_false] at ih ⊢
          by_cases h4 : k0 = i
          · simp [map_Find, h4, List.find?_cons]
          · simp only [map_Find] at ih
            simp [map_Find, h4, List.find?_cons, ih]

theorem map_Find_foldl_map_Insert {β : Type} (f : Int → β) (l : List Int) (M : List (Int × β))
    (i : Int) :
    map_Find (l.foldl (fun M k => map_Insert M k (f k)) M) i =
      if i ∈ l then some (f i) else map_Find M i := by
  induction l using List.reverseRecOn with
  | nil => simp
  | append_singleton l a ih =>
    rw [List.foldl_append, List.foldl_cons, List.foldl_nil, map_Find_map_Insert, ih]
    by_cases h : i = a
    · subst h
      simp
    · by_cases h2 : i ∈ l <;> simp [h, h2]

/-! ## Facts about `DetectNeighbors` -/

theorem mem_loopValues (a b x : Int) : x ∈ loopValues a b ↔ a ≤ x ∧ x < b := by
  unfold loopValues
  rw [List.mem_map]
  constructor
  · rintro ⟨n, hn, rfl⟩
    rw [List.mem_range] at hn
    simp only [Int.ofNat_eq_coe]
    omega
  · rintro ⟨h1, h2⟩
    refine ⟨(x - a).toNat, ?_, ?_⟩
    · rw [List.mem_range]
      omega
    · simp only [Int.ofNat_eq_coe]
      omega

theorem range.Contains_iff (R : range) (p : tuple Int) :
    R.Contains p = true ↔ ∀ d, d < 3 → R.Begin.get d ≤ p.get d ∧ p.get d < R.End.get d := by
  unfold range.Contains
  simp only [Bool.and_eq_true, decide_eq_true_eq]
  constructor
  · rintro ⟨⟨h0, h1⟩, h2⟩ d hd
    have h : d = 0 ∨ d = 1 ∨ d = 2 := by omega
    rcases h with h | h | h <;> subst h
    · exact h0
    · exact h1
    · exact h2
  · intro h
    exact ⟨⟨h 0 (by omega), h 1 (by omega)⟩, h 2 (by omega)⟩

theorem mem_ExtendedPoints (Cart : cart) (L : range) (p : tuple Int) :
    p ∈ DetectNeighbors_ExtendedPoints Cart L ↔
      ∃ q, (DetectNeighbors_ExtendedRange Cart L).Contains q = true ∧
        L.Contains q = false ∧ p = Cart.PeriodicAdjust q := by
  unfold DetectNeighbors_ExtendedPoints
  simp only [List.mem_flatMap, mem_loopValues]
  constructor
  · rintro ⟨k, hk, j, hj, i, hi, hp⟩
    refine ⟨⟨i, j, k⟩, ?_, ?_, ?_⟩
    · unfold range.Contains
      simp only [tuple.get] at hk hj hi
      simp [hk, hj, hi]
    · cases hc : L.Contains ⟨i, j, k⟩
      · rfl
      · rw [hc] at hp
        simp at hp
    · cases hc : L.Contains ⟨i, j, k⟩
      · rw [hc] at hp
        simpa using hp
      · rw [hc] at hp
        simp at hp
  · rintro ⟨q, hq, hL, rfl⟩
    obtain ⟨i, j, k⟩ := q
    unfold range.Contains at hq
    simp only [Bool.and_eq_true, decide_eq_true_eq] at hq
    refine ⟨k, hq.2, j, hq.1.2, i, hq.1.1, ?_⟩
    rw [hL]
    simp

theorem mem_foldl_RankStep (DecompHash : decomp_hash)
    (Bins : List (Int × List decomp_hash_region_data)) (pts : List (tuple Int))
    (S : List Int) (x : Int) :
    x ∈ pts.foldl (RankStep DecompHash Bins) S ↔
      x ∈ S ∨ ∃ p ∈ pts, ∃ Region,
        FirstContaining ((map_Find Bins (binIndexOf DecompHash p)).getD []) p = some Region ∧
        Region.Rank = x := by
  induction pts generalizing S with
  | nil => simp
  | cons p pts ih =>
    rw [List.foldl_cons, ih]
    unfold RankStep
    simp only [List.mem_cons, exists_eq_or_imp]
    cases hF : FirstContaining ((map_Find Bins (binIndexOf DecompHash p)).getD []) p with
    | none => simp
    | some Region =>
      simp only [mem_set_Insert, Option.some.injEq]
      constructor
      · rintro ((h | h) | h)
        · exact Or.inr (Or.inl ⟨Region, rfl, h.symm⟩)
        · exact Or.inl h
        · exact Or.inr (Or.inr h)
      · rintro (h | ⟨R, hR, h⟩ | h)
        · exact Or.inl (Or.inr h)
        · subst hR
          exact Or.inl (Or.inl h.symm)
        · exact Or.inr h

theorem sorted_foldl_RankStep (DecompHash : decomp_hash)
    (Bins : List (Int × List decomp_hash_region_data)) (pts : List (tuple Int))
    (S : List Int) (hS : S.Pairwise (fun x y => x < y)) :
    (pts.foldl (RankStep DecompHash Bins) S).Pairwise (fun x y => x < y) := by
  induction pts generalizing S with
  | nil => exact hS
  | cons p pts ih =>
    rw [List.foldl_cons]
    apply ih
    unfold RankStep
    simp only
    split
    · exact sorted_set_Insert _ _ hS
    · exact hS

/-- The bins retrieved at line 77 hold, for the bin of every enumerated point, the
records of that bin. -/
theorem map_Find_Bins (DecompHash : decomp_hash) (pts : List (tuple Int)) (p : tuple Int)
    (hp : p ∈ pts) :
    map_Find
      (((pts.map (binIndexOf DecompHash)).foldl set_Insert []).foldl
        (fun M iBin => map_Insert M iBin (DecompHash.RetrieveBin iBin)) [])
      (binIndexOf DecompHash p) = some (DecompHash.RetrieveBin (binIndexOf DecompHash p)) := by
  rw [map_Find_foldl_map_Insert DecompHash.RetrieveBin]
  have hmem : binIndexOf DecompHash p ∈
      (pts.map (binIndexOf DecompHash)).foldl set_Insert [] := by
    rw [mem_foldl_set_Insert]
    right
    exact List.mem_map.2 ⟨p, hp, rfl⟩
  rw [if_pos hmem]

/-- Membership in the result of `DetectNeighbors`, in terms of the enumerated
points and of the records of their bins. -/
theorem mem_DetectNeighbors_points (Cart : cart) (CommRank : Int) (L : range)
    (DecompHash : decomp_hash) (r : Int) :
    r ∈ DetectNeighbors Cart CommRank L DecompHash ↔
      r ≠ CommRank ∧ ∃ p ∈ DetectNeighbors_ExtendedPoints Cart L, ∃ Region,
        FirstContaining (DecompHash.RetrieveBin (binIndexOf DecompHash p)) p = some Region ∧
        Region.Rank = r := by
  unfold DetectNeighbors
  simp only
  rw [mem_set_Erase, mem_foldl_RankStep]
  simp only [List.not_mem_nil, false_or]
  constructor
  · rintro ⟨⟨p, hp, Region, hF, hR⟩, hne⟩
    refine ⟨hne, p, hp, Region, ?_, hR⟩
    rw [map_Find_Bins DecompHash _ p hp] at hF
    exact hF
  · rintro ⟨hne, p, hp, Region, hF, hR⟩
    refine ⟨⟨p, hp, Region, ?_, hR⟩, hne⟩
    rw [map_Find_Bins DecompHash _ p hp]
    exact hF

theorem sorted_DetectNeighbors (Cart : cart) (CommRank : Int) (L : range)
    (DecompHash : decomp_hash) :
    (DetectNeighbors Cart CommRank L DecompHash).Pairwise (fun x y => x < y) := by
  unfold DetectNeighbors
  exact sorted_set_Erase _ _ (sorted_foldl_RankStep _ _ _ _ List.Pairwise.nil)

/-! ## Claims about `DetectNeighbors` -/

/-- C3: `DetectNeighbors` returns rank `r` iff `r` is not the calling rank and
there is a ghost point `q` (inside the internally extended range, outside
`LocalRange`) whose periodically adjusted image `p` has, in its retrieved bin, a
first region in record order containing `p`, and that region has rank `r`: the
bin reads `pre ++ Region :: post`, no region of `pre` contains `p`, `Region`
contains `p`; the regions of `post` play no part, whether they contain `p` or
not. -/
theorem DetectNeighbors_returns_first_match_ranks (Cart : cart) (CommRank : Int)
    (LocalRange : range) (DecompHash : decomp_hash) (r : Int) :
    r ∈ DetectNeighbors Cart CommRank LocalRange DecompHash ↔
      r ≠ CommRank ∧ ∃ q : tuple Int,
        (DetectNeighbors_ExtendedRange Cart LocalRange).Contains q = true ∧
        LocalRange.Contains q = false ∧
        ∃ pre Region post,
          DecompHash.RetrieveBin (binIndexOf DecompHash (Cart.PeriodicAdjust q)) =
            pre ++ Region :: post ∧
          (∀ R ∈ pre, R.Extents.Contains (Cart.PeriodicAdjust q) = false) ∧
          Region.Extents.Contains (Cart.PeriodicAdjust q) = true ∧
          Region.Rank = r := by
  rw [mem_DetectNeighbors_points]
  constructor
  · rintro ⟨hne, p, hp, Region, hF, hR⟩
    obtain ⟨q, hq, hL, rfl⟩ := (mem_ExtendedPoints Cart LocalRange p).1 hp
    unfold FirstContaining at hF
    obtain ⟨hc, pre, post, hsplit, hpre⟩ := List.find?_eq_some.1 hF
    refine ⟨hne, q, hq, hL, pre, Region, post, hsplit, ?_, hc, hR⟩
    intro R hRm
    have h := hpre R hRm
    simpa using h
  · rintro ⟨hne, q, hq, hL, pre, Region, post, hsplit, hpre, hc, hR⟩
    refine ⟨hne, Cart.PeriodicAdjust q, ?_, Region, ?_, hR⟩
    · exact (mem_ExtendedPoints Cart LocalRange _).2 ⟨q, hq, hL, rfl⟩
    · unfold FirstContaining
      refine List.find?_eq_some.2 ⟨hc, pre, post, hsplit, ?_⟩
      intro R hRm
      simp [hpre R hRm]

/-- C4: for every cart, local range and hash contents, the list returned by
`DetectNeighbors` does not contain the calling rank `Comm.Rank()`. -/
theorem DetectNeighbors_excludes_calling_rank (Cart : cart) (CommRank : Int)
    (LocalRange : range) (DecompHash : decomp_hash) :
    CommRank ∉ DetectNeighbors Cart CommRank LocalRange DecompHash := by
  intro h
  exact ((mem_DetectNeighbors_points Cart CommRank LocalRange DecompHash CommRank).1 h).1 rfl

/-- C5: the list returned by `DetectNeighbors` is strictly increasing in rank, and
therefore lists no rank twice. -/
theorem DetectNeighbors_strictly_increasing (Cart : cart) (CommRank : Int)
    (LocalRange : range) (DecompHash : decomp_hash) :
    (DetectNeighbors Cart CommRank LocalRange DecompHash).Sorted (fun x y => x < y) ∧
    (DetectNeighbors Cart CommRank LocalRange DecompHash).Nodup := by
  have h := sorted_DetectNeighbors Cart CommRank LocalRange DecompHash
  refine ⟨h, ?_⟩
  exact List.Pairwise.imp (fun hxy => ne_of_lt hxy) h

/-- C6: the code at the failing input.  On the periodic `UNIQUE` cart over `[0,4)`
with one point per rank, rank 3 (local range `[3,4)`) extends internally to
`[2,5)`, while `ExtendLocalRange(Cart, LocalRange, 1)`, the extended range the
partition is built with, is `[2,6)`: the two ranges differ.  The point `5` of the
latter is a ghost point of the partition, wraps to `1` and lies in the local
range of rank 1, yet `DetectNeighbors` returns `[0, 2]`, without rank 1. -/
theorem DetectNeighbors_ExtendedRange_misses_unique_layer :
    DetectNeighbors_ExtendedRange (periodicCart1D 4 periodic_storage.UNIQUE) (range1D 3 4) =
      range1D 2 5 ∧
    ExtendLocalRange (periodicCart1D 4 periodic_storage.UNIQUE) (range1D 3 4) 1 =
      range1D 2 6 ∧
    DetectNeighbors_ExtendedRange (periodicCart1D 4 periodic_storage.UNIQUE) (range1D 3 4) ≠
      ExtendLocalRange (periodicCart1D 4 periodic_storage.UNIQUE) (range1D 3 4) 1 ∧
    (range1D 2 6).Contains ⟨5, 0, 0⟩ = true ∧
    (range1D 3 4).Contains ⟨5, 0, 0⟩ = false ∧
    (periodicCart1D 4 periodic_storage.UNIQUE).PeriodicAdjust ⟨5, 0, 0⟩ = ⟨1, 0, 0⟩ ∧
    (onePointRanges 1).Contains ⟨1, 0, 0⟩ = true ∧
    DetectNeighbors (periodicCart1D 4 periodic_storage.UNIQUE) 3 (range1D 3 4)
      (singleBinHash 4 onePointRanges) = [0, 2] := by
  decide

/-- Where the two extensions agree.  The range `DetectNeighbors` extends
internally and `ExtendLocalRange(Cart, LocalRange, 1)` have the same `Begin(d)`
in every dimension, and the same `End(d)` except in a periodic dimension below
`Cart.Dimension()` of a `UNIQUE` cart whose local `End(d)` is the global
`End(d)`, where `ExtendLocalRange` is one larger.  When no dimension is of that
kind (in particular for `DUPLICATED` storage and for carts without periodic
dimension) the two ranges are equal. -/
theorem DetectNeighbors_ExtendedRange_eq_ExtendLocalRange_without_unique_layer
    (Cart : cart) (LocalRange : range) :
    (∀ d, d < MAX_DIMS →
      (DetectNeighbors_ExtendedRange Cart LocalRange).Begin.get d =
        (ExtendLocalRange Cart LocalRange 1).Begin.get d ∧
      (ExtendLocalRange Cart LocalRange 1).End.get d =
        (DetectNeighbors_ExtendedRange Cart LocalRange).End.get d +
          (if Cart.PeriodicStorage = periodic_storage.UNIQUE ∧ d < Cart.Dimension ∧
            LocalRange.End.get d = Cart.Range.End.get d ∧ Cart.Periodic.get d = true
          then 1 else 0)) ∧
    ((∀ d, d < MAX_DIMS → ¬ (Cart.PeriodicStorage = periodic_storage.UNIQUE ∧
        d < Cart.Dimension ∧ LocalRange.End.get d = Cart.Range.End.get d ∧
        Cart.Periodic.get d = true)) →
      DetectNeighbors_ExtendedRange Cart LocalRange = ExtendLocalRange Cart LocalRange 1) := by
  have key : ∀ d, d < MAX_DIMS →
      (DetectNeighbors_ExtendedRange Cart LocalRange).Begin.get d =
        (ExtendLocalRange Cart LocalRange 1).Begin.get d ∧
      (ExtendLocalRange Cart LocalRange 1).End.get d =
        (DetectNeighbors_ExtendedRange Cart LocalRange).End.get d +
          (if Cart.PeriodicStorage = periodic_storage.UNIQUE ∧ d < Cart.Dimension ∧
            LocalRange.End.get d = Cart.Range.End.get d ∧ Cart.Periodic.get d = true
          then 1 else 0) := by
    intro d hd
    have hd3 : d < 3 := hd
    unfold DetectNeighbors_ExtendedRange
    rw [ExtendLocalRange_Begin _ _ _ _ hd3, ExtendLocalRange_End _ _ _ _ hd3,
      foldl_ExtendStep_Begin _ _ _ _ _ _ hd3, foldl_ExtendStep_End _ _ _ _ _ _ hd3]
    exact ⟨rfl, rfl⟩
  refine ⟨key, ?_⟩
  intro hno
  have hB : (DetectNeighbors_ExtendedRange Cart LocalRange).Begin =
      (ExtendLocalRange Cart LocalRange 1).Begin :=
    tuple.ext_get _ _ (fun d hd => (key d hd).1)
  have hE : (DetectNeighbors_ExtendedRange Cart LocalRange).End =
      (ExtendLocalRange Cart LocalRange 1).End := by
    apply tuple.ext_get
    intro d hd
    have h := (key d hd).2
    rw [if_neg (hno d hd)] at h
    omega
  cases h1 : DetectNeighbors_ExtendedRange Cart LocalRange with
  | mk b1 e1 =>
    cases h2 : ExtendLocalRange Cart LocalRange 1 with
    | mk b2 e2 =>
      rw [h1, h2] at hB hE
      simp only at hB hE
      rw [hB, hE]

/-! ## Periodic adjustment and the geometry of ghost shells -/

theorem PeriodicAdjust_get (Cart : cart) (q : tuple Int) (d : Nat) (hd : d < 3) :
    (Cart.PeriodicAdjust q).get d = Cart.PeriodicAdjustDim d (q.get d) := by
  have h : d = 0 ∨ d = 1 ∨ d = 2 := by omega
  rcases h with h | h | h <;> subst h <;> rfl

/-- Closed form of `Begin(d)` of the range `DetectNeighbors` extends internally. -/
theorem DetectNeighbors_ExtendedRange_Begin (Cart : cart) (L : range) (d : Nat) (hd : d < 3) :
    (DetectNeighbors_ExtendedRange Cart L).Begin.get d =
      if d < Cart.Dimension ∧
        (L.Begin.get d ≠ Cart.Range.Begin.get d ∨ Cart.Periodic.get d = true)
      then L.Begin.get d - 1 else L.Begin.get d :=
  foldl_ExtendStep_Begin Cart L 1 Cart.Dimension L d hd

/-- Closed form of `End(d)` of the range `DetectNeighbors` extends internally. -/
theorem DetectNeighbors_ExtendedRange_End (Cart : cart) (L : range) (d : Nat) (hd : d < 3) :
    (DetectNeighbors_ExtendedRange Cart L).End.get d =
      if d < Cart.Dimension ∧
        (L.End.get d ≠ Cart.Range.End.get d ∨ Cart.Periodic.get d = true)
      then L.End.get d + 1 else L.End.get d :=
  foldl_ExtendStep_End Cart L 1 Cart.Dimension L d hd

/-- With `UNIQUE` storage, or in a dimension that is not periodic, a coordinate
inside the global range is its own periodic image. -/
theorem PeriodicAdjustDim_of_mem (Cart : cart)
    (hStorage : Cart.PeriodicStorage = periodic_storage.UNIQUE ∨
      ∀ d, d < Cart.Dimension → Cart.Periodic.get d = false)
    (d : Nat) (y : Int)
    (hy : Cart.Range.Begin.get d ≤ y ∧ y < Cart.Range.End.get d) :
    Cart.PeriodicAdjustDim d y = y := by
  unfold cart.PeriodicAdjustDim
  by_cases hper : d < Cart.Dimension ∧ Cart.Periodic.get d = true
  · rw [if_pos hper]
    have hU : Cart.PeriodicStorage = periodic_storage.UNIQUE := by
      rcases hStorage with h | h
      · exact h
      · rw [h d hper.1] at hper
        exact absurd hper.2 (by simp)
    have hP : Cart.PeriodSize d = Cart.Range.End.get d - Cart.Range.Begin.get d := by
      unfold cart.PeriodSize
      rw [hU]
    rw [hP, Int.emod_eq_of_lt (by omega) (by omega)]
    omega
  · rw [if_neg hper]

/-- One dimension of the mirror argument: if the coordinate `x` lies in the
extended range of `LB` and its periodic image lies in `LA`, then some coordinate
`y` of the extended range of `LA` has its periodic image in `LB`. -/
theorem ghost_mirror_dim (Cart : cart)
    (hStorage : Cart.PeriodicStorage = periodic_storage.UNIQUE ∨
      ∀ d, d < Cart.Dimension → Cart.Periodic.get d = false)
    (LA LB : range) (d : Nat) (hd : d < 3)
    (hAin : Cart.Range.Begin.get d ≤ LA.Begin.get d ∧ LA.End.get d ≤ Cart.Range.End.get d)
    (hBin : Cart.Range.Begin.get d ≤ LB.Begin.get d ∧ LB.End.get d ≤ Cart.Range.End.get d)
    (hBne : LB.Begin.get d < LB.End.get d) (x : Int)
    (hx : (DetectNeighbors_ExtendedRange Cart LB).Begin.get d ≤ x ∧
      x < (DetectNeighbors_ExtendedRange Cart LB).End.get d)
    (hp : LA.Begin.get d ≤ Cart.PeriodicAdjustDim d x ∧
      Cart.PeriodicAdjustDim d x < LA.End.get d) :
    ∃ y, ((DetectNeighbors_ExtendedRange Cart LA).Begin.get d ≤ y ∧
        y < (DetectNeighbors_ExtendedRange Cart LA).End.get d) ∧
      (LB.Begin.get d ≤ Cart.PeriodicAdjustDim d y ∧
        Cart.PeriodicAdjustDim d y < LB.End.get d) := by
  rw [DetectNeighbors_ExtendedRange_Begin _ _ _ hd, DetectNeighbors_ExtendedRange_End _ _ _ hd]
    at hx
  rw [DetectNeighbors_ExtendedRange_Begin _ _ _ hd, DetectNeighbors_ExtendedRange_End _ _ _ hd]
  by_cases hper : d < Cart.Dimension ∧ Cart.Periodic.get d = true
  · -- periodic dimension: the storage is UNIQUE and the period is the global extent
    have hU : Cart.PeriodicStorage = periodic_storage.UNIQUE := by
      rcases hStorage with h | h
      · exact h
      · rw [h d hper.1] at hper
        exact absurd hper.2 (by simp)
    have hP : Cart.PeriodSize d = Cart.Range.End.get d - Cart.Range.Begin.get d := by
      unfold cart.PeriodSize
      rw [hU]
    have hadj : ∀ z, Cart.PeriodicAdjustDim d z =
        Cart.Range.Begin.get d + (z - Cart.Range.Begin.get d) %
          (Cart.Range.End.get d - Cart.Range.Begin.get d) := by
      intro z
      unfold cart.PeriodicAdjustDim
      rw [if_pos hper, hP]
    have hPpos : 0 < Cart.Range.End.get d - Cart.Range.Begin.get d := by omega
    rw [hadj x] at hp
    simp only [hper.1, hper.2, or_true, and_self, if_true] at hx ⊢
    have hdef := Int.emod_def (x - Cart.Range.Begin.get d)
      (Cart.Range.End.get d - Cart.Range.Begin.get d)
    generalize hm : (x - Cart.Range.Begin.get d) %
      (Cart.Range.End.get d - Cart.Range.Begin.get d) = m at hp hdef
    generalize hk : (x - Cart.Range.Begin.get d) /
      (Cart.Range.End.get d - Cart.Range.Begin.get d) = k at hdef
    -- the point of `LB` nearest to `x`
    obtain ⟨c, hc1, hc2, hc3, hc4⟩ : ∃ c, LB.Begin.get d ≤ c ∧ c < LB.End.get d ∧
        x - 1 ≤ c ∧ c ≤ x + 1 := by
      by_cases h1 : x < LB.Begin.get d
      · exact ⟨LB.Begin.get d, by omega, by omega, by omega, by omega⟩
      · by_cases h2 : x < LB.End.get d
        · exact ⟨x, by omega, by omega, by omega, by omega⟩
        · exact ⟨LB.End.get d - 1, by omega, by omega, by omega, by omega⟩
    refine ⟨c + (Cart.Range.Begin.get d + m - x), ⟨by omega, by omega⟩, ?_⟩
    rw [hadj]
    have hy : c + (Cart.Range.Begin.get d + m - x) - Cart.Range.Begin.get d =
        (c - Cart.Range.Begin.get d) +
          (Cart.Range.End.get d - Cart.Range.Begin.get d) * (-k) := by
      rw [mul_neg]
      omega
    rw [hy, Int.add_mul_emod_self_left, Int.emod_eq_of_lt (by omega) (by omega)]
    constructor <;> omega
  · -- the coordinate is not wrapped in this dimension
    have hid : ∀ z, Cart.PeriodicAdjustDim d z = z := by
      intro z
      unfold cart.PeriodicAdjustDim
      rw [if_neg hper]
    rw [hid x] at hp
    by_cases hlt : d < Cart.Dimension
    · have hnp : ¬ Cart.Periodic.get d = true := fun h => hper ⟨hlt, h⟩
      simp only [hlt, hnp, or_false, true_and] at hx ⊢
      obtain ⟨c, hc1, hc2, hc3, hc4⟩ : ∃ c, LB.Begin.get d ≤ c ∧ c < LB.End.get d ∧
          x - 1 ≤ c ∧ c ≤ x + 1 := by
        by_cases h1 : x < LB.Begin.get d
        · refine ⟨LB.Begin.get d, by omega, by omega, ?_, by omega⟩
          split_ifs at hx <;> omega
        · by_cases h2 : x < LB.End.get d
          · exact ⟨x, by omega, by omega, by omega, by omega⟩
          · refine ⟨LB.End.get d - 1, by omega, by omega, by omega, ?_⟩
            split_ifs at hx <;> omega
      refine ⟨c, ⟨?_, ?_⟩, ?_⟩
      · split_ifs <;> omega
      · split_ifs <;> omega
      · rw [hid]
        exact ⟨hc1, hc2⟩
    · simp only [hlt, false_and, if_false] at hx ⊢
      refine ⟨x, ⟨by omega, by omega⟩, ?_⟩
      rw [hid]
      exact hx

/-- The mirror argument in all dimensions: a ghost point of `LB` that wraps into
`LA` yields a ghost point of `LA` that wraps into `LB`, when the two ranges lie
in the global range, do not overlap and `LB` is not empty. -/
theorem ghost_mirror (Cart : cart)
    (hStorage : Cart.PeriodicStorage = periodic_storage.UNIQUE ∨
      ∀ d, d < Cart.Dimension → Cart.Periodic.get d = false)
    (LA LB : range)
    (hAin : ∀ d, d < 3 →
      Cart.Range.Begin.get d ≤ LA.Begin.get d ∧ LA.End.get d ≤ Cart.Range.End.get d)
    (hBin : ∀ d, d < 3 →
      Cart.Range.Begin.get d ≤ LB.Begin.get d ∧ LB.End.get d ≤ Cart.Range.End.get d)
    (hBne : ∀ d, d < 3 → LB.Begin.get d < LB.End.get d)
    (hdisj : ∀ p, ¬ (LA.Contains p = true ∧ LB.Contains p = true))
    (q : tuple Int) (hq : (DetectNeighbors_ExtendedRange Cart LB).Contains q = true)
    (hp : LA.Contains (Cart.PeriodicAdjust q) = true) :
    ∃ q', (DetectNeighbors_ExtendedRange Cart LA).Contains q' = true ∧
      LA.Contains q' = false ∧ LB.Contains (Cart.PeriodicAdjust q') = true := by
  rw [range.Contains_iff] at hq hp
  have hdim : ∀ d, d < 3 → ∃ y,
      ((DetectNeighbors_ExtendedRange Cart LA).Begin.get d ≤ y ∧
        y < (DetectNeighbors_ExtendedRange Cart LA).End.get d) ∧
      (LB.Begin.get d ≤ Cart.PeriodicAdjustDim d y ∧
        Cart.PeriodicAdjustDim d y < LB.End.get d) := by
    intro d hd
    have hp2 := hp d hd
    rw [PeriodicAdjust_get _ _ _ hd] at hp2
    exact ghost_mirror_dim Cart hStorage LA LB d hd (hAin d hd) (hBin d hd) (hBne d hd)
      (q.get d) (hq d hd) hp2
  obtain ⟨y0, hy0, hz0⟩ := hdim 0 (by omega)
  obtain ⟨y1, hy1, hz1⟩ := hdim 1 (by omega)
  obtain ⟨y2, hy2, hz2⟩ := hdim 2 (by omega)
  have hget : ∀ d, d < 3 → ∀ P : Nat → Int → Prop, P 0 y0 → P 1 y1 → P 2 y2 →
      P d ((tuple.mk y0 y1 y2).get d) := by
    intro d hd P h0 h1 h2
    have h : d = 0 ∨ d = 1 ∨ d = 2 := by omega
    rcases h with h | h | h <;> subst h
    · exact h0
    · exact h1
    · exact h2
  have hE : (DetectNeighbors_ExtendedRange Cart LA).Contains ⟨y0, y1, y2⟩ = true := by
    rw [range.Contains_iff]
    intro d hd
    exact hget d hd (fun d y => (DetectNeighbors_ExtendedRange Cart LA).Begin.get d ≤ y ∧
      y < (DetectNeighbors_ExtendedRange Cart LA).End.get d) hy0 hy1 hy2
  have hB : LB.Contains (Cart.PeriodicAdjust ⟨y0, y1, y2⟩) = true := by
    rw [range.Contains_iff]
    intro d hd
    rw [PeriodicAdjust_get _ _ _ hd]
    exact hget d hd (fun d y => LB.Begin.get d ≤ Cart.PeriodicAdjustDim d y ∧
      Cart.PeriodicAdjustDim d y < LB.End.get d) hz0 hz1 hz2
  refine ⟨⟨y0, y1, y2⟩, hE, ?_, hB⟩
  cases hA : LA.Contains ⟨y0, y1, y2⟩ with
  | false => rfl
  | true =>
    exfalso
    have hA2 := (range.Contains_iff _ _).1 hA
    have hfix : Cart.PeriodicAdjust ⟨y0, y1, y2⟩ = ⟨y0, y1, y2⟩ := by
      apply tuple.ext_get
      intro d hd
      rw [PeriodicAdjust_get _ _ _ hd]
      apply PeriodicAdjustDim_of_mem Cart hStorage
      have h1 := hA2 d hd
      have h2 := hAin d hd
      constructor <;> omega
    rw [hfix] at hB
    exact hdisj _ ⟨hA, hB⟩

/-! ## Ownership of points under a hash that holds the local ranges -/

theorem mem_RegisteredRegions (NumRanks : Nat) (LocalRangeOf : Nat → range)
    (Region : decomp_hash_region_data) :
    Region ∈ RegisteredRegions NumRanks LocalRangeOf ↔
      ∃ r, r < NumRanks ∧ Region = ⟨LocalRangeOf r, Int.ofNat r⟩ := by
  unfold RegisteredRegions
  rw [List.mem_map]
  constructor
  · rintro ⟨r, hr, rfl⟩
    exact ⟨r, List.mem_range.1 hr, rfl⟩
  · rintro ⟨r, hr, rfl⟩
    exact ⟨r, List.mem_range.2 hr, rfl⟩

/-- Under a hash that holds the local ranges of a non-overlapping decomposition,
the first region of a point's bin that contains the point is the record of the
rank whose local range contains it. -/
theorem FirstContaining_rank_iff (Cart : cart) (DecompHash : decomp_hash) (NumRanks : Nat)
    (LocalRangeOf : Nat → range)
    (hCover : CoverWithoutOverlap Cart NumRanks LocalRangeOf)
    (hHash : HoldsLocalRanges Cart DecompHash NumRanks LocalRangeOf)
    (p : tuple Int) (r : Nat) (hr : r < NumRanks) :
    (∃ Region, FirstContaining (DecompHash.RetrieveBin (binIndexOf DecompHash p)) p =
        some Region ∧ Region.Rank = Int.ofNat r) ↔
      (LocalRangeOf r).Contains p = true := by
  constructor
  · rintro ⟨Region, hF, hR⟩
    unfold FirstContaining at hF
    have hmem := List.mem_of_find?_eq_some hF
    have hc := List.find?_some hF
    obtain ⟨s, hs, rfl⟩ := (mem_RegisteredRegions _ _ _).1 (hHash.1 _ _ hmem)
    simp only [Int.ofNat_eq_coe, Nat.cast_inj] at hR
    subst hR
    exact hc
  · intro hc
    have hG := hCover.1 r hr p hc
    have hin := hHash.2 p hG ⟨LocalRangeOf r, Int.ofNat r⟩
      ((mem_RegisteredRegions _ _ _).2 ⟨r, hr, rfl⟩) hc
    cases hF : FirstContaining (DecompHash.RetrieveBin (binIndexOf DecompHash p)) p with
    | none =>
      unfold FirstContaining at hF
      have := List.find?_eq_none.1 hF _ hin
      exact absurd hc this
    | some Region =>
      refine ⟨Region, rfl, ?_⟩
      unfold FirstContaining at hF
      have hmem := List.mem_of_find?_eq_some hF
      have hc2 := List.find?_some hF
      obtain ⟨s, hs, rfl⟩ := (mem_RegisteredRegions _ _ _).1 (hHash.1 _ _ hmem)
      obtain ⟨t, -, huniq⟩ := hCover.2 p hG
      have h1 := huniq s ⟨hs, hc2⟩
      have h2 := huniq r ⟨hr, hc⟩
      simp only
      rw [h1, h2]

/-- Membership in the result of `DetectNeighbors` under a hash that holds the
local ranges of a non-overlapping decomposition: rank `A` is returned to rank `B`
iff `A` differs from `B` and some ghost point of `B` wraps into the local range
of `A`. -/
theorem mem_DetectNeighbors_owner (Cart : cart) (DecompHash : decomp_hash) (NumRanks : Nat)
    (LocalRangeOf : Nat → range)
    (hCover : CoverWithoutOverlap Cart NumRanks LocalRangeOf)
    (hHash : HoldsLocalRanges Cart DecompHash NumRanks LocalRangeOf)
    (A B : Nat) (hA : A < NumRanks) :
    Int.ofNat A ∈ DetectNeighbors Cart (Int.ofNat B) (LocalRangeOf B) DecompHash ↔
      A ≠ B ∧ ∃ q, (DetectNeighbors_ExtendedRange Cart (LocalRangeOf B)).Contains q = true ∧
        (LocalRangeOf B).Contains q = false ∧
        (LocalRangeOf A).Contains (Cart.PeriodicAdjust q) = true := by
  rw [mem_DetectNeighbors_points]
  have hne : Int.ofNat A ≠ Int.ofNat B ↔ A ≠ B := by
    simp only [Int.ofNat_eq_coe, ne_eq, Nat.cast_inj]
  rw [hne]
  constructor
  · rintro ⟨h1, p, hp, hex⟩
    obtain ⟨q, hq, hL, rfl⟩ := (mem_ExtendedPoints _ _ _).1 hp
    exact ⟨h1, q, hq, hL,
      (FirstContaining_rank_iff Cart DecompHash NumRanks LocalRangeOf hCover hHash _ A hA).1 hex⟩
  · rintro ⟨h1, q, hq, hL, hc⟩
    exact ⟨h1, Cart.PeriodicAdjust q, (mem_ExtendedPoints _ _ _).2 ⟨q, hq, hL, rfl⟩,
      (FirstContaining_rank_iff Cart DecompHash NumRanks LocalRangeOf hCover hHash _ A hA).2 hc⟩

theorem range.Contains_Begin (R : range) (hne : R.NonEmpty) : R.Contains R.Begin = true := by
  rw [range.Contains_iff]
  intro d hd
  exact ⟨le_refl _, hne d hd⟩

theorem range.Contains_last (R : range) (hne : R.NonEmpty) :
    R.Contains ⟨R.End.v0 - 1, R.End.v1 - 1, R.End.v2 - 1⟩ = true := by
  rw [range.Contains_iff]
  intro d hd
  have h := hne d hd
  have hcase : d = 0 ∨ d = 1 ∨ d = 2 := by omega
  rcases hcase with hc | hc | hc <;> subst hc <;> simp only [tuple.get] at h ⊢ <;> omega

/-- A non-empty local range of a covering decomposition lies within the bounds
of the global range. -/
theorem bounds_of_cover (Cart : cart) (NumRanks : Nat) (LocalRangeOf : Nat → range)
    (hCover : CoverWithoutOverlap Cart NumRanks LocalRangeOf) (r : Nat) (hr : r < NumRanks)
    (hne : (LocalRangeOf r).NonEmpty) (d : Nat) (hd : d < 3) :
    Cart.Range.Begin.get d ≤ (LocalRangeOf r).Begin.get d ∧
      (LocalRangeOf r).End.get d ≤ Cart.Range.End.get d := by
  have h1 := (range.Contains_iff _ _).1
    (hCover.1 r hr _ (range.Contains_Begin _ hne)) d hd
  have h2 := (range.Contains_iff _ _).1
    (hCover.1 r hr _ (range.Contains_last _ hne)) d hd
  have hcase : d = 0 ∨ d = 1 ∨ d = 2 := by omega
  rcases hcase with hc | hc | hc <;> subst hc <;> simp only [tuple.get] at h1 h2 ⊢ <;> omega

/-- Two different ranks of a covering decomposition share no point. -/
theorem disjoint_of_cover (Cart : cart) (NumRanks : Nat) (LocalRangeOf : Nat → range)
    (hCover : CoverWithoutOverlap Cart NumRanks LocalRangeOf) (A B : Nat)
    (hA : A < NumRanks) (hB : B < NumRanks) (hAB : A ≠ B) (p : tuple Int) :
    ¬ ((LocalRangeOf A).Contains p = true ∧ (LocalRangeOf B).Contains p = true) := by
  rintro ⟨h1, h2⟩
  obtain ⟨t, -, huniq⟩ := hCover.2 p (hCover.1 A hA p h1)
  exact hAB ((huniq A ⟨hA, h1⟩).trans (huniq B ⟨hB, h2⟩).symm)

/-- One direction of neighbour symmetry. -/
theorem DetectNeighbors_mirror (Cart : cart) (DecompHash : decomp_hash) (NumRanks : Nat)
    (LocalRangeOf : Nat → range)
    (hStorage : Cart.PeriodicStorage = periodic_storage.UNIQUE ∨
      ∀ d, d < Cart.Dimension → Cart.Periodic.get d = false)
    (hNonEmpty : ∀ r, r < NumRanks → (LocalRangeOf r).NonEmpty)
    (hCover : CoverWithoutOverlap Cart NumRanks LocalRangeOf)
    (hHash : HoldsLocalRanges Cart DecompHash NumRanks LocalRangeOf)
    (A B : Nat) (hA : A < NumRanks) (hB : B < NumRanks)
    (h : Int.ofNat A ∈ DetectNeighbors Cart (Int.ofNat B) (LocalRangeOf B) DecompHash) :
    Int.ofNat B ∈ DetectNeighbors Cart (Int.ofNat A) (LocalRangeOf A) DecompHash := by
  rw [mem_DetectNeighbors_owner Cart DecompHash NumRanks LocalRangeOf hCover hHash A B hA] at h
  rw [mem_DetectNeighbors_owner Cart DecompHash NumRanks LocalRangeOf hCover hHash B A hB]
  obtain ⟨hAB, q, hq, -, hp⟩ := h
  refine ⟨fun e => hAB e.symm, ?_⟩
  exact ghost_mirror Cart hStorage (LocalRangeOf A) (LocalRangeOf B)
    (bounds_of_cover Cart NumRanks LocalRangeOf hCover A hA (hNonEmpty A hA))
    (bounds_of_cover Cart NumRanks LocalRangeOf hCover B hB (hNonEmpty B hB))
    (hNonEmpty B hB)
    (disjoint_of_cover Cart NumRanks LocalRangeOf hCover A B hA hB hAB) q hq hp

theorem HoldsLocalRanges_singleBinHash (Cart : cart) (NumRanks : Nat)
    (LocalRangeOf : Nat → range) :
    HoldsLocalRanges Cart (singleBinHash NumRanks LocalRangeOf) NumRanks LocalRangeOf :=
  ⟨fun _ _ h => h, fun _ _ _ h _ => h⟩

/-! ## Neighbour symmetry -/

theorem cover_duplicatedRanges :
    CoverWithoutOverlap (periodicCart1D 5 periodic_storage.DUPLICATED) 3 duplicatedRanges := by
  constructor
  · intro r hr p hp
    obtain ⟨x, y, z⟩ := p
    have hcase : r = 0 ∨ r = 1 ∨ r = 2 := by omega
    rcases hcase with h | h | h <;> subst h <;>
      simp only [duplicatedRanges, range1D, periodicCart1D, range.Contains, Bool.and_eq_true,
        decide_eq_true_eq] at hp ⊢ <;> omega
  · intro p hp
    obtain ⟨x, y, z⟩ := p
    simp only [range1D, periodicCart1D, range.Contains, Bool.and_eq_true,
      decide_eq_true_eq] at hp
    have hx : x < 2 ∨ (2 ≤ x ∧ x < 4) ∨ 4 ≤ x := by omega
    rcases hx with hx | hx | hx
    · refine ⟨0, ⟨by omega, ?_⟩, ?_⟩
      · simp only [duplicatedRanges, range1D, range.Contains, Bool.and_eq_true,
          decide_eq_true_eq]
        omega
      · rintro s ⟨hs, hc⟩
        have hcase : s = 0 ∨ s = 1 ∨ s = 2 := by omega
        rcases hcase with h | h | h <;> subst h <;>
          simp only [duplicatedRanges, range1D, range.Contains, Bool.and_eq_true,
            decide_eq_true_eq] at hc <;> omega
    · refine ⟨1, ⟨by omega, ?_⟩, ?_⟩
      · simp only [duplicatedRanges, range1D, range.Contains, Bool.and_eq_true,
          decide_eq_true_eq]
        omega
      · rintro s ⟨hs, hc⟩
        have hcase : s = 0 ∨ s = 1 ∨ s = 2 := by omega
        rcases hcase with h | h | h <;> subst h <;>
          simp only [duplicatedRanges, range1D, range.Contains, Bool.and_eq_true,
            decide_eq_true_eq] at hc <;> omega
    · refine ⟨2, ⟨by omega, ?_⟩, ?_⟩
      · simp only [duplicatedRanges, range1D, range.Contains, Bool.and_eq_true,
          decide_eq_true_eq]
        omega
      · rintro s ⟨hs, hc⟩
        have hcase : s = 0 ∨ s = 1 ∨ s = 2 := by omega
        rcases hcase with h | h | h <;> subst h <;>
          simp only [duplicatedRanges, range1D, range.Contains, Bool.and_eq_true,
            decide_eq_true_eq] at hc <;> omega

theorem cover_emptyMiddleRanges : CoverWithoutOverlap (plainCart1D 6) 3 emptyMiddleRanges := by
  constructor
  · intro r hr p hp
    obtain ⟨x, y, z⟩ := p
    have hcase : r = 0 ∨ r = 1 ∨ r = 2 := by omega
    rcases hcase with h | h | h <;> subst h <;>
      simp only [emptyMiddleRanges, range1D, plainCart1D, range.Contains, Bool.and_eq_true,
        decide_eq_true_eq] at hp ⊢ <;> omega
  · intro p hp
    obtain ⟨x, y, z⟩ := p
    simp only [range1D, plainCart1D, range.Contains, Bool.and_eq_true,
      decide_eq_true_eq] at hp
    have hx : x < 3 ∨ 3 ≤ x := by omega
    rcases hx with hx | hx
    · refine ⟨0, ⟨by omega, ?_⟩, ?_⟩
      · simp only [emptyMiddleRanges, range1D, range.Contains, Bool.and_eq_true,
          decide_eq_true_eq]
        omega
      · rintro s ⟨hs, hc⟩
        have hcase : s = 0 ∨ s = 1 ∨ s = 2 := by omega
        rcases hcase with h | h | h <;> subst h <;>
          simp only [emptyMiddleRanges, range1D, range.Contains, Bool.and_eq_true,
            decide_eq_true_eq] at hc <;> omega
    · refine ⟨2, ⟨by omega, ?_⟩, ?_⟩
      · simp only [emptyMiddleRanges, range1D, range.Contains, Bool.and_eq_true,
          decide_eq_true_eq]
        omega
      · rintro s ⟨hs, hc⟩
        have hcase : s = 0 ∨ s = 1 ∨ s = 2 := by omega
        rcases hcase with h | h | h <;> subst h <;>
          simp only [emptyMiddleRanges, range1D, range.Contains, Bool.and_eq_true,
            decide_eq_true_eq] at hc <;> omega

theorem cover_halfRanges :
    CoverWithoutOverlap (periodicCart1D 6 periodic_storage.UNIQUE) 2 halfRanges := by
  constructor
  · intro r hr p hp
    obtain ⟨x, y, z⟩ := p
    have hcase : r = 0 ∨ r = 1 := by omega
    rcases hcase with h | h <;> subst h <;>
      simp only [halfRanges, range1D, periodicCart1D, range.Contains, Bool.and_eq_true,
        decide_eq_true_eq] at hp ⊢ <;> omega
  · intro p hp
    obtain ⟨x, y, z⟩ := p
    simp only [range1D, periodicCart1D, range.Contains, Bool.and_eq_true,
      decide_eq_true_eq] at hp
    have hx : x < 3 ∨ 3 ≤ x := by omega
    rcases hx with hx | hx
    · refine ⟨0, ⟨by omega, ?_⟩, ?_⟩
      · simp only [halfRanges, range1D, range.Contains, Bool.and_eq_true, decide_eq_true_eq]
        omega
      · rintro s ⟨hs, hc⟩
        have hcase : s = 0 ∨ s = 1 := by omega
        rcases hcase with h | h <;> subst h <;>
          simp only [halfRanges, range1D, range.Contains, Bool.and_eq_true,
            decide_eq_true_eq] at hc <;> omega
    · refine ⟨1, ⟨by omega, ?_⟩, ?_⟩
      · simp only [halfRanges, range1D, range.Contains, Bool.and_eq_true, decide_eq_true_eq]
        omega
      · rintro s ⟨hs, hc⟩
        have hcase : s = 0 ∨ s = 1 := by omega
        rcases hcase with h | h <;> subst h <;>
          simp only [halfRanges, range1D, range.Contains, Bool.and_eq_true,
            decide_eq_true_eq] at hc <;> omega

theorem nonEmpty_halfRanges (r : Nat) (hr : r < 2) : (halfRanges r).NonEmpty := by
  intro d hd
  have hd3 : d < 3 := hd
  have hcase : d = 0 ∨ d = 1 ∨ d = 2 := by omega
  have hrc : r = 0 ∨ r = 1 := by omega
  rcases hrc with h | h <;> subst h <;> rcases hcase with h | h | h <;> subst h <;> decide

/-- Counterexample to C7 as stated.  (a) On the `DUPLICATED` periodic line of five
points (period 4) split into `[0,2)`, `[2,4)`, `[4,5)`, with a hash holding the
three ranges, rank 2 is returned rank 0 (its ghost point `5` wraps to `1`) but
rank 0 is not returned rank 2 (its ghost point `-1` wraps to `3`, never to the
second copy `4`).  (b) On the non-periodic line of six points split into `[0,3)`,
`[3,3)`, `[3,6)`, the rank with the empty range is returned rank 0, which is not
returned it.  Both decompositions cover the global range without overlap. -/
theorem DetectNeighbors_asymmetric :
    (HoldsLocalRanges (periodicCart1D 5 periodic_storage.DUPLICATED)
        (singleBinHash 3 duplicatedRanges) 3 duplicatedRanges ∧
      CoverWithoutOverlap (periodicCart1D 5 periodic_storage.DUPLICATED) 3 duplicatedRanges ∧
      (0 : Int) ∈ DetectNeighbors (periodicCart1D 5 periodic_storage.DUPLICATED) 2
        (duplicatedRanges 2) (singleBinHash 3 duplicatedRanges) ∧
      (2 : Int) ∉ DetectNeighbors (periodicCart1D 5 periodic_storage.DUPLICATED) 0
        (duplicatedRanges 0) (singleBinHash 3 duplicatedRanges)) ∧
    (HoldsLocalRanges (plainCart1D 6) (singleBinHash 3 emptyMiddleRanges) 3
        emptyMiddleRanges ∧
      CoverWithoutOverlap (plainCart1D 6) 3 emptyMiddleRanges ∧
      (0 : Int) ∈ DetectNeighbors (plainCart1D 6) 1 (emptyMiddleRanges 1)
        (singleBinHash 3 emptyMiddleRanges) ∧
      (1 : Int) ∉ DetectNeighbors (plainCart1D 6) 0 (emptyMiddleRanges 0)
        (singleBinHash 3 emptyMiddleRanges)) :=
  ⟨⟨HoldsLocalRanges_singleBinHash _ _ _, cover_duplicatedRanges, by decide, by decide⟩,
    ⟨HoldsLocalRanges_singleBinHash _ _ _, cover_emptyMiddleRanges, by decide, by decide⟩⟩

/-- C7 (amended): neighbour-set symmetry for carts whose period is the whole
global extent.  When the cart has `UNIQUE` storage or no periodic dimension, every
rank has a non-empty local range, the local ranges cover the global range
without overlap and the hash holds every local range, then for all ranks `A`
and `B`, `A` is in the list `DetectNeighbors` returns to `B` iff `B` is in the
list it returns to `A`. -/
theorem DetectNeighbors_symmetric (Cart : cart) (DecompHash : decomp_hash) (NumRanks : Nat)
    (LocalRangeOf : Nat → range)
    (hStorage : Cart.PeriodicStorage = periodic_storage.UNIQUE ∨
      ∀ d, d < Cart.Dimension → Cart.Periodic.get d = false)
    (hNonEmpty : ∀ r, r < NumRanks → (LocalRangeOf r).NonEmpty)
    (hCover : CoverWithoutOverlap Cart NumRanks LocalRangeOf)
    (hHash : HoldsLocalRanges Cart DecompHash NumRanks LocalRangeOf)
    (A B : Nat) (hA : A < NumRanks) (hB : B < NumRanks) :
    Int.ofNat A ∈ DetectNeighbors Cart (Int.ofNat B) (LocalRangeOf B) DecompHash ↔
      Int.ofNat B ∈ DetectNeighbors Cart (Int.ofNat A) (LocalRangeOf A) DecompHash :=
  ⟨DetectNeighbors_mirror Cart DecompHash NumRanks LocalRangeOf hStorage hNonEmpty hCover
      hHash A B hA hB,
    DetectNeighbors_mirror Cart DecompHash NumRanks LocalRangeOf hStorage hNonEmpty hCover
      hHash B A hB hA⟩

/-- Witness for C7 (amended): the periodic `UNIQUE` line of six points on two
ranks, as in the one-dimensional periodic tests. -/
theorem DetectNeighbors_symmetric_witness :
    ((periodicCart1D 6 periodic_storage.UNIQUE).PeriodicStorage = periodic_storage.UNIQUE ∨
      ∀ d, d < (periodicCart1D 6 periodic_storage.UNIQUE).Dimension →
        (periodicCart1D 6 periodic_storage.UNIQUE).Periodic.get d = false) ∧
    (∀ r, r < 2 → (halfRanges r).NonEmpty) ∧
    CoverWithoutOverlap (periodicCart1D 6 periodic_storage.UNIQUE) 2 halfRanges ∧
    HoldsLocalRanges (periodicCart1D 6 periodic_storage.UNIQUE) (singleBinHash 2 halfRanges) 2
      halfRanges ∧
    (Int.ofNat 0 ∈ DetectNeighbors (periodicCart1D 6 periodic_storage.UNIQUE) (Int.ofNat 1)
        (halfRanges 1) (singleBinHash 2 halfRanges) ↔
      Int.ofNat 1 ∈ DetectNeighbors (periodicCart1D 6 periodic_storage.UNIQUE) (Int.ofNat 0)
        (halfRanges 0) (singleBinHash 2 halfRanges)) :=
  ⟨Or.inl rfl, nonEmpty_halfRanges, cover_halfRanges, HoldsLocalRanges_singleBinHash _ _ _,
    DetectNeighbors_symmetric (periodicCart1D 6 periodic_storage.UNIQUE)
      (singleBinHash 2 halfRanges) 2 halfRanges (Or.inl rfl) nonEmpty_halfRanges
      cover_halfRanges (HoldsLocalRanges_singleBinHash _ _ _) 0 1 (by decide) (by decide)⟩

/-! ## The 2x2 split of the 6x6 domain -/

theorem cover_quadrantRanges : CoverWithoutOverlap quadrantCart 4 quadrantRanges := by
  constructor
  · intro r hr p hp
    obtain ⟨x, y, z⟩ := p
    have hcase : r = 0 ∨ r = 1 ∨ r = 2 ∨ r = 3 := by omega
    rcases hcase with h | h | h | h <;> subst h <;>
      simp only [quadrantRanges, quadrantCart, range.Contains, Bool.and_eq_true,
        decide_eq_true_eq] at hp ⊢ <;> omega
  · intro p hp
    obtain ⟨x, y, z⟩ := p
    simp only [quadrantCart, range.Contains, Bool.and_eq_true, decide_eq_true_eq] at hp
    have hx : (x < 3 ∧ y < 3) ∨ (x < 3 ∧ 3 ≤ y) ∨ (3 ≤ x ∧ y < 3) ∨ (3 ≤ x ∧ 3 ≤ y) := by
      omega
    rcases hx with hx | hx | hx | hx
    · refine ⟨0, ⟨by omega, ?_⟩, ?_⟩
      · simp only [quadrantRanges, range.Contains, Bool.and_eq_true, decide_eq_true_eq]
        omega
      · rintro s ⟨hs, hc⟩
        have hcase : s = 0 ∨ s = 1 ∨ s = 2 ∨ s = 3 := by omega
        rcases hcase with h | h | h | h <;> subst h <;>
          simp only [quadrantRanges, range.Contains, Bool.and_eq_true,
            decide_eq_true_eq] at hc <;> omega
    · refine ⟨1, ⟨by omega, ?_⟩, ?_⟩
      · simp only [quadrantRanges, range.Contains, Bool.and_eq_true, decide_eq_true_eq]
        omega
      · rintro s ⟨hs, hc⟩
        have hcase : s = 0 ∨ s = 1 ∨ s = 2 ∨ s = 3 := by omega
        rcases hcase with h | h | h | h <;> subst h <;>
          simp only [quadrantRanges, range.Contains, Bool.and_eq_true,
            decide_eq_true_eq] at hc <;> omega
    · refine ⟨2, ⟨by omega, ?_⟩, ?_⟩
      · simp only [quadrantRanges, range.Contains, Bool.and_eq_true, decide_eq_true_eq]
        omega
      · rintro s ⟨hs, hc⟩
        have hcase : s = 0 ∨ s = 1 ∨ s = 2 ∨ s = 3 := by omega
        rcases hcase with h | h | h | h <;> subst h <;>
          simp only [quadrantRanges, range.Contains, Bool.and_eq_true,
            decide_eq_true_eq] at hc <;> omega
    · refine ⟨3, ⟨by omega, ?_⟩, ?_⟩
      · simp only [quadrantRanges, range.Contains, Bool.and_eq_true, decide_eq_true_eq]
        omega
      · rintro s ⟨hs, hc⟩
        have hcase : s = 0 ∨ s = 1 ∨ s = 2 ∨ s = 3 := by omega
        rcases hcase with h | h | h | h <;> subst h <;>
          simp only [quadrantRanges, range.Contains, Bool.and_eq_true,
            decide_eq_true_eq] at hc <;> omega

/-- Every other quadrant owns a ghost point of quadrant `B`. -/
theorem quadrantGhost_spec (A B : Nat) (hA : A < 4) (hB : B < 4) (hAB : A ≠ B) :
    (DetectNeighbors_ExtendedRange quadrantCart (quadrantRanges B)).Contains
        (quadrantGhost A B) = true ∧
      (quadrantRanges B).Contains (quadrantGhost A B) = false ∧
      (quadrantRanges A).Contains (quadrantCart.PeriodicAdjust (quadrantGhost A B)) = true := by
  have hAc : A = 0 ∨ A = 1 ∨ A = 2 ∨ A = 3 := by omega
  have hBc : B = 0 ∨ B = 1 ∨ B = 2 ∨ B = 3 := by omega
  rcases hAc with h | h | h | h <;> subst h <;> rcases hBc with h | h | h | h <;> subst h <;>
    first
      | exact absurd rfl hAB
      | decide

/-- Two strictly increasing lists with the same elements are equal. -/
theorem eq_of_sorted_of_mem_iff (l1 l2 : List Int)
    (h1 : l1.Pairwise (fun x y => x < y)) (h2 : l2.Pairwise (fun x y => x < y))
    (hmem : ∀ x, x ∈ l1 ↔ x ∈ l2) : l1 = l2 := by
  have n1 : l1.Nodup := List.Pairwise.imp (fun h => ne_of_lt h) h1
  have n2 : l2.Nodup := List.Pairwise.imp (fun h => ne_of_lt h) h2
  have hperm : l1.Perm l2 := (List.perm_ext_iff_of_nodup n1 n2).2 hmem
  have s1 : l1.Sorted (fun x y => x ≤ y) := List.Pairwise.imp (fun h => le_of_lt h) h1
  have s2 : l2.Sorted (fun x y => x ≤ y) := List.Pairwise.imp (fun h => le_of_lt h) h2
  exact List.eq_of_perm_of_sorted hperm s1 s2

/-- The list `DetectNeighbors` returns to a quadrant rank, for every hash that
holds the four quadrants. -/
theorem DetectNeighbors_quadrant_list (DecompHash : decomp_hash)
    (hHash : HoldsLocalRanges quadrantCart DecompHash 4 quadrantRanges)
    (r : Nat) (hr : r < 4) :
    DetectNeighbors quadrantCart (Int.ofNat r) (quadrantRanges r) DecompHash =
      ([0, 1, 2, 3] : List Int).filter (fun x => decide (x ≠ Int.ofNat r)) := by
  apply eq_of_sorted_of_mem_iff
  · exact sorted_DetectNeighbors _ _ _ _
  · apply List.Pairwise.filter
    decide
  · intro x
    rw [List.mem_filter]
    simp only [decide_eq_true_eq]
    constructor
    · intro hx
      have hx2 := (mem_DetectNeighbors_points _ _ _ _ _).1 hx
      obtain ⟨hne, p, -, Region, hF, hR⟩ := hx2
      unfold FirstContaining at hF
      have hmem := List.mem_of_find?_eq_some hF
      obtain ⟨s, hs, rfl⟩ := (mem_RegisteredRegions _ _ _).1 (hHash.1 _ _ hmem)
      refine ⟨?_, hne⟩
      simp only at hR
      subst hR
      have hcase : s = 0 ∨ s = 1 ∨ s = 2 ∨ s = 3 := by omega
      rcases hcase with h | h | h | h <;> subst h <;> decide
    · rintro ⟨hx, hne⟩
      have hex : ∃ A : Nat, A < 4 ∧ x = Int.ofNat A := by
        simp only [List.mem_cons, List.mem_singleton, List.not_mem_nil, or_false] at hx
        rcases hx with h | h | h | h
        · exact ⟨0, by omega, h⟩
        · exact ⟨1, by omega, h⟩
        · exact ⟨2, by omega, h⟩
        · exact ⟨3, by omega, h⟩
      obtain ⟨A, hA, rfl⟩ := hex
      have hAr : A ≠ r := fun e => hne (by rw [e])
      rw [mem_DetectNeighbors_owner quadrantCart DecompHash 4 quadrantRanges
        cover_quadrantRanges hHash A r hA]
      have hg := quadrantGhost_spec A r hA hr hAr
      exact ⟨hAr, quadrantGhost A r, hg.1, hg.2.1, hg.2.2⟩

/-- Counterexample to C8 as stated: on the 6x6 domain split 2x2, rank 0 (block
`[0,3) x [0,3)`) is returned `[1, 2, 3]`, which contains rank 3, the owner of the
diagonally opposite block `[3,6) x [3,6)`: the corner `(3,3)` of the extended
range is a ghost point. -/
theorem DetectNeighbors_quadrant_returns_diagonal :
    DetectNeighbors quadrantCart 0 (quadrantRanges 0) (singleBinHash 4 quadrantRanges) =
      [1, 2, 3] ∧
    quadrantRanges 0 = ⟨⟨0, 0, 0⟩, ⟨3, 3, 1⟩⟩ ∧
    quadrantRanges 3 = ⟨⟨3, 3, 0⟩, ⟨6, 6, 1⟩⟩ ∧
    (⟨3, 3, 0⟩ : tuple Int) ∈ DetectNeighbors_ExtendedPoints quadrantCart (quadrantRanges 0) ∧
    (3 : Int) ∈ DetectNeighbors quadrantCart 0 (quadrantRanges 0)
      (singleBinHash 4 quadrantRanges) := by
  decide

/-- C8 (amended): for the 6x6 non-periodic two-dimensional domain split 2x2 into
3x3 blocks, and every hash holding the four blocks, `DetectNeighbors` on a
quadrant rank returns all three other ranks in increasing order: the two ranks
owning the edge-adjacent quadrants and the diagonally opposite rank. -/
theorem DetectNeighbors_quadrant_returns_all_others (DecompHash : decomp_hash)
    (hHash : HoldsLocalRanges quadrantCart DecompHash 4 quadrantRanges)
    (r : Nat) (hr : r < 4) :
    DetectNeighbors quadrantCart (Int.ofNat r) (quadrantRanges r) DecompHash =
      ([0, 1, 2, 3] : List Int).filter (fun x => decide (x ≠ Int.ofNat r)) ∧
    Int.ofNat (3 - r) ∈ DetectNeighbors quadrantCart (Int.ofNat r) (quadrantRanges r)
      DecompHash := by
  have h := DetectNeighbors_quadrant_list DecompHash hHash r hr
  refine ⟨h, ?_⟩
  rw [h]
  have hcase : r = 0 ∨ r = 1 ∨ r = 2 ∨ r = 3 := by omega
  rcases hcase with h | h | h | h <;> subst h <;> decide

/-- Witness for C8 (amended): rank 1 with the single-bin hash. -/
theorem DetectNeighbors_quadrant_returns_all_others_witness :
    HoldsLocalRanges quadrantCart (singleBinHash 4 quadrantRanges) 4 quadrantRanges ∧
    1 < 4 ∧
    (DetectNeighbors quadrantCart (Int.ofNat 1) (quadrantRanges 1)
        (singleBinHash 4 quadrantRanges) =
      ([0, 1, 2, 3] : List Int).filter (fun x => decide (x ≠ Int.ofNat 1)) ∧
    Int.ofNat (3 - 1) ∈ DetectNeighbors quadrantCart (Int.ofNat 1) (quadrantRanges 1)
      (singleBinHash 4 quadrantRanges)) :=
  ⟨HoldsLocalRanges_singleBinHash _ _ _, by decide,
    DetectNeighbors_quadrant_returns_all_others (singleBinHash 4 quadrantRanges)
      (HoldsLocalRanges_singleBinHash _ _ _) 1 (by decide)⟩

/-! ## Claims about `RetrieveDecompInfo` -/

/-- The send buffer holds `LocalRange.Begin`, `LocalRange.End`,
`ExtendedRange.Begin` and `ExtendedRange.End`, three integers each, in this
order. -/
theorem PackRanges_eq (LocalRange ExtendedRange : range) :
    PackRanges LocalRange ExtendedRange =
      [LocalRange.Begin.v0, LocalRange.Begin.v1, LocalRange.Begin.v2,
        LocalRange.End.v0, LocalRange.End.v1, LocalRange.End.v2,
        ExtendedRange.Begin.v0, ExtendedRange.Begin.v1, ExtendedRange.Begin.v2,
        ExtendedRange.End.v0, ExtendedRange.End.v1, ExtendedRange.End.v2] := by
  simp [PackRanges, RangeValuesOffset, MAX_DIMS, List.range, List.range.loop, tuple.get,
    List.replicate]

theorem decode_pack_eq (LocalRange ExtendedRange : range) :
    DecodeRanges (PackRanges LocalRange ExtendedRange) = ⟨LocalRange, ExtendedRange⟩ := by
  rw [PackRanges_eq]
  rfl

/-- C9: the range payload round-trips.  Packing `(LocalRange, ExtendedRange)` into
the send buffer gives `4*MAX_DIMS` integers, and decoding a received block with
these contents yields a `decomp_info` with the sender's `LocalRange` and
`ExtendedRange`: the same `Begin(d)` and `End(d)` in every dimension.  Every
message a rank posts carries such a buffer. -/
theorem DecodeRanges_PackRanges (LocalRange ExtendedRange : range) :
    (PackRanges LocalRange ExtendedRange).length = 4 * MAX_DIMS ∧
    DecodeRanges (PackRanges LocalRange ExtendedRange) = ⟨LocalRange, ExtendedRange⟩ ∧
    (∀ d, d < MAX_DIMS →
      (DecodeRanges (PackRanges LocalRange ExtendedRange)).LocalRange.Begin.get d =
        LocalRange.Begin.get d ∧
      (DecodeRanges (PackRanges LocalRange ExtendedRange)).LocalRange.End.get d =
        LocalRange.End.get d ∧
      (DecodeRanges (PackRanges LocalRange ExtendedRange)).ExtendedRange.Begin.get d =
        ExtendedRange.Begin.get d ∧
      (DecodeRanges (PackRanges LocalRange ExtendedRange)).ExtendedRange.End.get d =
        ExtendedRange.End.get d) ∧
    ∀ (SendToRanks : List Int) (Message : Int × List Int),
      Message ∈ PostedSends SendToRanks LocalRange ExtendedRange →
      DecodeRanges Message.2 = ⟨LocalRange, ExtendedRange⟩ := by
  refine ⟨?_, decode_pack_eq _ _, ?_, ?_⟩
  · rw [PackRanges_eq]
    rfl
  · intro d _
    rw [decode_pack_eq]
    exact ⟨rfl, rfl, rfl, rfl⟩
  · intro SendToRanks Message hM
    unfold PostedSends at hM
    obtain ⟨Rank, -, rfl⟩ := List.mem_map.1 hM
    exact decode_pack_eq _ _

theorem map_Insert_map {β : Type} (f : Int → β) (S : List Int) (k : Int) :
    map_Insert (S.map fun x => (x, f x)) k (f k) = (set_Insert S k).map fun x => (x, f x) := by
  induction S with
  | nil => rfl
  | cons b S ih =>
    simp only [List.map_cons, map_Insert, set_Insert]
    by_cases h1 : k < b
    · simp [h1]
    · by_cases h2 : k = b
      · subst h2
        simp
      · simp only [h1, h2, if_false, List.map_cons, ih]

theorem perm_getD_cons_eraseIdx (l : List Nat) (i d : Nat) (h : i < l.length) :
    (l.getD i d :: l.eraseIdx i).Perm l := by
  induction l generalizing i with
  | nil => simp at h
  | cons a t ih =>
    cases i with
    | zero => simp
    | succ j =>
      have hj : j < t.length := by simpa using h
      have h1 : (a :: t).getD (j + 1) d = t.getD j d := by simp
      have h2 : (a :: t).eraseIdx (j + 1) = a :: t.eraseIdx j := rfl
      rw [h1, h2]
      exact (List.Perm.swap a (t.getD j d) (t.eraseIdx j)).trans ((ih j hj).cons a)

/-- The loop of `RetrieveDecompInfo` ends: with more fuel than active requests it
reaches `MPI_UNDEFINED` after every active request has completed exactly once,
in some order. -/
theorem WaitLoop_completes (Completion : Nat → Nat) (RecvFromRanks : List Int)
    (Received : Nat → List Int) (Fuel : Nat) :
    ∀ (NumCompleted : Nat) (Active : List Nat) (M : List (Int × decomp_info)),
      Active.length < Fuel →
      ∃ order : List Nat, order.Perm Active ∧
        WaitLoop Completion RecvFromRanks Received Fuel NumCompleted Active M =
          some (order.foldl (CompleteRequest RecvFromRanks Received) M,
            NumCompleted + Active.length) := by
  induction Fuel with
  | zero =>
    intro _ Active _ h
    exact absurd h (Nat.not_lt_zero _)
  | succ Fuel ih =>
    intro NumCompleted Active M h
    cases Active with
    | nil => exact ⟨[], List.Perm.refl _, rfl⟩
    | cons a t =>
      have hi : Completion NumCompleted % (a :: t).length < (a :: t).length :=
        Nat.mod_lt _ (by simp)
      have hlen : ((a :: t).eraseIdx (Completion NumCompleted % (a :: t).length)).length <
          Fuel := by
        rw [List.length_eraseIdx_of_lt hi]
        simp only [List.length_cons] at h ⊢
        omega
      obtain ⟨order, hperm, hrun⟩ := ih (NumCompleted + 1)
        ((a :: t).eraseIdx (Completion NumCompleted % (a :: t).length))
        (CompleteRequest RecvFromRanks Received M
          ((a :: t).getD (Completion NumCompleted % (a :: t).length) a)) hlen
      refine ⟨(a :: t).getD (Completion NumCompleted % (a :: t).length) a :: order, ?_, ?_⟩
      · exact (hperm.cons _).trans (perm_getD_cons_eraseIdx _ _ _ hi)
      · unfold WaitLoop
        simp only [MPI_Waitany]
        rw [hrun, List.length_eraseIdx_of_lt hi, List.foldl_cons]
        simp only [List.length_cons]
        congr 2
        omega

/-- The keys inserted while the requests of `order` complete. -/
theorem foldl_CompleteRequest (RecvFromRanks : List Int) (RangesOf : Int → range × range)
    (order : List Nat) (S : List Int) :
    order.foldl
        (CompleteRequest RecvFromRanks fun iRecv =>
          PackRanges (RangesOf (RecvFromRanks.getD iRecv 0)).1
            (RangesOf (RecvFromRanks.getD iRecv 0)).2)
        (S.map fun k => (k, (⟨(RangesOf k).1, (RangesOf k).2⟩ : decomp_info))) =
      (order.foldl
        (fun S i => if i < RecvFromRanks.length then set_Insert S (RecvFromRanks.getD i 0) else S)
        S).map fun k => (k, (⟨(RangesOf k).1, (RangesOf k).2⟩ : decomp_info)) := by
  induction order generalizing S with
  | nil => rfl
  | cons i order ih =>
    rw [List.foldl_cons, List.foldl_cons]
    by_cases h : i < RecvFromRanks.length
    · have hstep : CompleteRequest RecvFromRanks
          (fun iRecv => PackRanges (RangesOf (RecvFromRanks.getD iRecv 0)).1
            (RangesOf (RecvFromRanks.getD iRecv 0)).2)
          (S.map fun k => (k, (⟨(RangesOf k).1, (RangesOf k).2⟩ : decomp_info))) i =
          (set_Insert S (RecvFromRanks.getD i 0)).map
            fun k => (k, (⟨(RangesOf k).1, (RangesOf k).2⟩ : decomp_info)) := by
        unfold CompleteRequest
        rw [if_pos h, decode_pack_eq]
        exact map_Insert_map (fun k => (⟨(RangesOf k).1, (RangesOf k).2⟩ : decomp_info)) S _
      rw [hstep, if_pos h, ih]
    · have hstep : CompleteRequest RecvFromRanks
          (fun iRecv => PackRanges (RangesOf (RecvFromRanks.getD iRecv 0)).1
            (RangesOf (RecvFromRanks.getD iRecv 0)).2)
          (S.map fun k => (k, (⟨(RangesOf k).1, (RangesOf k).2⟩ : decomp_info))) i =
          S.map fun k => (k, (⟨(RangesOf k).1, (RangesOf k).2⟩ : decomp_info)) := by
        unfold CompleteRequest
        rw [if_neg h]
      rw [hstep, if_neg h, ih]

theorem sorted_foldl_keys (RecvFromRanks : List Int) (order : List Nat) (S : List Int)
    (hS : S.Pairwise (fun x y => x < y)) :
    (order.foldl
      (fun S i => if i < RecvFromRanks.length then set_Insert S (RecvFromRanks.getD i 0) else S)
      S).Pairwise (fun x y => x < y) := by
  induction order generalizing S with
  | nil => exact hS
  | cons i order ih =>
    rw [List.foldl_cons]
    apply ih
    split
    · exact sorted_set_Insert _ _ hS
    · exact hS

theorem mem_foldl_keys (RecvFromRanks : List Int) (order : List Nat) (S : List Int) (x : Int) :
    x ∈ order.foldl
      (fun S i => if i < RecvFromRanks.length then set_Insert S (RecvFromRanks.getD i 0) else S)
      S ↔
    x ∈ S ∨ ∃ i ∈ order, i < RecvFromRanks.length ∧ RecvFromRanks.getD i 0 = x := by
  induction order generalizing S with
  | nil => simp
  | cons i order ih =>
    rw [List.foldl_cons, ih]
    simp only [List.mem_cons, exists_eq_or_imp]
    by_cases h : i < RecvFromRanks.length
    · rw [if_pos h, mem_set_Insert]
      constructor
      · rintro ((h1 | h1) | h1)
        · exact Or.inr (Or.inl ⟨h, h1.symm⟩)
        · exact Or.inl h1
        · exact Or.inr (Or.inr h1)
      · rintro (h1 | ⟨-, h1⟩ | h1)
        · exact Or.inl (Or.inr h1)
        · exact Or.inl (Or.inl h1.symm)
        · exact Or.inr h1
    · rw [if_neg h]
      constructor
      · rintro (h1 | h1)
        · exact Or.inl h1
        · exact Or.inr (Or.inr h1)
      · rintro (h1 | ⟨h2, -⟩ | h1)
        · exact Or.inl h1
        · exact absurd h2 h
        · exact Or.inr h1

/-- Whatever the order in which the requests complete, the keys stored are the
ranks of `RecvFromRanks`, in increasing order. -/
theorem foldl_keys_eq (RecvFromRanks : List Int) (NumSends : Nat) (order : List Nat)
    (hperm : order.Perm (List.range (RecvFromRanks.length + NumSends))) :
    order.foldl
      (fun S i => if i < RecvFromRanks.length then set_Insert S (RecvFromRanks.getD i 0) else S)
      [] = RecvFromRanks.foldl set_Insert [] := by
  apply eq_of_sorted_of_mem_iff
  · exact sorted_foldl_keys _ _ _ List.Pairwise.nil
  · have hgen : ∀ (l : List Int) (S : List Int), S.Pairwise (fun x y => x < y) →
        (l.foldl set_Insert S).Pairwise (fun x y => x < y) := by
      intro l
      induction l with
      | nil => exact fun _ h => h
      | cons a l ih => exact fun S h => ih _ (sorted_set_Insert _ _ h)
    exact hgen _ _ List.Pairwise.nil
  · intro x
    rw [mem_foldl_keys, mem_foldl_set_Insert]
    simp only [List.not_mem_nil, false_or]
    constructor
    · rintro ⟨i, -, hi, rfl⟩
      rw [List.getD_eq_getElem _ _ hi]
      exact List.getElem_mem hi
    · intro hx
      obtain ⟨i, hi, rfl⟩ := List.mem_iff_getElem.1 hx
      refine ⟨i, ?_, hi, List.getD_eq_getElem _ _ hi⟩
      rw [hperm.mem_iff, List.mem_range]
      omega

/-- The result of `RetrieveDecompInfo` for one completion order. -/
theorem RetrieveDecompInfo_eq (Completion : Nat → Nat) (Extra : Nat) (SendToRanks : List Int)
    (RangesOf : Int → range × range) (Ranks : List Int) :
    RetrieveDecompInfo (Ranks.length + SendToRanks.length + 1 + Extra) Completion SendToRanks
        RangesOf Ranks =
      some ((Ranks.foldl set_Insert []).map
          (fun k => (k, (⟨(RangesOf k).1, (RangesOf k).2⟩ : decomp_info))),
        Ranks.length + SendToRanks.length) := by
  unfold RetrieveDecompInfo
  simp only
  obtain ⟨order, hperm, hrun⟩ := WaitLoop_completes Completion Ranks
    (fun iRecv => PackRanges (RangesOf (Ranks.getD iRecv 0)).1 (RangesOf (Ranks.getD iRecv 0)).2)
    (Ranks.length + SendToRanks.length + 1 + Extra) 0
    (List.range (Ranks.length + SendToRanks.length)) []
    (by rw [List.length_range]; omega)
  rw [hrun, List.length_range, Nat.zero_add]
  have h := foldl_CompleteRequest Ranks RangesOf order []
  rw [List.map_nil] at h
  rw [h, foldl_keys_eq Ranks SendToRanks.length order hperm]

/-- C10: `RetrieveDecompInfo` returns a map with exactly one entry per rank of
`Ranks` (the keys are strictly increasing and are the ranks of `Ranks`), each
entry holding the `(LocalRange, ExtendedRange)` of the rank that is its key; the
map is the same for every order in which the posted requests complete; and the
wait-any loop ends after `NumRecvs + NumSends` requests have completed, given
fuel for one more call than there are requests. -/
theorem RetrieveDecompInfo_one_entry_per_rank (Completion Completion' : Nat → Nat)
    (Extra Extra' : Nat) (SendToRanks : List Int) (RangesOf : Int → range × range)
    (Ranks : List Int) :
    ∃ M : List (Int × decomp_info),
      RetrieveDecompInfo (Ranks.length + SendToRanks.length + 1 + Extra) Completion
          SendToRanks RangesOf Ranks = some (M, Ranks.length + SendToRanks.length) ∧
      RetrieveDecompInfo (Ranks.length + SendToRanks.length + 1 + Extra') Completion'
          SendToRanks RangesOf Ranks = some (M, Ranks.length + SendToRanks.length) ∧
      (M.map Prod.fst).Pairwise (fun x y => x < y) ∧
      (∀ k, k ∈ M.map Prod.fst ↔ k ∈ Ranks) ∧
      (∀ k v, (k, v) ∈ M → v = ⟨(RangesOf k).1, (RangesOf k).2⟩) := by
  have hkeys : ((Ranks.foldl set_Insert []).map
      (fun k => (k, (⟨(RangesOf k).1, (RangesOf k).2⟩ : decomp_info)))).map Prod.fst =
      Ranks.foldl set_Insert [] := by
    rw [List.map_map]
    exact List.map_id _
  refine ⟨_, RetrieveDecompInfo_eq Completion Extra SendToRanks RangesOf Ranks,
    RetrieveDecompInfo_eq Completion' Extra' SendToRanks RangesOf Ranks, ?_, ?_, ?_⟩
  · rw [hkeys]
    have hgen : ∀ (l : List Int) (S : List Int), S.Pairwise (fun x y => x < y) →
        (l.foldl set_Insert S).Pairwise (fun x y => x < y) := by
      intro l
      induction l with
      | nil => exact fun _ h => h
      | cons a l ih => exact fun S h => ih _ (sorted_set_Insert _ _ h)
    exact hgen _ _ List.Pairwise.nil
  · intro k
    rw [hkeys, mem_foldl_set_Insert]
    simp
  · intro k v hkv
    obtain ⟨x, -, hx⟩ := List.mem_map.1 hkv
    simp only [Prod.mk.injEq] at hx
    rw [← hx.2, hx.1]

/-! ## Uncovered ghost points -/

/-- Counterexample to C11 as stated: rank 0 owns `[0,3)` of the non-periodic line
of six points and the hash holds only its own record.  The ghost point `3` is
enumerated, the only region of its bin does not contain it, and
`DetectNeighbors` nevertheless returns a list, the empty one. -/
theorem DetectNeighbors_returns_with_uncovered_point :
    (⟨3, 0, 0⟩ : tuple Int) ∈ DetectNeighbors_ExtendedPoints (plainCart1D 6) (range1D 0 3) ∧
    (singleBinHash 1 lowerHalfOnly).RetrieveBin
        (binIndexOf (singleBinHash 1 lowerHalfOnly) ⟨3, 0, 0⟩) = [⟨range1D 0 3, 0⟩] ∧
    (range1D 0 3).Contains ⟨3, 0, 0⟩ = false ∧
    FirstContaining ((singleBinHash 1 lowerHalfOnly).RetrieveBin
        (binIndexOf (singleBinHash 1 lowerHalfOnly) ⟨3, 0, 0⟩)) ⟨3, 0, 0⟩ = none ∧
    DetectNeighbors (plainCart1D 6) 0 (range1D 0 3) (singleBinHash 1 lowerHalfOnly) = [] := by
  decide

/-- C11 (amended): a ghost point covered by no region of its retrieved bin is
skipped silently.  The loop body of lines 81-95 leaves the set of ranks as it is
at such a point, and when no ghost point is covered `DetectNeighbors` returns
the empty list. -/
theorem DetectNeighbors_skips_uncovered_points (Cart : cart) (CommRank : Int)
    (LocalRange : range) (DecompHash : decomp_hash) :
    (∀ (Bins : List (Int × List decomp_hash_region_data)) (S : List Int) (p : tuple Int),
      FirstContaining ((map_Find Bins (binIndexOf DecompHash p)).getD []) p = none →
      RankStep DecompHash Bins S p = S) ∧
    ((∀ p ∈ DetectNeighbors_ExtendedPoints Cart LocalRange,
        FirstContaining (DecompHash.RetrieveBin (binIndexOf DecompHash p)) p = none) →
      DetectNeighbors Cart CommRank LocalRange DecompHash = []) := by
  constructor
  · intro Bins S p h
    unfold RankStep
    simp only [h]
  · intro h
    apply List.eq_nil_iff_forall_not_mem.2
    intro r hr
    obtain ⟨-, p, hp, Region, hF, -⟩ := (mem_DetectNeighbors_points _ _ _ _ _).1 hr
    rw [h p hp] at hF
    exact Option.noConfusion hF

/-! ## Range invariant and containment for `ExtendLocalRange` -/

/-- C12: for a local range with `Begin(d) <= End(d)` and `ExtendAmount >= 0`, the
range returned by `ExtendLocalRange` contains the local range (its `Begin(d)` is
not above, its `End(d)` not below) and so satisfies `Begin(d) <= End(d)`, in every
dimension. -/
theorem ExtendLocalRange_contains_LocalRange (Cart : cart) (LocalRange : range)
    (ExtendAmount : Int) (hAmount : 0 ≤ ExtendAmount) (d : Nat) (hd : d < MAX_DIMS)
    (hValid : LocalRange.Begin.get d ≤ LocalRange.End.get d) :
    (ExtendLocalRange Cart LocalRange ExtendAmount).Begin.get d ≤ LocalRange.Begin.get d ∧
    LocalRange.End.get d ≤ (ExtendLocalRange Cart LocalRange ExtendAmount).End.get d ∧
    (ExtendLocalRange Cart LocalRange ExtendAmount).Begin.get d ≤
      (ExtendLocalRange Cart LocalRange ExtendAmount).End.get d := by
  have hd3 : d < 3 := hd
  rw [ExtendLocalRange_Begin _ _ _ _ hd3, ExtendLocalRange_End _ _ _ _ hd3]
  split_ifs <;> omega

/-- Witness for C12: the last rank of the periodic `UNIQUE` line of six points,
extended by two. -/
theorem ExtendLocalRange_contains_LocalRange_witness :
    (0 : Int) ≤ 2 ∧ (range1D 3 6).Begin.get 0 ≤ (range1D 3 6).End.get 0 ∧
    ((ExtendLocalRange (periodicCart1D 6 periodic_storage.UNIQUE) (range1D 3 6) 2).Begin.get 0 ≤
        (range1D 3 6).Begin.get 0 ∧
      (range1D 3 6).End.get 0 ≤
        (ExtendLocalRange (periodicCart1D 6 periodic_storage.UNIQUE) (range1D 3 6) 2).End.get 0 ∧
      (ExtendLocalRange (periodicCart1D 6 periodic_storage.UNIQUE) (range1D 3 6) 2).Begin.get 0 ≤
        (ExtendLocalRange (periodicCart1D 6 periodic_storage.UNIQUE) (range1D 3 6) 2).End.get
          0) :=
  ⟨by decide, by decide,
    ExtendLocalRange_contains_LocalRange (periodicCart1D 6 periodic_storage.UNIQUE)
      (range1D 3 6) 2 (by decide) 0 (by decide) (by decide)⟩

/-- Counterexample to C20 as stated: on the non-periodic line `[0,6)` the local
range `[1,3)` extended by 2 is `[-1,5)`, whose `Begin(0)` lies below the global
`Begin(0)`. -/
theorem ExtendLocalRange_leaves_global_range :
    (plainCart1D 6).Periodic.get 0 = false ∧
    (plainCart1D 6).Range.Begin.get 0 ≤ (range1D 1 3).Begin.get 0 ∧
    (range1D 1 3).End.get 0 ≤ (plainCart1D 6).Range.End.get 0 ∧
    ExtendLocalRange (plainCart1D 6) (range1D 1 3) 2 = range1D (-1) 5 ∧
    (ExtendLocalRange (plainCart1D 6) (range1D 1 3) 2).Begin.get 0 <
      (plainCart1D 6).Range.Begin.get 0 := by
  decide

/-- C20 (amended): in a non-periodic dimension the extended range stays inside the
global range when the local range lies in the global range and each of its two
faces is on the global bound or at least `ExtendAmount` away from it; this is
always so for `ExtendAmount` 0 or 1. -/
theorem ExtendLocalRange_inside_global_range (Cart : cart) (LocalRange : range)
    (ExtendAmount : Int) (d : Nat) (hd : d < MAX_DIMS)
    (hNonPeriodic : Cart.Periodic.get d = false)
    (hInside : Cart.Range.Begin.get d ≤ LocalRange.Begin.get d ∧
      LocalRange.End.get d ≤ Cart.Range.End.get d)
    (hMargin : (0 ≤ ExtendAmount ∧ ExtendAmount ≤ 1) ∨
      ((LocalRange.Begin.get d = Cart.Range.Begin.get d ∨
          Cart.Range.Begin.get d + ExtendAmount ≤ LocalRange.Begin.get d) ∧
        (LocalRange.End.get d = Cart.Range.End.get d ∨
          LocalRange.End.get d + ExtendAmount ≤ Cart.Range.End.get d))) :
    Cart.Range.Begin.get d ≤ (ExtendLocalRange Cart LocalRange ExtendAmount).Begin.get d ∧
    (ExtendLocalRange Cart LocalRange ExtendAmount).End.get d ≤ Cart.Range.End.get d := by
  have hd3 : d < 3 := hd
  rw [ExtendLocalRange_Begin _ _ _ _ hd3, ExtendLocalRange_End _ _ _ _ hd3]
  simp only [hNonPeriodic, Bool.false_eq_true, or_false, and_false, if_false]
  split_ifs <;> omega

/-- Witness for C20 (amended): the non-periodic line `[0,6)`, local range `[0,3)`,
extended by one. -/
theorem ExtendLocalRange_inside_global_range_witness :
    (plainCart1D 6).Periodic.get 0 = false ∧
    ((plainCart1D 6).Range.Begin.get 0 ≤ (range1D 0 3).Begin.get 0 ∧
      (range1D 0 3).End.get 0 ≤ (plainCart1D 6).Range.End.get 0) ∧
    ((plainCart1D 6).Range.Begin.get 0 ≤
        (ExtendLocalRange (plainCart1D 6) (range1D 0 3) 1).Begin.get 0 ∧
      (ExtendLocalRange (plainCart1D 6) (range1D 0 3) 1).End.get 0 ≤
        (plainCart1D 6).Range.End.get 0) :=
  ⟨by decide, by decide,
    ExtendLocalRange_inside_global_range (plainCart1D 6) (range1D 0 3) 1 0 (by decide)
      (by decide) (by decide) (Or.inl (by decide))⟩

/-! ## `RangePointToCell` -/

theorem PointToCellStep_Begin (Cart : cart) (Range R : range) (i d : Nat) (hd : d < 3) :
    (PointToCellStep Cart Range R i).Begin.get d =
      if i = d then Range.Begin.get d else R.Begin.get d := by
  by_cases hid : i = d
  · subst hid
    unfold PointToCellStep
    simp only [if_true]
    split <;> simp only [range.setBegin, range.setEnd, tuple.get_set_self _ _ _ hd]
  · unfold PointToCellStep
    simp only [hid, if_false]
    split <;> simp only [range.setBegin, range.setEnd, tuple.get_set_other _ _ _ _ hd hid]

theorem PointToCellStep_End (Cart : cart) (Range R : range) (i d : Nat) (hd : d < 3) :
    (PointToCellStep Cart Range R i).End.get d =
      if i = d then
        (if Range.End.get d ≠ Cart.Range.End.get d ∨
            (Cart.Periodic.get d = true ∧ Cart.PeriodicStorage = periodic_storage.UNIQUE)
          then Range.End.get d else Range.End.get d - 1)
      else R.End.get d := by
  by_cases hid : i = d
  · subst hid
    unfold PointToCellStep
    simp only [if_true]
    split <;> simp only [range.setBegin, range.setEnd, tuple.get_set_self _ _ _ hd]
  · unfold PointToCellStep
    simp only [hid, if_false]
    split <;> simp only [range.setBegin, range.setEnd, tuple.get_set_other _ _ _ _ hd hid]

theorem foldl_PointToCellStep_Begin (Cart : cart) (Range : range) (n : Nat) (R : range)
    (d : Nat) (hd : d < 3) :
    ((List.range n).foldl (PointToCellStep Cart Range) R).Begin.get d =
      if d < n then Range.Begin.get d else R.Begin.get d := by
  induction n with
  | zero => simp
  | succ n ih =>
    rw [List.range_succ, List.foldl_append, List.foldl_cons, List.foldl_nil,
      PointToCellStep_Begin _ _ _ _ _ hd, ih]
    by_cases h1 : n = d
    · have h3 : d < n + 1 := by omega
      simp [h1, h3]
    · by_cases h2 : d < n
      · have h3 : d < n + 1 := by omega
        simp [h1, h2, h3]
      · have h3 : ¬ d < n + 1 := by omega
        simp [h1, h2, h3]

theorem foldl_PointToCellStep_End (Cart : cart) (Range : range) (n : Nat) (R : range)
    (d : Nat) (hd : d < 3) :
    ((List.range n).foldl (PointToCellStep Cart Range) R).End.get d =
      if d < n then
        (if Range.End.get d ≠ Cart.Range.End.get d ∨
            (Cart.Periodic.get d = true ∧ Cart.PeriodicStorage = periodic_storage.UNIQUE)
          then Range.End.get d else Range.End.get d - 1)
      else R.End.get d := by
  induction n with
  | zero => simp
  | succ n ih =>
    rw [List.range_succ, List.foldl_append, List.foldl_cons, List.foldl_nil,
      PointToCellStep_End _ _ _ _ _ hd, ih]
    by_cases h1 : n = d
    · have h3 : d < n + 1 := by omega
      simp [h1, h3]
    · by_cases h2 : d < n
      · have h3 : d < n + 1 := by omega
        simp [h1, h2, h3]
      · have h3 : ¬ d < n + 1 := by omega
        simp [h1, h2, h3]

/-- Closed form of `Begin(d)` of `RangePointToCell`. -/
theorem RangePointToCell_Begin (Cart : cart) (Range : range) (d : Nat) (hd : d < 3) :
    (RangePointToCell Cart Range).Begin.get d =
      if d < Cart.Dimension then Range.Begin.get d
      else (MakeEmptyRange Cart.Dimension).Begin.get d :=
  foldl_PointToCellStep_Begin Cart Range Cart.Dimension _ d hd

/-- Closed form of `End(d)` of `RangePointToCell`. -/
theorem RangePointToCell_End (Cart : cart) (Range : range) (d : Nat) (hd : d < 3) :
    (RangePointToCell Cart Range).End.get d =
      if d < Cart.Dimension then
        (if Range.End.get d ≠ Cart.Range.End.get d ∨
            (Cart.Periodic.get d = true ∧ Cart.PeriodicStorage = periodic_storage.UNIQUE)
          then Range.End.get d else Range.End.get d - 1)
      else (MakeEmptyRange Cart.Dimension).End.get d :=
  foldl_PointToCellStep_End Cart Range Cart.Dimension _ d hd

theorem MakeEmptyRange_valid (NumDims d : Nat) :
    (MakeEmptyRange NumDims).Begin.get d ≤ (MakeEmptyRange NumDims).End.get d := by
  unfold MakeEmptyRange tuple.get
  split <;> exact le_refl _

/-- Counterexample to C13 as stated: on the non-periodic line `[0,6)` the empty
point range with `Begin == End == 6`, which touches the upper bound of the cart,
is mapped to the cell range with `Begin(0) = 6` and `End(0) = 5`. -/
theorem RangePointToCell_inverts_empty_range_at_upper_bound :
    (∀ d, d < MAX_DIMS → (emptyRangeAt 6).Begin.get d ≤ (emptyRangeAt 6).End.get d) ∧
    (emptyRangeAt 6).End.get 0 = (plainCart1D 6).Range.End.get 0 ∧
    (RangePointToCell (plainCart1D 6) (emptyRangeAt 6)).Begin.get 0 = 6 ∧
    (RangePointToCell (plainCart1D 6) (emptyRangeAt 6)).End.get 0 = 5 ∧
    ¬ (RangePointToCell (plainCart1D 6) (emptyRangeAt 6)).Begin.get 0 ≤
      (RangePointToCell (plainCart1D 6) (emptyRangeAt 6)).End.get 0 := by
  decide

/-- C13 (amended): `RangePointToCell` keeps `Begin(d) <= End(d)` in every dimension
for a point range with `Begin(d) <= End(d)` that, in each dimension below
`Cart.Dimension()`, is non-empty (`Begin(d) < End(d)`), or does not end at the
upper bound of the cart, or is periodic with `UNIQUE` storage.  An empty range
at the upper bound of a dimension that loses its last point is excluded. -/
theorem RangePointToCell_keeps_invariant (Cart : cart) (Range : range) (d : Nat)
    (hd : d < MAX_DIMS) (hValid : Range.Begin.get d ≤ Range.End.get d)
    (hCase : d < Cart.Dimension →
      Range.Begin.get d < Range.End.get d ∨ Range.End.get d ≠ Cart.Range.End.get d ∨
      (Cart.Periodic.get d = true ∧ Cart.PeriodicStorage = periodic_storage.UNIQUE)) :
    (RangePointToCell Cart Range).Begin.get d ≤ (RangePointToCell Cart Range).End.get d := by
  have hd3 : d < 3 := hd
  rw [RangePointToCell_Begin _ _ _ hd3, RangePointToCell_End _ _ _ hd3]
  by_cases hlt : d < Cart.Dimension
  · simp only [hlt, if_true]
    have h := hCase hlt
    split_ifs with h1
    · exact hValid
    · rcases h with h | h | h
      · omega
      · exact absurd (Or.inl h) h1
      · exact absurd (Or.inr h) h1
  · simp only [hlt, if_false]
    exact MakeEmptyRange_valid _ _

/-- Witness for C13 (amended): the upper half `[3,6)` of the non-periodic line of
six points becomes the cell range `[3,5)`. -/
theorem RangePointToCell_keeps_invariant_witness :
    (range1D 3 6).Begin.get 0 ≤ (range1D 3 6).End.get 0 ∧
    (0 < (plainCart1D 6).Dimension →
      (range1D 3 6).Begin.get 0 < (range1D 3 6).End.get 0 ∨
      (range1D 3 6).End.get 0 ≠ (plainCart1D 6).Range.End.get 0 ∨
      ((plainCart1D 6).Periodic.get 0 = true ∧
        (plainCart1D 6).PeriodicStorage = periodic_storage.UNIQUE)) ∧
    (RangePointToCell (plainCart1D 6) (range1D 3 6)).Begin.get 0 ≤
      (RangePointToCell (plainCart1D 6) (range1D 3 6)).End.get 0 :=
  ⟨by decide, fun _ => Or.inl (by decide),
    RangePointToCell_keeps_invariant (plainCart1D 6) (range1D 3 6) 0 (by decide) (by decide)
      (fun _ => Or.inl (by decide))⟩


/-! ## Overlap events -/

theorem TriggerBatch_getElem? (EventFlags : Nat) (OverlapIDs : List overlap_id) (i : Nat) :
    (TriggerBatch EventFlags (Int.ofNat OverlapIDs.length) OverlapIDs)[i]? =
      (OverlapIDs[i]?).map fun OverlapID =>
        (⟨OverlapID, EventFlags, decide (i + 1 = OverlapIDs.length)⟩ : overlap_event) := by
  induction OverlapIDs generalizing i with
  | nil => simp [TriggerBatch]
  | cons ID Rest ih =>
    have hlen : Int.ofNat (ID :: Rest).length - 1 = Int.ofNat Rest.length := by
      simp only [List.length_cons, Int.ofNat_eq_coe]
      omega
    unfold TriggerBatch
    rw [hlen]
    cases i with
    | zero =>
      simp only [List.getElem?_cons_zero, Option.map_some', List.length_cons, Int.ofNat_eq_coe]
      congr 2
      simp only [decide_eq_decide]
      omega
    | succ j =>
      simp only [List.getElem?_cons_succ, List.length_cons]
      rw [ih j]
      congr 1
      funext OverlapID
      congr 1
      simp only [decide_eq_decide]
      omega

theorem TriggerLoop_nil_of_none (Flags : overlap_id → Nat) (n : Int) (L : List overlap_id)
    (h : ∀ ID ∈ L, Flags ID = overlap_event_flags_NONE) : TriggerLoop Flags n L = [] := by
  induction L generalizing n with
  | nil => rfl
  | cons ID Rest ih =>
    unfold TriggerLoop
    have h0 : Flags ID = overlap_event_flags_NONE := h ID (List.mem_cons_self _ _)
    simp only [h0, ne_eq, not_true_eq_false, if_false]
    exact ih n (fun x hx => h x (List.mem_cons_of_mem _ hx))

theorem TriggerLoop_congr (F G : overlap_id → Nat) (n : Int) (L : List overlap_id)
    (h : ∀ ID ∈ L, F ID = G ID) : TriggerLoop F n L = TriggerLoop G n L := by
  induction L generalizing n with
  | nil => rfl
  | cons ID Rest ih =>
    unfold TriggerLoop
    rw [h ID (List.mem_cons_self _ _), ih (n - 1) (fun x hx => h x (List.mem_cons_of_mem _ hx)),
      ih n (fun x hx => h x (List.mem_cons_of_mem _ hx))]

theorem TriggerLoop_getElem? (Flags : overlap_id → Nat) (L : List overlap_id) (i : Nat) :
    (TriggerLoop Flags
        (Int.ofNat (L.filter fun ID => decide (Flags ID ≠ overlap_event_flags_NONE)).length)
        L)[i]? =
      ((L.filter fun ID => decide (Flags ID ≠ overlap_event_flags_NONE))[i]?).map fun ID =>
        (⟨ID, Flags ID, decide (i + 1 =
          (L.filter fun ID => decide (Flags ID ≠ overlap_event_flags_NONE)).length)⟩ :
          overlap_event) := by
  induction L generalizing i with
  | nil => simp [TriggerLoop]
  | cons ID Rest ih =>
    by_cases h0 : Flags ID = overlap_event_flags_NONE
    · have hf : ((ID :: Rest).filter fun ID => decide (Flags ID ≠ overlap_event_flags_NONE)) =
          Rest.filter fun ID => decide (Flags ID ≠ overlap_event_flags_NONE) := by
        simp [List.filter_cons, h0]
      rw [hf]
      unfold TriggerLoop
      simp only [h0, ne_eq, not_true_eq_false, if_false]
      exact ih i
    · have hf : ((ID :: Rest).filter fun ID => decide (Flags ID ≠ overlap_event_flags_NONE)) =
          ID :: Rest.filter fun ID => decide (Flags ID ≠ overlap_event_flags_NONE) := by
        simp [List.filter_cons, h0]
      rw [hf]
      generalize (Rest.filter fun ID => decide (Flags ID ≠ overlap_event_flags_NONE)) = T
        at ih ⊢
      have hlen : Int.ofNat (ID :: T).length - 1 = Int.ofNat T.length := by
        simp only [List.length_cons, Int.ofNat_eq_coe]
        omega
      unfold TriggerLoop
      simp only [h0, ne_eq, not_false_eq_true, if_true]
      rw [hlen]
      cases i with
      | zero =>
        simp only [List.getElem?_cons_zero, Option.map_some', List.length_cons,
          Int.ofNat_eq_coe]
        congr 2
        simp only [decide_eq_decide]
        omega
      | succ j =>
        simp only [List.getElem?_cons_succ, List.length_cons]
        rw [ih j]
        congr 1
        funext x
        congr 1
        simp only [decide_eq_decide]
        omega

theorem GridIDsToIndex_lt (R : List overlap_id) (ID : overlap_id) (h : ID ∈ R) :
    GridIDsToIndex R ID < R.length := by
  induction R with
  | nil => simp at h
  | cons k R ih =>
    unfold GridIDsToIndex
    by_cases hk : k = ID
    · simp [hk]
    · have hmem : ID ∈ R := by
        rcases List.mem_cons.1 h with h1 | h1
        · exact absurd h1.symm hk
        · exact h1
      simp only [hk, if_false, List.length_cons]
      have := ih hmem
      omega

theorem GridIDsToIndex_getElem? (R : List overlap_id) (ID : overlap_id) (h : ID ∈ R) :
    R[GridIDsToIndex R ID]? = some ID := by
  induction R with
  | nil => simp at h
  | cons k R ih =>
    unfold GridIDsToIndex
    by_cases hk : k = ID
    · simp [hk]
    · have hmem : ID ∈ R := by
        rcases List.mem_cons.1 h with h1 | h1
        · exact absurd h1.symm hk
        · exact h1
      simp only [hk, if_false, List.getElem?_cons_succ]
      exact ih hmem

theorem GridIDsToIndex_eq_iff (R : List overlap_id) (k ID : overlap_id) (h : ID ∈ R) :
    GridIDsToIndex R k = GridIDsToIndex R ID ↔ k = ID := by
  constructor
  · intro he
    induction R with
    | nil => simp at h
    | cons a R ih =>
      unfold GridIDsToIndex at he
      by_cases ha : a = ID
      · by_cases hb : a = k
        · rw [← hb, ha]
        · rw [if_neg hb, if_pos ha] at he
          omega
      · have hmem : ID ∈ R := by
          rcases List.mem_cons.1 h with h1 | h1
          · exact absurd h1.symm ha
          · exact h1
        by_cases hb : a = k
        · rw [if_pos hb, if_neg ha] at he
          omega
        · rw [if_neg hb, if_neg ha] at he
          exact ih hmem (by omega)
  · intro he
    rw [he]

theorem GridIDsToIndex_getElem (R : List overlap_id) (hR : R.Nodup) (j : Nat) (ID : overlap_id)
    (h : R[j]? = some ID) : GridIDsToIndex R ID = j := by
  induction R generalizing j with
  | nil => simp at h
  | cons a R ih =>
    rw [List.nodup_cons] at hR
    unfold GridIDsToIndex
    cases j with
    | zero =>
      simp only [List.getElem?_cons_zero, Option.some.injEq] at h
      simp [h]
    | succ i =>
      simp only [List.getElem?_cons_succ] at h
      have hmem : ID ∈ R := List.mem_iff_getElem?.2 ⟨i, h⟩
      have hne : ¬ a = ID := fun e => hR.1 (e ▸ hmem)
      simp only [hne, if_false, add_left_inj]
      exact ih hR.2 i h

theorem foldl_or_init (l : List (overlap_id × Nat)) (x : Nat) :
    l.foldl (fun a Entry => a ||| Entry.2) x = x ||| l.foldl (fun a Entry => a ||| Entry.2) 0 := by
  induction l generalizing x with
  | nil => simp
  | cons e l ih =>
    rw [List.foldl_cons, List.foldl_cons, ih (x ||| e.2), ih (0 ||| e.2), Nat.zero_or,
      Nat.or_assoc]

theorem PendingFlags_cons (k : overlap_id) (f : Nat) (E : List (overlap_id × Nat))
    (ID : overlap_id) :
    PendingFlags ((k, f) :: E) ID =
      if k = ID then f ||| PendingFlags E ID else PendingFlags E ID := by
  unfold PendingFlags
  by_cases h : k = ID
  · simp only [List.filter_cons, h, decide_True, if_true, List.foldl_cons, Nat.zero_or]
    exact foldl_or_init _ f
  · simp only [List.filter_cons, h, decide_False, if_false]
    simp

theorem getD_set_flags (F : List Nat) (i j v : Nat) :
    (F.set i v).getD j 0 = if i = j ∧ i < F.length then v else F.getD j 0 := by
  rw [List.getD_eq_getElem?_getD, List.getD_eq_getElem?_getD, List.getElem?_set]
  by_cases h1 : i = j
  · by_cases h2 : i < F.length
    · subst h1
      simp [h2]
    · subst h1
      have h3 : F[i]? = none := List.getElem?_eq_none (by omega)
      simp [h2, h3]
  · simp [h1]

theorem AccumulateFlags_length (R : List overlap_id) (E : List (overlap_id × Nat))
    (F : List Nat) : (AccumulateFlags R E F).length = F.length := by
  unfold AccumulateFlags
  induction E generalizing F with
  | nil => rfl
  | cons e E ih =>
    rw [List.foldl_cons, ih, List.length_set]

theorem AccumulateFlags_getD (R : List overlap_id) (E : List (overlap_id × Nat))
    (F : List Nat) (hF : F.length = R.length) (ID : overlap_id) (hID : ID ∈ R) :
    (AccumulateFlags R E F).getD (GridIDsToIndex R ID) 0 =
      F.getD (GridIDsToIndex R ID) 0 ||| PendingFlags E ID := by
  induction E generalizing F with
  | nil => simp [AccumulateFlags, PendingFlags]
  | cons e E ih =>
    obtain ⟨k, f⟩ := e
    have hstep : AccumulateFlags R ((k, f) :: E) F =
        AccumulateFlags R E
          (F.set (GridIDsToIndex R k) (F.getD (GridIDsToIndex R k) 0 ||| f)) := rfl
    rw [hstep, ih _ (by rw [List.length_set]; exact hF), getD_set_flags, PendingFlags_cons]
    have hlt : GridIDsToIndex R ID < F.length := by
      rw [hF]
      exact GridIDsToIndex_lt R ID hID
    by_cases hk : k = ID
    · subst hk
      simp only [true_and, hlt, if_true, Nat.or_assoc]
    · have hne : ¬ GridIDsToIndex R k = GridIDsToIndex R ID :=
        fun e => hk ((GridIDsToIndex_eq_iff R k ID hID).1 e)
      simp only [hne, false_and, if_false, hk]

theorem LocalOverlapEventFlags_length (R : List overlap_id) (Ms Ns : List (overlap_id × Nat)) :
    (LocalOverlapEventFlags R Ms Ns).length = R.length := by
  unfold LocalOverlapEventFlags
  rw [AccumulateFlags_length, AccumulateFlags_length, List.length_replicate]

theorem LocalOverlapEventFlags_getD (R : List overlap_id) (Ms Ns : List (overlap_id × Nat))
    (ID : overlap_id) (hID : ID ∈ R) :
    (LocalOverlapEventFlags R Ms Ns).getD (GridIDsToIndex R ID) 0 =
      PendingFlags Ms ID ||| PendingFlags Ns ID := by
  unfold LocalOverlapEventFlags
  rw [AccumulateFlags_getD R Ns _ (by rw [AccumulateFlags_length, List.length_replicate]) ID hID,
    AccumulateFlags_getD R Ms _ (by rw [List.length_replicate]) ID hID]
  have h0 : (List.replicate R.length overlap_event_flags_NONE).getD (GridIDsToIndex R ID) 0 =
      0 := by
    rw [List.getD_eq_getElem?_getD, List.getElem?_replicate]
    split <;> rfl
  rw [h0, Nat.zero_or]

theorem Allreduce_BOR_length (Mine : List Nat) (Others : List (List Nat)) (n : Nat)
    (hM : Mine.length = n) (hO : ∀ O ∈ Others, O.length = n) :
    (Allreduce_BOR Mine Others).length = n := by
  unfold Allreduce_BOR
  induction Others generalizing Mine with
  | nil => exact hM
  | cons O Others ih =>
    rw [List.foldl_cons]
    apply ih
    · rw [List.length_zipWith, hM, hO O (List.mem_cons_self _ _)]
      exact min_self n
    · exact fun x hx => hO x (List.mem_cons_of_mem _ hx)

theorem Allreduce_BOR_getD (Mine : List Nat) (Others : List (List Nat)) (n j : Nat)
    (hj : j < n) (hM : Mine.length = n) (hO : ∀ O ∈ Others, O.length = n) :
    (Allreduce_BOR Mine Others).getD j 0 =
      Others.foldl (fun a O => a ||| O.getD j 0) (Mine.getD j 0) := by
  unfold Allreduce_BOR
  induction Others generalizing Mine with
  | nil => rfl
  | cons O Others ih =>
    rw [List.foldl_cons, List.foldl_cons]
    have hOl := hO O (List.mem_cons_self _ _)
    rw [ih _ (by rw [List.length_zipWith, hM, hOl]; exact min_self n)
      (fun x hx => hO x (List.mem_cons_of_mem _ hx))]
    congr 1
    rw [List.getD_eq_getElem?_getD, List.getD_eq_getElem?_getD, List.getD_eq_getElem?_getD,
      List.getElem?_zipWith]
    have h1 : Mine[j]? = some Mine[j] := List.getElem?_eq_getElem (by omega)
    have h2 : O[j]? = some O[j] := List.getElem?_eq_getElem (by omega)
    rw [h1, h2]
    rfl

theorem PendingFlags_eq_zero (E : List (overlap_id × Nat)) (ID : overlap_id)
    (h : ∀ e ∈ E, e.2 = overlap_event_flags_NONE) : PendingFlags E ID = 0 := by
  induction E with
  | nil => rfl
  | cons e E ih =>
    obtain ⟨k, f⟩ := e
    rw [PendingFlags_cons, ih (fun x hx => h x (List.mem_cons_of_mem _ hx))]
    have hf : f = 0 := h (k, f) (List.mem_cons_self _ _)
    rw [hf]
    split <;> rfl

theorem GlobalPendingFlags_eq_zero (Others : List local_edits) (C : overlap_component)
    (ID : overlap_id)
    (hC : ∀ e ∈ C.LocalMs_ ++ C.LocalNs_, e.2 = overlap_event_flags_NONE)
    (hO : ∀ O ∈ Others, ∀ e ∈ O.LocalMs_ ++ O.LocalNs_, e.2 = overlap_event_flags_NONE) :
    GlobalPendingFlags Others C ID = 0 := by
  unfold GlobalPendingFlags
  rw [PendingFlags_eq_zero C.LocalMs_ ID (fun e he => hC e (List.mem_append_left _ he)),
    PendingFlags_eq_zero C.LocalNs_ ID (fun e he => hC e (List.mem_append_right _ he))]
  have hgen : ∀ (x : Nat), x = 0 →
      Others.foldl (fun a Other => a ||| (PendingFlags Other.LocalMs_ ID |||
        PendingFlags Other.LocalNs_ ID)) x = 0 := by
    induction Others with
    | nil => exact fun x hx => hx
    | cons O Others ih =>
      intro x hx
      rw [List.foldl_cons]
      apply ih (fun P hP => hO P (List.mem_cons_of_mem _ hP))
      rw [hx, PendingFlags_eq_zero O.LocalMs_ ID
          (fun e he => hO O (List.mem_cons_self _ _) e (List.mem_append_left _ he)),
        PendingFlags_eq_zero O.LocalNs_ ID
          (fun e he => hO O (List.mem_cons_self _ _) e (List.mem_append_right _ he))]
      rfl
  exact hgen _ rfl

theorem flags_zero_of_not_HasLocalEdits (Ms Ns : List (overlap_id × Nat))
    (h : HasLocalEdits Ms Ns = false) : ∀ e ∈ Ms ++ Ns, e.2 = overlap_event_flags_NONE := by
  unfold HasLocalEdits at h
  rw [Bool.or_eq_false_iff, List.any_eq_false, List.any_eq_false] at h
  intro e he
  rcases List.mem_append.1 he with h1 | h1
  · have := h.1 e h1
    simpa using this
  · have := h.2 e h1
    simpa using this

/-- After the reduction, the slot of an overlap ID holds the flags of that ID
combined over all ranks. -/
theorem AllOverlapEventFlags_getD (Others : List local_edits) (C : overlap_component)
    (ID : overlap_id) (hID : ID ∈ C.OverlapRecords_) :
    (Allreduce_BOR (LocalOverlapEventFlags C.OverlapRecords_ C.LocalMs_ C.LocalNs_)
        (Others.map fun Other =>
          LocalOverlapEventFlags C.OverlapRecords_ Other.LocalMs_ Other.LocalNs_)).getD
        (GridIDsToIndex C.OverlapRecords_ ID) 0 =
      GlobalPendingFlags Others C ID := by
  rw [Allreduce_BOR_getD _ _ C.OverlapRecords_.length _
    (GridIDsToIndex_lt _ _ hID) (LocalOverlapEventFlags_length _ _ _)
    (by
      intro O hO
      obtain ⟨P, -, rfl⟩ := List.mem_map.1 hO
      exact LocalOverlapEventFlags_length _ _ _)]
  rw [List.foldl_map, LocalOverlapEventFlags_getD _ _ _ _ hID]
  unfold GlobalPendingFlags
  congr 1
  funext a Other
  rw [LocalOverlapEventFlags_getD _ _ _ _ hID]

theorem AllOverlapEventFlags_eq_map (Others : List local_edits) (C : overlap_component)
    (hKeys : C.OverlapRecords_.Nodup) :
    Allreduce_BOR (LocalOverlapEventFlags C.OverlapRecords_ C.LocalMs_ C.LocalNs_)
        (Others.map fun Other =>
          LocalOverlapEventFlags C.OverlapRecords_ Other.LocalMs_ Other.LocalNs_) =
      C.OverlapRecords_.map (GlobalPendingFlags Others C) := by
  have hlen := Allreduce_BOR_length
    (LocalOverlapEventFlags C.OverlapRecords_ C.LocalMs_ C.LocalNs_)
    (Others.map fun Other =>
      LocalOverlapEventFlags C.OverlapRecords_ Other.LocalMs_ Other.LocalNs_)
    C.OverlapRecords_.length (LocalOverlapEventFlags_length _ _ _)
    (by
      intro O hO
      obtain ⟨P, -, rfl⟩ := List.mem_map.1 hO
      exact LocalOverlapEventFlags_length _ _ _)
  apply List.ext_getElem?
  intro j
  rw [List.getElem?_map]
  by_cases hj : j < C.OverlapRecords_.length
  · have h1 : C.OverlapRecords_[j]? = some C.OverlapRecords_[j] := List.getElem?_eq_getElem hj
    have hidx := GridIDsToIndex_getElem _ hKeys j _ h1
    have hmem : C.OverlapRecords_[j] ∈ C.OverlapRecords_ := List.getElem_mem hj
    have hval := AllOverlapEventFlags_getD Others C _ hmem
    rw [hidx, List.getD_eq_getElem?_getD] at hval
    rw [h1, Option.map_some']
    have hj2 : j < (Allreduce_BOR
        (LocalOverlapEventFlags C.OverlapRecords_ C.LocalMs_ C.LocalNs_)
        (Others.map fun Other =>
          LocalOverlapEventFlags C.OverlapRecords_ Other.LocalMs_ Other.LocalNs_)).length := by
      rw [hlen]
      exact hj
    rw [List.getElem?_eq_getElem hj2] at hval ⊢
    simp only [Option.getD_some] at hval
    rw [hval]
  · rw [List.getElem?_eq_none (by omega), List.getElem?_eq_none (by omega)]
    rfl

/-- The events of `SyncEdits_`, position by position. -/
theorem SyncEdits_events_getElem? (Others : List local_edits) (C : overlap_component)
    (hKeys : C.OverlapRecords_.Nodup) (i : Nat) :
    (SyncEdits_ Others C).2[i]? =
      ((C.OverlapRecords_.filter fun ID =>
          decide (GlobalPendingFlags Others C ID ≠ overlap_event_flags_NONE))[i]?).map fun ID =>
        (⟨ID, GlobalPendingFlags Others C ID, decide (i + 1 =
          (C.OverlapRecords_.filter fun ID =>
            decide (GlobalPendingFlags Others C ID ≠ overlap_event_flags_NONE)).length)⟩ :
          overlap_event) := by
  unfold SyncEdits_
  by_cases hE : (HasLocalEdits C.LocalMs_ C.LocalNs_ ||
      Others.any fun Other => HasLocalEdits Other.LocalMs_ Other.LocalNs_) = false
  · simp only [hE, if_true]
    rw [Bool.or_eq_false_iff, List.any_eq_false] at hE
    have hzero : ∀ ID, GlobalPendingFlags Others C ID = 0 := by
      intro ID
      apply GlobalPendingFlags_eq_zero
      · exact flags_zero_of_not_HasLocalEdits _ _ hE.1
      · intro O hO
        apply flags_zero_of_not_HasLocalEdits
        have := hE.2 O hO
        simpa using this
    have hnil : (C.OverlapRecords_.filter fun ID =>
        decide (GlobalPendingFlags Others C ID ≠ overlap_event_flags_NONE)) = [] := by
      apply List.filter_eq_nil_iff.2
      intro ID _
      simp [hzero ID, overlap_event_flags_NONE]
    rw [hnil]
    rfl
  · simp only [hE, if_false]
    rw [AllOverlapEventFlags_eq_map Others C hKeys]
    have hcount : ((C.OverlapRecords_.map (GlobalPendingFlags Others C)).filter fun EventFlags =>
        decide (EventFlags ≠ overlap_event_flags_NONE)).length =
        (C.OverlapRecords_.filter fun ID =>
          decide (GlobalPendingFlags Others C ID ≠ overlap_event_flags_NONE)).length := by
      rw [List.filter_map, List.length_map]
      rfl
    rw [hcount]
    have hcongr := TriggerLoop_congr
      (fun OverlapID => (C.OverlapRecords_.map (GlobalPendingFlags Others C)).getD
        (GridIDsToIndex C.OverlapRecords_ OverlapID) 0)
      (GlobalPendingFlags Others C)
      (Int.ofNat (C.OverlapRecords_.filter fun ID =>
          decide (GlobalPendingFlags Others C ID ≠ overlap_event_flags_NONE)).length)
      C.OverlapRecords_
      (by
        intro ID hID
        have h := AllOverlapEventFlags_getD Others C ID hID
        rw [AllOverlapEventFlags_eq_map Others C hKeys] at h
        exact h)
    rw [hcongr]
    exact TriggerLoop_getElem? (GlobalPendingFlags Others C) C.OverlapRecords_ i

/-- C14: after the events of the initial `SyncEdits_()`, `CreateOverlaps` (resp.
`DestroyOverlaps`) triggers exactly one `CREATE` (resp. `DESTROY`) event per ID
of the batch, in input order, the `i`-th of them with `LastInSequence` true iff
it is the last (`i + 1` is the size of the batch); `CreateOverlap` and
`DestroyOverlap` trigger one such event with `LastInSequence` true. -/
theorem batch_events_one_per_ID_last_flagged (GridIsLocal : Int → Bool) (CREATE DESTROY : Nat)
    (Others : List local_edits) (OverlapIDs : List overlap_id) (OverlapID : overlap_id)
    (C : overlap_component) :
    (∃ Created : List overlap_event,
      (CreateOverlaps GridIsLocal CREATE Others OverlapIDs C).2 =
        (SyncEdits_ Others C).2 ++ Created ∧
      Created.length = OverlapIDs.length ∧
      ∀ i, Created[i]? = (OverlapIDs[i]?).map fun ID =>
        (⟨ID, CREATE, decide (i + 1 = OverlapIDs.length)⟩ : overlap_event)) ∧
    (∃ Destroyed : List overlap_event,
      (DestroyOverlaps DESTROY Others OverlapIDs C).2 = (SyncEdits_ Others C).2 ++ Destroyed ∧
      Destroyed.length = OverlapIDs.length ∧
      ∀ i, Destroyed[i]? = (OverlapIDs[i]?).map fun ID =>
        (⟨ID, DESTROY, decide (i + 1 = OverlapIDs.length)⟩ : overlap_event)) ∧
    (CreateOverlap GridIsLocal CREATE Others OverlapID C).2 =
      (SyncEdits_ Others C).2 ++ [⟨OverlapID, CREATE, true⟩] ∧
    (DestroyOverlap DESTROY Others OverlapID C).2 =
      (SyncEdits_ Others C).2 ++ [⟨OverlapID, DESTROY, true⟩] := by
  have hlen : ∀ (F : Nat), (TriggerBatch F (Int.ofNat OverlapIDs.length) OverlapIDs).length =
      OverlapIDs.length := by
    intro F
    have hgen : ∀ (L : List overlap_id) (n : Int), (TriggerBatch F n L).length = L.length := by
      intro L
      induction L with
      | nil => exact fun _ => rfl
      | cons a L ih =>
        intro n
        unfold TriggerBatch
        rw [List.length_cons, List.length_cons, ih]
    exact hgen _ _
  exact ⟨⟨_, rfl, hlen CREATE, TriggerBatch_getElem? CREATE OverlapIDs⟩,
    ⟨_, rfl, hlen DESTROY, TriggerBatch_getElem? DESTROY OverlapIDs⟩, rfl, rfl⟩

/-- C15: `SyncEdits_` triggers an event for an overlap ID of `OverlapRecords_` iff
the bitwise OR of the pending M-side and N-side flags of that ID over all ranks
is not `NONE`.  The events are, in the order of `OverlapRecords_`, those of the
IDs with such flags; each carries exactly that OR, and `LastInSequence` is true
on the last of them only.  When no rank has a pending flag, nothing is
triggered. -/
theorem SyncEdits_triggers_combined_pending_flags (Others : List local_edits)
    (C : overlap_component) (hKeys : C.OverlapRecords_.Nodup) :
    (∀ i, (SyncEdits_ Others C).2[i]? =
      ((C.OverlapRecords_.filter fun ID =>
          decide (GlobalPendingFlags Others C ID ≠ overlap_event_flags_NONE))[i]?).map fun ID =>
        (⟨ID, GlobalPendingFlags Others C ID, decide (i + 1 =
          (C.OverlapRecords_.filter fun ID =>
            decide (GlobalPendingFlags Others C ID ≠ overlap_event_flags_NONE)).length)⟩ :
          overlap_event)) ∧
    (∀ ID ∈ C.OverlapRecords_,
      (∃ e ∈ (SyncEdits_ Others C).2, e.OverlapID = ID) ↔
        GlobalPendingFlags Others C ID ≠ overlap_event_flags_NONE) ∧
    ((∀ e ∈ C.LocalMs_ ++ C.LocalNs_, e.2 = overlap_event_flags_NONE) →
      (∀ O ∈ Others, ∀ e ∈ O.LocalMs_ ++ O.LocalNs_, e.2 = overlap_event_flags_NONE) →
      (SyncEdits_ Others C).2 = []) := by
  have hget := SyncEdits_events_getElem? Others C hKeys
  refine ⟨hget, ?_, ?_⟩
  · intro ID hID
    constructor
    · rintro ⟨e, he, rfl⟩
      obtain ⟨i, hi⟩ := List.mem_iff_getElem?.1 he
      rw [hget i] at hi
      cases hf : (C.OverlapRecords_.filter fun ID =>
          decide (GlobalPendingFlags Others C ID ≠ overlap_event_flags_NONE))[i]? with
      | none =>
        rw [hf] at hi
        exact Option.noConfusion hi
      | some ID2 =>
        rw [hf, Option.map_some', Option.some.injEq] at hi
        have hmem := List.mem_iff_getElem?.2 ⟨i, hf⟩
        rw [List.mem_filter] at hmem
        rw [← hi]
        simpa using hmem.2
    · intro hne
      have hmem : ID ∈ C.OverlapRecords_.filter fun ID =>
          decide (GlobalPendingFlags Others C ID ≠ overlap_event_flags_NONE) := by
        rw [List.mem_filter]
        exact ⟨hID, by simpa using hne⟩
      obtain ⟨i, hi⟩ := List.mem_iff_getElem?.1 hmem
      have h2 := hget i
      rw [hi, Option.map_some'] at h2
      exact ⟨_, List.mem_iff_getElem?.2 ⟨i, h2⟩, rfl⟩
  · intro hC hO
    have hnil : (C.OverlapRecords_.filter fun ID =>
        decide (GlobalPendingFlags Others C ID ≠ overlap_event_flags_NONE)) = [] := by
      apply List.filter_eq_nil_iff.2
      intro ID _
      simp [GlobalPendingFlags_eq_zero Others C ID hC hO, overlap_event_flags_NONE]
    apply List.ext_getElem?
    intro i
    rw [hget i, hnil]
    rfl

/-- Witness for C15: with two ranks and three records, the events are those of
`(1,2)` with flags `1 ||| 2` and of `(2,1)` with flags `4`, the latter last. -/
theorem SyncEdits_triggers_combined_pending_flags_witness :
    threeRecordComponent.OverlapRecords_.Nodup ∧
    (SyncEdits_ secondRankEdits threeRecordComponent).2 =
      [⟨(1, 2), 3, false⟩, ⟨(2, 1), 4, true⟩] ∧
    ∀ ID ∈ threeRecordComponent.OverlapRecords_,
      (∃ e ∈ (SyncEdits_ secondRankEdits threeRecordComponent).2, e.OverlapID = ID) ↔
        GlobalPendingFlags secondRankEdits threeRecordComponent ID ≠ overlap_event_flags_NONE :=
  ⟨by decide, by decide,
    (SyncEdits_triggers_combined_pending_flags secondRankEdits threeRecordComponent
      (by decide)).2.1⟩

/-! ## Region hash -/

theorem mem_range_Points (R : range) (p : tuple Int) :
    p ∈ R.Points ↔ R.Contains p = true := by
  unfold range.Points range.Contains
  simp only [List.mem_flatMap, List.mem_map, mem_loopValues, Bool.and_eq_true,
    decide_eq_true_eq]
  constructor
  · rintro ⟨k, hk, j, hj, i, hi, rfl⟩
    exact ⟨⟨hi, hj⟩, hk⟩
  · rintro ⟨⟨hi, hj⟩, hk⟩
    exact ⟨p.v2, hk, p.v1, hj, p.v0, hi, rfl⟩

theorem AppendToBin_mono (Bins : Int → List Nat) (iBin : Int) (iRegion j : Nat) (b : Int)
    (h : j ∈ Bins b) : j ∈ AppendToBin Bins iBin iRegion b := by
  unfold AppendToBin
  split_ifs
  · exact List.mem_append_left _ h
  · exact h

theorem foldl_AppendToBin_mono (f : tuple Int → Int) (iRegion j : Nat) (b : Int)
    (Locs : List (tuple Int)) :
    ∀ Bins : Int → List Nat, j ∈ Bins b →
      j ∈ Locs.foldl (fun B BinLoc => AppendToBin B (f BinLoc) iRegion) Bins b := by
  induction Locs with
  | nil => exact fun _ h => h
  | cons L Locs ih =>
    intro Bins h
    rw [List.foldl_cons]
    exact ih _ (AppendToBin_mono Bins (f L) iRegion j b h)

theorem mem_foldl_AppendToBin (f : tuple Int → Int) (iRegion : Nat) (b : Int)
    (Locs : List (tuple Int)) :
    ∀ Bins : Int → List Nat, (∃ L ∈ Locs, f L = b) →
      iRegion ∈ Locs.foldl (fun B BinLoc => AppendToBin B (f BinLoc) iRegion) Bins b := by
  induction Locs with
  | nil =>
    rintro _ ⟨L, hL, _⟩
    exact absurd hL (List.not_mem_nil L)
  | cons L0 Locs ih =>
    rintro Bins ⟨L, hL, hf⟩
    rw [List.foldl_cons]
    rcases List.mem_cons.1 hL with h | h
    · subst h
      apply foldl_AppendToBin_mono
      unfold AppendToBin
      rw [if_pos hf.symm]
      exact List.mem_append_right _ (List.mem_singleton_self iRegion)
    · exact ih _ ⟨L, h, hf⟩

theorem InsertRegions_mono (NumDims : Nat) (BinRange Extents : range) (BinSize : tuple Int)
    (j : Nat) (b : Int) (Regions : List range) :
    ∀ (iRegion : Nat) (Bins : Int → List Nat), j ∈ Bins b →
      j ∈ InsertRegions NumDims BinRange Extents BinSize iRegion Regions Bins b := by
  induction Regions with
  | nil => exact fun _ _ h => h
  | cons R Regions ih =>
    intro iRegion Bins h
    unfold InsertRegions
    exact ih _ _ (foldl_AppendToBin_mono _ _ _ _ _ _ h)

theorem mem_InsertRegions (NumDims : Nat) (BinRange Extents : range) (BinSize : tuple Int)
    (b : Int) (Regions : List range) :
    ∀ (iRegion k : Nat) (Bins : Int → List Nat) (Region : range),
      Regions[k]? = some Region →
      (∃ L ∈ (RegionBinRange NumDims BinRange Extents BinSize Region).Points,
        BinIndexer_ToIndex BinRange L = b) →
      iRegion + k ∈ InsertRegions NumDims BinRange Extents BinSize iRegion Regions Bins b := by
  induction Regions with
  | nil =>
    intro _ k _ _ h
    simp at h
  | cons R Regions ih =>
    intro iRegion k Bins Region hk hL
    unfold InsertRegions
    cases k with
    | zero =>
      simp only [List.getElem?_cons_zero, Option.some.injEq] at hk
      subst hk
      apply InsertRegions_mono
      exact mem_foldl_AppendToBin _ _ _ _ _ hL
    | succ k =>
      rw [List.getElem?_cons_succ] at hk
      have h := ih (iRegion + 1) k
        ((RegionBinRange NumDims BinRange Extents BinSize R).Points.foldl
          (fun B BinLoc => AppendToBin B (BinIndexer_ToIndex BinRange BinLoc) iRegion) Bins)
        Region hk hL
      have e : iRegion + (k + 1) = iRegion + 1 + k := by omega
      rw [e]
      exact h

/-- Clamped floor division is monotone for a non-negative divisor. -/
theorem clamp_cell_mono (lo hi o c x y : Int) (hc : 0 ≤ c) (hxy : x ≤ y) :
    max lo (min hi ((x - o) / c)) ≤ max lo (min hi ((y - o) / c)) := by
  have h : (x - o) / c ≤ (y - o) / c := by
    rcases lt_or_eq_of_le hc with h0 | h0
    · exact Int.ediv_le_ediv h0 (by omega)
    · rw [← h0]
      simp
  omega

theorem clamp_mem (lo hi x : Int) (h : lo ≤ hi) :
    lo ≤ max lo (min hi x) ∧ max lo (min hi x) ≤ hi := by
  omega

theorem GetBinSize_pos (S N : Int) (hS : 1 ≤ S) (hN : 1 ≤ N) : 1 ≤ (S + N - 1) / N :=
  Int.le_ediv_of_mul_le (by omega) (by omega)

theorem MapToBinLoc_mem_RegionBinRange (NumDims : Nat) (BinRange Extents : range)
    (BinSize : tuple Int) (Region : range) (Point : tuple Int)
    (hSize : 0 ≤ BinSize.v0 ∧ 0 ≤ BinSize.v1 ∧ 0 ≤ BinSize.v2)
    (h : Region.Contains Point = true) :
    (RegionBinRange NumDims BinRange Extents BinSize Region).Contains
      (ClampToRange BinRange
        (MapToUniformCell_ NumDims Extents.Begin BinSize Point)) = true := by
  unfold range.Contains at h
  simp only [Bool.and_eq_true, decide_eq_true_eq] at h
  obtain ⟨⟨⟨h0l, h0u⟩, ⟨h1l, h1u⟩⟩, ⟨h2l, h2u⟩⟩ := h
  unfold range.Contains RegionBinRange ClampToRange MapToUniformCell_
  simp only [Bool.and_eq_true, decide_eq_true_eq]
  refine ⟨⟨⟨?_, ?_⟩, ⟨?_, ?_⟩⟩, ⟨?_, ?_⟩⟩
  · split_ifs
    · exact clamp_cell_mono _ _ _ _ _ _ hSize.1 h0l
    · exact le_refl _
  · split_ifs
    · exact Int.lt_add_one_iff.2 (clamp_cell_mono _ _ _ _ _ _ hSize.1 (by omega))
    · exact Int.lt_add_one_iff.2 (le_refl _)
  · split_ifs
    · exact clamp_cell_mono _ _ _ _ _ _ hSize.2.1 h1l
    · exact le_refl _
  · split_ifs
    · exact Int.lt_add_one_iff.2 (clamp_cell_mono _ _ _ _ _ _ hSize.2.1 (by omega))
    · exact Int.lt_add_one_iff.2 (le_refl _)
  · split_ifs
    · exact clamp_cell_mono _ _ _ _ _ _ hSize.2.2 h2l
    · exact le_refl _
  · split_ifs
    · exact Int.lt_add_one_iff.2 (clamp_cell_mono _ _ _ _ _ _ hSize.2.2 (by omega))
    · exact Int.lt_add_one_iff.2 (le_refl _)

theorem BinIndexer_ToIndex_bounds (NumBins BinLoc : tuple Int)
    (h : (⟨⟨0, 0, 0⟩, NumBins⟩ : range).Contains BinLoc = true) :
    0 ≤ BinIndexer_ToIndex ⟨⟨0, 0, 0⟩, NumBins⟩ BinLoc ∧
    BinIndexer_ToIndex ⟨⟨0, 0, 0⟩, NumBins⟩ BinLoc < NumBins.v0 * NumBins.v1 * NumBins.v2 := by
  unfold range.Contains at h
  simp only [Bool.and_eq_true, decide_eq_true_eq] at h
  obtain ⟨⟨⟨h0l, h0u⟩, ⟨h1l, h1u⟩⟩, ⟨h2l, h2u⟩⟩ := h
  unfold BinIndexer_ToIndex
  simp only [sub_zero]
  have hN0 : 0 ≤ NumBins.v0 := by omega
  have hN1 : 0 ≤ NumBins.v1 := by omega
  have hA : 0 ≤ NumBins.v1 * BinLoc.v2 := Int.mul_nonneg hN1 h2l
  have hB : NumBins.v1 * BinLoc.v2 ≤ NumBins.v1 * (NumBins.v2 - 1) :=
    Int.mul_le_mul_of_nonneg_left (by omega) hN1
  have hB2 : NumBins.v1 * (NumBins.v2 - 1) = NumBins.v1 * NumBins.v2 - NumBins.v1 := by ring
  have hC : 0 ≤ NumBins.v0 * (BinLoc.v1 + NumBins.v1 * BinLoc.v2) :=
    Int.mul_nonneg hN0 (by omega)
  have hD : NumBins.v0 * (BinLoc.v1 + NumBins.v1 * BinLoc.v2) ≤
      NumBins.v0 * (NumBins.v1 * NumBins.v2 - 1) :=
    Int.mul_le_mul_of_nonneg_left (by omega) hN0
  have hD2 : NumBins.v0 * (NumBins.v1 * NumBins.v2 - 1) =
      NumBins.v0 * NumBins.v1 * NumBins.v2 - NumBins.v0 := by ring
  constructor
  · omega
  · omega


theorem not_IsEmpty_of_Contains (R : range) (P : tuple Int) (h : R.Contains P = true) :
    R.IsEmpty = false := by
  unfold range.Contains at h
  simp only [Bool.and_eq_true, decide_eq_true_eq] at h
  unfold range.IsEmpty
  simp only [decide_eq_false_iff_not]
  omega

theorem UnionRanges_Contains_left (Left Right : range) (P : tuple Int)
    (h : Left.Contains P = true) : (UnionRanges Left Right).Contains P = true := by
  unfold UnionRanges
  rw [not_IsEmpty_of_Contains Left P h]
  simp only [Bool.false_eq_true, if_false]
  split_ifs
  · exact h
  · unfold range.Contains at h ⊢
    simp only [Bool.and_eq_true, decide_eq_true_eq] at h ⊢
    omega

theorem UnionRanges_Contains_right (Left Right : range) (P : tuple Int)
    (h : Right.Contains P = true) : (UnionRanges Left Right).Contains P = true := by
  unfold UnionRanges
  rw [not_IsEmpty_of_Contains Right P h]
  simp only [Bool.false_eq_true, if_false]
  split_ifs
  · exact h
  · unfold range.Contains at h ⊢
    simp only [Bool.and_eq_true, decide_eq_true_eq] at h ⊢
    omega

theorem foldl_UnionRanges_Contains (P : tuple Int) (Regions : List range) :
    ∀ Extents : range,
      (Extents.Contains P = true ∨ ∃ Region ∈ Regions, Region.Contains P = true) →
      (Regions.foldl UnionRanges Extents).Contains P = true := by
  induction Regions with
  | nil =>
    rintro Extents (h | ⟨R, hR, _⟩)
    · exact h
    · exact absurd hR (List.not_mem_nil R)
  | cons R0 Regions ih =>
    rintro Extents (h | ⟨R, hR, hP⟩)
    · exact ih _ (Or.inl (UnionRanges_Contains_left _ _ _ h))
    · rcases List.mem_cons.1 hR with e | hmem
      · subst e
        exact ih _ (Or.inl (UnionRanges_Contains_right _ _ _ hP))
      · exact ih _ (Or.inr ⟨R, hmem, hP⟩)

/-- The extents of the region hash contain every point of every region. -/
theorem Extents_Contains_of_region (NumDims : Nat) (NumBins : tuple Int)
    (Regions : List range) (Region : range) (P : tuple Int) (hRegion : Region ∈ Regions)
    (hP : Region.Contains P = true) :
    (MakeRegionHash NumDims NumBins Regions).Extents_.Contains P = true :=
  foldl_UnionRanges_Contains P Regions _ (Or.inr ⟨Region, hRegion, hP⟩)

theorem MapToBinLoc_in_BinRange (NumDims : Nat) (NumBins : tuple Int)
    (Regions : List range) (Point : tuple Int)
    (hBins : ∀ d, d < MAX_DIMS → 1 ≤ NumBins.get d) :
    (⟨⟨0, 0, 0⟩, NumBins⟩ : range).Contains
      ((MakeRegionHash NumDims NumBins Regions).MapToBinLoc Point) = true := by
  have hN0 : 1 ≤ NumBins.v0 := hBins 0 (by decide)
  have hN1 : 1 ≤ NumBins.v1 := hBins 1 (by decide)
  have hN2 : 1 ≤ NumBins.v2 := hBins 2 (by decide)
  unfold region_hash.MapToBinLoc MakeRegionHash ClampToRange range.Contains
  simp only [Bool.and_eq_true, decide_eq_true_eq]
  refine ⟨⟨?_, ?_⟩, ?_⟩ <;> omega

theorem mem_RetrieveBin_MapToBin (NumDims : Nat) (NumBins : tuple Int)
    (Regions : List range) (Point : tuple Int)
    (hBins : ∀ d, d < MAX_DIMS → 1 ≤ NumBins.get d)
    (hPoint : (MakeRegionHash NumDims NumBins Regions).Extents_.Contains Point = true)
    (iRegion : Nat) (Region : range) (hRegion : Regions[iRegion]? = some Region)
    (hContains : Region.Contains Point = true) :
    iRegion ∈ (MakeRegionHash NumDims NumBins Regions).RetrieveBin
      ((MakeRegionHash NumDims NumBins Regions).MapToBin Point) := by
  have hN0 : 1 ≤ NumBins.v0 := hBins 0 (by decide)
  have hN1 : 1 ≤ NumBins.v1 := hBins 1 (by decide)
  have hN2 : 1 ≤ NumBins.v2 := hBins 2 (by decide)
  have hE := hPoint
  rw [show (MakeRegionHash NumDims NumBins Regions).Extents_ =
    Regions.foldl UnionRanges (MakeEmptyRange NumDims) from rfl] at hE
  unfold range.Contains at hE
  simp only [Bool.and_eq_true, decide_eq_true_eq] at hE
  obtain ⟨⟨⟨e0l, e0u⟩, ⟨e1l, e1u⟩⟩, ⟨e2l, e2u⟩⟩ := hE
  have hSize : 0 ≤ (MakeRegionHash NumDims NumBins Regions).BinSize_.v0 ∧
      0 ≤ (MakeRegionHash NumDims NumBins Regions).BinSize_.v1 ∧
      0 ≤ (MakeRegionHash NumDims NumBins Regions).BinSize_.v2 := by
    refine ⟨?_, ?_, ?_⟩
    · exact le_trans (by decide) (GetBinSize_pos _ _ (by omega) hN0)
    · exact le_trans (by decide) (GetBinSize_pos _ _ (by omega) hN1)
    · exact le_trans (by decide) (GetBinSize_pos _ _ (by omega) hN2)
  have hMem := MapToBinLoc_mem_RegionBinRange NumDims ⟨⟨0, 0, 0⟩, NumBins⟩
    (MakeRegionHash NumDims NumBins Regions).Extents_
    (MakeRegionHash NumDims NumBins Regions).BinSize_ Region Point hSize hContains
  have hIns := mem_InsertRegions NumDims ⟨⟨0, 0, 0⟩, NumBins⟩
    (MakeRegionHash NumDims NumBins Regions).Extents_
    (MakeRegionHash NumDims NumBins Regions).BinSize_
    ((MakeRegionHash NumDims NumBins Regions).MapToBin Point) Regions 0 iRegion
    (fun _ => []) Region hRegion
    ⟨_, (mem_range_Points _ _).2 hMem, rfl⟩
  rw [Nat.zero_add] at hIns
  exact hIns

/-- The hash over a region hash of the registered local ranges holds the local
ranges of the ranks: the premise of the neighbour theorems is met by it. -/
theorem HoldsLocalRanges_UniformBinHash (Cart : cart) (NumDims : Nat) (NumBins : tuple Int)
    (NumRanks : Nat) (LocalRangeOf : Nat → range)
    (hBins : ∀ d, d < MAX_DIMS → 1 ≤ NumBins.get d) :
    HoldsLocalRanges Cart (UniformBinHash NumDims NumBins NumRanks LocalRangeOf) NumRanks
      LocalRangeOf := by
  constructor
  · intro iBin Region hRegion
    unfold UniformBinHash at hRegion
    simp only [List.mem_filterMap] at hRegion
    obtain ⟨i, _, hi⟩ := hRegion
    exact List.mem_iff_getElem?.2 ⟨i, hi⟩
  · intro Point _ Region hRegion hContains
    obtain ⟨i, hi⟩ := List.mem_iff_getElem?.1 hRegion
    have hi2 : ((RegisteredRegions NumRanks LocalRangeOf).map fun Record =>
        Record.Extents)[i]? = some Region.Extents := by
      rw [List.getElem?_map, hi]
      rfl
    have hExt := Extents_Contains_of_region NumDims NumBins _ Region.Extents Point
      (List.mem_iff_getElem?.2 ⟨i, hi2⟩) hContains
    have hMem := mem_RetrieveBin_MapToBin NumDims NumBins _ Point hBins hExt i
      Region.Extents hi2 hContains
    unfold UniformBinHash binIndexOf
    simp only [List.mem_filterMap]
    exact ⟨i, hMem, hi⟩

/-- C16: for the region hash built over `Regions` with at least one bin per
dimension and every point inside its extents, `MapToBin` names one bin of the
bin grid (its location lies in the bin range and its index in
`[0, NumBins(0)*NumBins(1)*NumBins(2))`), and `RetrieveBin` of that bin lists the
index of every registered region whose extents contain the point. -/
theorem MapToBin_bin_lists_every_containing_region (NumDims : Nat) (NumBins : tuple Int)
    (Regions : List range) (Point : tuple Int)
    (hBins : ∀ d, d < MAX_DIMS → 1 ≤ NumBins.get d)
    (hPoint : (MakeRegionHash NumDims NumBins Regions).Extents_.Contains Point = true) :
    (MakeRegionHash NumDims NumBins Regions).BinRange_.Contains
      ((MakeRegionHash NumDims NumBins Regions).MapToBinLoc Point) = true ∧
    0 ≤ (MakeRegionHash NumDims NumBins Regions).MapToBin Point ∧
    (MakeRegionHash NumDims NumBins Regions).MapToBin Point <
      NumBins.v0 * NumBins.v1 * NumBins.v2 ∧
    ∀ (iRegion : Nat) (Region : range), Regions[iRegion]? = some Region →
      Region.Contains Point = true →
      iRegion ∈ (MakeRegionHash NumDims NumBins Regions).RetrieveBin
        ((MakeRegionHash NumDims NumBins Regions).MapToBin Point) := by
  have hLoc := MapToBinLoc_in_BinRange NumDims NumBins Regions Point hBins
  have hIdx := BinIndexer_ToIndex_bounds NumBins _ hLoc
  exact ⟨hLoc, hIdx.1, hIdx.2, fun iRegion Region hRegion hContains =>
    mem_RetrieveBin_MapToBin NumDims NumBins Regions Point hBins hPoint iRegion Region
      hRegion hContains⟩

/-- Witness for C16: six points on two ranks hashed into two bins of three
points; the point `4` lies in the extents `[0,6)`. -/
theorem MapToBin_bin_lists_every_containing_region_witness :
    (∀ d, d < MAX_DIMS → 1 ≤ (⟨2, 1, 1⟩ : tuple Int).get d) ∧
    (MakeRegionHash 1 ⟨2, 1, 1⟩ [range1D 0 3, range1D 3 6]).Extents_.Contains ⟨4, 0, 0⟩ = true ∧
    (MakeRegionHash 1 ⟨2, 1, 1⟩ [range1D 0 3, range1D 3 6]).MapToBin ⟨4, 0, 0⟩ = 1 ∧
    1 ∈ (MakeRegionHash 1 ⟨2, 1, 1⟩ [range1D 0 3, range1D 3 6]).RetrieveBin
      ((MakeRegionHash 1 ⟨2, 1, 1⟩ [range1D 0 3, range1D 3 6]).MapToBin ⟨4, 0, 0⟩) :=
  ⟨by decide, by decide, by decide,
    (MapToBin_bin_lists_every_containing_region 1 ⟨2, 1, 1⟩ [range1D 0 3, range1D 3 6]
      ⟨4, 0, 0⟩ (by decide) (by decide)).2.2.2 1 (range1D 3 6) rfl (by decide)⟩

/-! ## Mask operations -/

theorem mem_NeighborOffsetsDim (NumDims iDim : Nat) (Amount x : Int) :
    x ∈ NeighborOffsetsDim NumDims iDim Amount ↔
      if iDim < NumDims then -Amount ≤ x ∧ x ≤ Amount else x = 0 := by
  unfold NeighborOffsetsDim
  split_ifs
  · rw [mem_loopValues]
    omega
  · exact List.mem_singleton

theorem mem_NeighborOffsets (NumDims : Nat) (Amount : Int) (Offset : tuple Int) :
    Offset ∈ NeighborOffsets NumDims Amount ↔ IsNeighborOffset NumDims Amount Offset := by
  unfold NeighborOffsets IsNeighborOffset
  simp only [List.mem_flatMap, List.mem_map, mem_NeighborOffsetsDim]
  constructor
  · rintro ⟨k, hk, j, hj, i, hi, rfl⟩ d hd
    have h : d = 0 ∨ d = 1 ∨ d = 2 := by
      unfold MAX_DIMS at hd
      omega
    rcases h with h | h | h <;> subst h
    · exact hi
    · exact hj
    · exact hk
  · intro h
    exact ⟨Offset.v2, h 2 (by decide), Offset.v1, h 1 (by decide), Offset.v0, h 0 (by decide),
      rfl⟩

theorem PeriodicAdjust_of_not_periodic (NumDims : Nat) (GlobalSize : tuple Int)
    (Duplicated : Bool) (Point : tuple Int) :
    (CreatePartition_Cart NumDims GlobalSize false Duplicated).PeriodicAdjust Point = Point := by
  unfold cart.PeriodicAdjust cart.PeriodicAdjustDim CreatePartition_Cart
  simp [tuple.get]

/-- The value of an interval mask on a non-periodic line with the `FALSE` policy. -/
theorem MaskValue_interval (Mirror : tuple Int → tuple Int) (N a b x : Int)
    (ha : 0 ≤ a) (hb : b < N) :
    MaskValue Mirror mask_bc.FALSE
      ((MakeDistributedField (CreatePartition_Cart 1 ⟨N, 1, 1⟩ false false) false).Fill
        (ToRange1D a b) true) ⟨x, 0, 0⟩ = true ↔ a ≤ x ∧ x ≤ b := by
  unfold MaskValue
  rw [show ((MakeDistributedField (CreatePartition_Cart 1 ⟨N, 1, 1⟩ false false) false).Fill
      (ToRange1D a b) true).Cart = CreatePartition_Cart 1 ⟨N, 1, 1⟩ false false from rfl,
    PeriodicAdjust_of_not_periodic]
  simp only [distributed_field.Fill, MakeDistributedField, ToRange1D, CreatePartition_Cart,
    range.Contains]
  simp only [Bool.and_eq_true, decide_eq_true_eq, Bool.false_eq_true, if_false]
  split_ifs with h1 h2
  · simp only [true_iff]
    omega
  · simp only [Bool.false_eq_true, false_iff]
    omega
  · simp only [Bool.false_eq_true, false_iff]
    omega

/-- The value of an interval mask on a non-periodic line at a point of the line,
for every boundary policy. -/
theorem MaskValue_interval_inside (Mirror : tuple Int → tuple Int)
    (BoundaryCondition : mask_bc) (N a b x : Int) (hx0 : 0 ≤ x) (hxN : x < N) :
    MaskValue Mirror BoundaryCondition
      ((MakeDistributedField (CreatePartition_Cart 1 ⟨N, 1, 1⟩ false false) false).Fill
        (ToRange1D a b) true) ⟨x, 0, 0⟩ = true ↔ a ≤ x ∧ x ≤ b := by
  unfold MaskValue
  rw [show ((MakeDistributedField (CreatePartition_Cart 1 ⟨N, 1, 1⟩ false false) false).Fill
      (ToRange1D a b) true).Cart = CreatePartition_Cart 1 ⟨N, 1, 1⟩ false false from rfl,
    PeriodicAdjust_of_not_periodic]
  simp only [distributed_field.Fill, MakeDistributedField, ToRange1D, CreatePartition_Cart,
    range.Contains]
  simp only [Bool.and_eq_true, decide_eq_true_eq, Bool.false_eq_true, if_false]
  split_ifs
  all_goals first
    | (exfalso; omega)
    | (simp only [true_iff]; omega)
    | (simp only [Bool.false_eq_true, false_iff]; omega)

/-- The value of an interval mask on a non-periodic line with the `TRUE` policy. -/
theorem MaskValue_interval_TRUE (Mirror : tuple Int → tuple Int) (N a b x : Int) :
    MaskValue Mirror mask_bc.TRUE
      ((MakeDistributedField (CreatePartition_Cart 1 ⟨N, 1, 1⟩ false false) false).Fill
        (ToRange1D a b) true) ⟨x, 0, 0⟩ = true ↔ (a ≤ x ∧ x ≤ b) ∨ x < 0 ∨ N ≤ x := by
  unfold MaskValue
  rw [show ((MakeDistributedField (CreatePartition_Cart 1 ⟨N, 1, 1⟩ false false) false).Fill
      (ToRange1D a b) true).Cart = CreatePartition_Cart 1 ⟨N, 1, 1⟩ false false from rfl,
    PeriodicAdjust_of_not_periodic]
  simp only [distributed_field.Fill, MakeDistributedField, ToRange1D, CreatePartition_Cart,
    range.Contains]
  simp only [Bool.and_eq_true, decide_eq_true_eq, Bool.false_eq_true, if_false]
  split_ifs with h1 h2
  · simp only [true_iff]
    omega
  · simp only [Bool.false_eq_true, false_iff]
    omega
  · simp only [true_iff]
    omega

/-- On a line the neighbours of a point are the point before it, the point itself
and the point after it. -/
theorem exists_neighbor_1D (P : tuple Int → Prop) (x : Int) :
    (∃ Offset, IsNeighborOffset 1 1 Offset ∧ P ((⟨x, 0, 0⟩ : tuple Int).add Offset)) ↔
      P ⟨x - 1, 0, 0⟩ ∨ P ⟨x, 0, 0⟩ ∨ P ⟨x + 1, 0, 0⟩ := by
  constructor
  · rintro ⟨Offset, hOffset, hP⟩
    have h0 := hOffset 0 (by decide)
    have h1 := hOffset 1 (by decide)
    have h2 := hOffset 2 (by decide)
    simp only [tuple.get, Nat.lt_irrefl, if_true, if_false, Nat.lt_one_iff, one_ne_zero,
      OfNat.ofNat_ne_zero, zero_lt_one] at h0 h1 h2
    have e : (⟨x, 0, 0⟩ : tuple Int).add Offset = ⟨x + Offset.v0, 0, 0⟩ := by
      unfold tuple.add
      rw [h1, h2]
      rfl
    rw [e] at hP
    have h : Offset.v0 = -1 ∨ Offset.v0 = 0 ∨ Offset.v0 = 1 := by omega
    rcases h with h | h | h <;> rw [h] at hP
    · exact Or.inl hP
    · rw [Int.add_zero] at hP
      exact Or.inr (Or.inl hP)
    · exact Or.inr (Or.inr hP)
  · have hOff : ∀ o : Int, -1 ≤ o → o ≤ 1 → IsNeighborOffset 1 1 ⟨o, 0, 0⟩ := by
      intro o ho1 ho2 d hd
      have h : d = 0 ∨ d = 1 ∨ d = 2 := by
        unfold MAX_DIMS at hd
        omega
      rcases h with h | h | h <;> subst h
      · simp only [zero_lt_one, if_true, tuple.get]
        exact ⟨ho1, ho2⟩
      · simp [tuple.get]
      · simp [tuple.get]
    rintro (h | h | h)
    · exact ⟨⟨-1, 0, 0⟩, hOff (-1) (by decide) (by decide), h⟩
    · refine ⟨⟨0, 0, 0⟩, hOff 0 (by decide) (by decide), ?_⟩
      have e : (⟨x, 0, 0⟩ : tuple Int).add ⟨0, 0, 0⟩ = ⟨x, 0, 0⟩ := by
        unfold tuple.add
        simp
      rw [e]
      exact h
    · exact ⟨⟨1, 0, 0⟩, hOff 1 (by decide) (by decide), h⟩

/-- The reference definition of the edge mask, for every mask, policy and point. -/
theorem DetectEdge_Values_iff (Mirror : tuple Int → tuple Int)
    (Mask : distributed_field) (BoundaryCondition : mask_bc) (IncludeExteriorPoint : Bool)
    (Point : tuple Int) :
    ((DetectEdge Mirror Mask edge_type.INNER BoundaryCondition IncludeExteriorPoint).Values
        Point = true ↔
      MaskValue Mirror BoundaryCondition Mask Point = true ∧
      ∃ Offset, IsNeighborOffset Mask.Cart.Dimension 1 Offset ∧
        MaskValue Mirror BoundaryCondition Mask (Point.add Offset) = false) ∧
    ((DetectEdge Mirror Mask edge_type.OUTER BoundaryCondition IncludeExteriorPoint).Values
        Point = true ↔
      MaskValue Mirror BoundaryCondition Mask Point = false ∧
      ∃ Offset, IsNeighborOffset Mask.Cart.Dimension 1 Offset ∧
        MaskValue Mirror BoundaryCondition Mask (Point.add Offset) = true) := by
  refine ⟨?_, ?_⟩
  · unfold DetectEdge EdgeValue
    simp only [Bool.and_eq_true, List.any_eq_true, mem_NeighborOffsets, Bool.not_eq_true']
  · unfold DetectEdge EdgeValue
    simp only [Bool.and_eq_true, List.any_eq_true, mem_NeighborOffsets, Bool.not_eq_true']

/-- The edge mask of an interval mask on a non-periodic line, in terms of the
values of the mask at the point and at the points before and after it. -/
theorem DetectEdge_interval_iff (Mirror : tuple Int → tuple Int) (BoundaryCondition : mask_bc)
    (IncludeExteriorPoint : Bool) (N a b x : Int) :
    ((DetectEdge Mirror
        ((MakeDistributedField (CreatePartition_Cart 1 ⟨N, 1, 1⟩ false false) false).Fill
          (ToRange1D a b) true)
        edge_type.INNER BoundaryCondition IncludeExteriorPoint).Values ⟨x, 0, 0⟩ = true ↔
      MaskValue Mirror BoundaryCondition
        ((MakeDistributedField (CreatePartition_Cart 1 ⟨N, 1, 1⟩ false false) false).Fill
          (ToRange1D a b) true) ⟨x, 0, 0⟩ = true ∧
      (MaskValue Mirror BoundaryCondition
        ((MakeDistributedField (CreatePartition_Cart 1 ⟨N, 1, 1⟩ false false) false).Fill
          (ToRange1D a b) true) ⟨x - 1, 0, 0⟩ = false ∨
       MaskValue Mirror BoundaryCondition
        ((MakeDistributedField (CreatePartition_Cart 1 ⟨N, 1, 1⟩ false false) false).Fill
          (ToRange1D a b) true) ⟨x, 0, 0⟩ = false ∨
       MaskValue Mirror BoundaryCondition
        ((MakeDistributedField (CreatePartition_Cart 1 ⟨N, 1, 1⟩ false false) false).Fill
          (ToRange1D a b) true) ⟨x + 1, 0, 0⟩ = false)) ∧
    ((DetectEdge Mirror
        ((MakeDistributedField (CreatePartition_Cart 1 ⟨N, 1, 1⟩ false false) false).Fill
          (ToRange1D a b) true)
        edge_type.OUTER BoundaryCondition IncludeExteriorPoint).Values ⟨x, 0, 0⟩ = true ↔
      MaskValue Mirror BoundaryCondition
        ((MakeDistributedField (CreatePartition_Cart 1 ⟨N, 1, 1⟩ false false) false).Fill
          (ToRange1D a b) true) ⟨x, 0, 0⟩ = false ∧
      (MaskValue Mirror BoundaryCondition
        ((MakeDistributedField (CreatePartition_Cart 1 ⟨N, 1, 1⟩ false false) false).Fill
          (ToRange1D a b) true) ⟨x - 1, 0, 0⟩ = true ∨
       MaskValue Mirror BoundaryCondition
        ((MakeDistributedField (CreatePartition_Cart 1 ⟨N, 1, 1⟩ false false) false).Fill
          (ToRange1D a b) true) ⟨x, 0, 0⟩ = true ∨
       MaskValue Mirror BoundaryCondition
        ((MakeDistributedField (CreatePartition_Cart 1 ⟨N, 1, 1⟩ false false) false).Fill
          (ToRange1D a b) true) ⟨x + 1, 0, 0⟩ = true)) := by
  have h := DetectEdge_Values_iff Mirror
    ((MakeDistributedField (CreatePartition_Cart 1 ⟨N, 1, 1⟩ false false) false).Fill
      (ToRange1D a b) true) BoundaryCondition IncludeExteriorPoint ⟨x, 0, 0⟩
  rw [show ((MakeDistributedField (CreatePartition_Cart 1 ⟨N, 1, 1⟩ false false) false).Fill
      (ToRange1D a b) true).Cart.Dimension = 1 from rfl] at h
  rw [h.1, h.2, exists_neighbor_1D (fun p => MaskValue Mirror BoundaryCondition _ p = false) x,
    exists_neighbor_1D (fun p => MaskValue Mirror BoundaryCondition _ p = true) x]
  exact ⟨Iff.rfl, Iff.rfl⟩

/-- C17: the edge mask of `DetectEdge` is, for every mask, boundary policy and
point, the reference definition: with `INNER` it is true exactly at the true
points with a false point among their `3^d` neighbours, with `OUTER` exactly at
the false points with a true neighbour, the values of the neighbours being those
of `MaskValue` (wrapped across periodic dimensions, the boundary policy beyond a
non-periodic boundary).  On six points with the mask true on `1..4`, `INNER`
gives true at `1` and `4` only.  In particular, on a non-periodic line `[0,N)` a
mask true exactly on `a..b`, with `0 < a` and `b < N - 1`, has on the line the
inner edge `a`, `b` (the boundary of the filled region) and, at the points that
are not on the boundary of the line, the outer edge `a - 1`, `b + 1`, for every
boundary policy; when the interval may touch the
boundary (`0 <= a`, `b < N`), the `FALSE` policy gives the inner edge `a`, `b`
and the outer edge `a - 1`, `b + 1` (exterior points included), and the `TRUE`
policy gives on the line the inner edge made of those of `a`, `b` that are not
on the boundary, and the outer edge made of the false points among `a - 1`,
`b + 1`, `0`, `N - 1`. -/
theorem DetectEdge_matches_reference (Mirror : tuple Int → tuple Int)
    (Mask : distributed_field) (BoundaryCondition : mask_bc) (IncludeExteriorPoint : Bool)
    (Point : tuple Int) :
    ((DetectEdge Mirror Mask edge_type.INNER BoundaryCondition IncludeExteriorPoint).Values
        Point = true ↔
      MaskValue Mirror BoundaryCondition Mask Point = true ∧
      ∃ Offset, IsNeighborOffset Mask.Cart.Dimension 1 Offset ∧
        MaskValue Mirror BoundaryCondition Mask (Point.add Offset) = false) ∧
    ((DetectEdge Mirror Mask edge_type.OUTER BoundaryCondition IncludeExteriorPoint).Values
        Point = true ↔
      MaskValue Mirror BoundaryCondition Mask Point = false ∧
      ∃ Offset, IsNeighborOffset Mask.Cart.Dimension 1 Offset ∧
        MaskValue Mirror BoundaryCondition Mask (Point.add Offset) = true) ∧
    (DetectEdge Mirror
      ((MakeDistributedField (CreatePartition_Cart 1 ⟨6, 1, 1⟩ false false) false).Fill
        (ToRange1D 1 4) true)
      edge_type.INNER mask_bc.FALSE false).Elements =
        [false, true, false, false, true, false] ∧
    (∀ N a b x : Int, 0 < a → a ≤ b → b < N - 1 → 0 ≤ x → x < N →
      ((DetectEdge Mirror
          ((MakeDistributedField (CreatePartition_Cart 1 ⟨N, 1, 1⟩ false false) false).Fill
            (ToRange1D a b) true)
          edge_type.INNER BoundaryCondition IncludeExteriorPoint).Values ⟨x, 0, 0⟩ = true ↔
        x = a ∨ x = b) ∧
      (0 < x → x < N - 1 →
        ((DetectEdge Mirror
            ((MakeDistributedField (CreatePartition_Cart 1 ⟨N, 1, 1⟩ false false) false).Fill
              (ToRange1D a b) true)
            edge_type.OUTER BoundaryCondition IncludeExteriorPoint).Values ⟨x, 0, 0⟩ = true ↔
          x = a - 1 ∨ x = b + 1))) ∧
    (∀ N a b x : Int, 0 ≤ a → a ≤ b → b < N →
      ((DetectEdge Mirror
          ((MakeDistributedField (CreatePartition_Cart 1 ⟨N, 1, 1⟩ false false) false).Fill
            (ToRange1D a b) true)
          edge_type.INNER mask_bc.FALSE IncludeExteriorPoint).Values ⟨x, 0, 0⟩ = true ↔
        x = a ∨ x = b) ∧
      ((DetectEdge Mirror
          ((MakeDistributedField (CreatePartition_Cart 1 ⟨N, 1, 1⟩ false false) false).Fill
            (ToRange1D a b) true)
          edge_type.OUTER mask_bc.FALSE IncludeExteriorPoint).Values ⟨x, 0, 0⟩ = true ↔
        x = a - 1 ∨ x = b + 1)) ∧
    (∀ N a b x : Int, 0 ≤ a → a ≤ b → b < N → 0 ≤ x → x < N →
      ((DetectEdge Mirror
          ((MakeDistributedField (CreatePartition_Cart 1 ⟨N, 1, 1⟩ false false) false).Fill
            (ToRange1D a b) true)
          edge_type.INNER mask_bc.TRUE IncludeExteriorPoint).Values ⟨x, 0, 0⟩ = true ↔
        (x = a ∧ 0 < a) ∨ (x = b ∧ b < N - 1)) ∧
      ((DetectEdge Mirror
          ((MakeDistributedField (CreatePartition_Cart 1 ⟨N, 1, 1⟩ false false) false).Fill
            (ToRange1D a b) true)
          edge_type.OUTER mask_bc.TRUE IncludeExteriorPoint).Values ⟨x, 0, 0⟩ = true ↔
        (x < a ∨ b < x) ∧ (x = a - 1 ∨ x = b + 1 ∨ x = 0 ∨ x = N - 1))) := by
  have hRef := DetectEdge_Values_iff Mirror Mask BoundaryCondition IncludeExteriorPoint Point
  refine ⟨hRef.1, hRef.2, rfl, ?_, ?_, ?_⟩
  · intro N a b x ha hab hb hx0 hxN
    have hI := DetectEdge_interval_iff Mirror BoundaryCondition IncludeExteriorPoint N a b x
    have hv := MaskValue_interval_inside Mirror BoundaryCondition N a b x hx0 hxN
    by_cases hx : 0 < x ∧ x < N - 1
    · have hm := MaskValue_interval_inside Mirror BoundaryCondition N a b (x - 1) (by omega)
        (by omega)
      have hp := MaskValue_interval_inside Mirror BoundaryCondition N a b (x + 1) (by omega)
        (by omega)
      rw [hI.1, hI.2]
      simp only [← Bool.not_eq_true, hv, hm, hp]
      omega
    · refine ⟨?_, fun h1 h2 => absurd ⟨h1, h2⟩ hx⟩
      rw [hI.1, hv]
      constructor
      · rintro ⟨h, _⟩
        omega
      · intro h
        omega
  · intro N a b x ha hab hb
    have hI := DetectEdge_interval_iff Mirror mask_bc.FALSE IncludeExteriorPoint N a b x
    rw [hI.1, hI.2]
    simp only [← Bool.not_eq_true, MaskValue_interval Mirror N a b _ ha hb]
    omega
  · intro N a b x ha hab hb hx0 hxN
    have hI := DetectEdge_interval_iff Mirror mask_bc.TRUE IncludeExteriorPoint N a b x
    rw [hI.1, hI.2]
    simp only [← Bool.not_eq_true, MaskValue_interval_TRUE Mirror N a b]
    omega

/-- The tests "1D, interior, inner edge" and "1D, interior, outer edge" (lines
123-150): the model returns the expected values of the tests. -/
theorem DetectEdge_test_1D_interior (Mirror : tuple Int → tuple Int) :
    (DetectEdge Mirror
      ((MakeDistributedField (CreatePartition_Cart 1 ⟨6, 1, 1⟩ false false) false).Fill
        (ToRange1D 1 4) true)
      edge_type.INNER mask_bc.FALSE false).Elements =
      (((MakeDistributedField (CreatePartition_Cart 1 ⟨6, 1, 1⟩ false false) false).Fill
        (ToRange1D 1 4) true).Fill (ToRange1D 2 3) false).Elements ∧
    (DetectEdge Mirror
      ((MakeDistributedField (CreatePartition_Cart 1 ⟨6, 1, 1⟩ false false) false).Fill
        (ToRange1D 1 4) true)
      edge_type.OUTER mask_bc.FALSE false).Elements =
      ((MakeDistributedField (CreatePartition_Cart 1 ⟨6, 1, 1⟩ false false) true).Fill
        (ToRange1D 1 4) false).Elements :=
  ⟨rfl, rfl⟩

/-- The tests "1D, false boundary, inner edge" and "1D, false boundary, outer
edge" (lines 228-258); the second one includes the exterior points. -/
theorem DetectEdge_test_1D_false_boundary (Mirror : tuple Int → tuple Int) :
    (DetectEdge Mirror
      ((MakeDistributedField (CreatePartition_Cart 1 ⟨6, 1, 1⟩ false false) false).Fill
        (ToRange1D 0 3) true)
      edge_type.INNER mask_bc.FALSE false).Elements =
      (((MakeDistributedField (CreatePartition_Cart 1 ⟨6, 1, 1⟩ false false) false).Fill
        (ToRange1D 0 3) true).Fill (ToRange1D 1 2) false).Elements ∧
    (DetectEdge Mirror
      ((MakeDistributedField (CreatePartition_Cart 1 ⟨6, 1, 1⟩ false false) false).Fill
        (ToRange1D 0 3) true)
      edge_type.OUTER mask_bc.FALSE true).Elements =
      (((MakeDistributedField
          (CartIncludeExteriorPoint (CreatePartition_Cart 1 ⟨6, 1, 1⟩ false false)) false).Fill
        (ToRange1D (-1) 4) true).Fill (ToRange1D 0 3) false).Elements :=
  ⟨rfl, rfl⟩

/-- The tests "1D, true boundary, inner edge" and "1D, true boundary, outer edge"
(lines 260-288); the second one includes the exterior points. -/
theorem DetectEdge_test_1D_true_boundary (Mirror : tuple Int → tuple Int) :
    (DetectEdge Mirror
      ((MakeDistributedField (CreatePartition_Cart 1 ⟨6, 1, 1⟩ false false) false).Fill
        (ToRange1D 0 3) true)
      edge_type.INNER mask_bc.TRUE false).Elements =
      (((MakeDistributedField (CreatePartition_Cart 1 ⟨6, 1, 1⟩ false false) false).Fill
        (ToRange1D 0 3) true).Fill (ToRange1D 0 2) false).Elements ∧
    (DetectEdge Mirror
      ((MakeDistributedField (CreatePartition_Cart 1 ⟨6, 1, 1⟩ false false) false).Fill
        (ToRange1D 0 3) true)
      edge_type.OUTER mask_bc.TRUE true).Elements =
      (((MakeDistributedField
          (CartIncludeExteriorPoint (CreatePartition_Cart 1 ⟨6, 1, 1⟩ false false)) false).Fill
        (ToRange1D 0 5) true).Fill (ToRange1D 0 3) false).Elements :=
  ⟨rfl, rfl⟩

/-- The tests "1D, mirror boundary, inner edge" and "1D, mirror boundary, outer
edge" (lines 290-320), with the nearest point of the global range as the mirror rule. -/
theorem DetectEdge_test_1D_mirror_boundary :
    (DetectEdge (ClampToRange (CreatePartition_Cart 1 ⟨6, 1, 1⟩ false false).Range)
      ((MakeDistributedField (CreatePartition_Cart 1 ⟨6, 1, 1⟩ false false) false).Fill
        (ToRange1D 0 3) true)
      edge_type.INNER mask_bc.MIRROR true).Elements =
      (((MakeDistributedField
          (CartIncludeExteriorPoint (CreatePartition_Cart 1 ⟨6, 1, 1⟩ false false)) false).Fill
        (ToRange1D (-1) 3) true).Fill (ToRange1D (-1) 2) false).Elements ∧
    (DetectEdge (ClampToRange (CreatePartition_Cart 1 ⟨6, 1, 1⟩ false false).Range)
      ((MakeDistributedField (CreatePartition_Cart 1 ⟨6, 1, 1⟩ false false) false).Fill
        (ToRange1D 0 3) true)
      edge_type.OUTER mask_bc.MIRROR true).Elements =
      (((MakeDistributedField
          (CartIncludeExteriorPoint (CreatePartition_Cart 1 ⟨6, 1, 1⟩ false false)) false).Fill
        (ToRange1D (-1) 4) true).Fill (ToRange1D (-1) 3) false).Elements := by
  decide

/-- The tests "2D, interior, inner edge" and "2D, interior, outer edge" (lines
322-349). -/
theorem DetectEdge_test_2D_interior (Mirror : tuple Int → tuple Int) :
    (DetectEdge Mirror
      ((MakeDistributedField (CreatePartition_Cart 2 ⟨6, 6, 1⟩ false false) false).Fill
        (ToRange2D (1, 1) (4, 4)) true)
      edge_type.INNER mask_bc.FALSE false).Elements =
      (((MakeDistributedField (CreatePartition_Cart 2 ⟨6, 6, 1⟩ false false) false).Fill
        (ToRange2D (1, 1) (4, 4)) true).Fill (ToRange2D (2, 2) (3, 3)) false).Elements ∧
    (DetectEdge Mirror
      ((MakeDistributedField (CreatePartition_Cart 2 ⟨6, 6, 1⟩ false false) false).Fill
        (ToRange2D (1, 1) (4, 4)) true)
      edge_type.OUTER mask_bc.FALSE false).Elements =
      ((MakeDistributedField (CreatePartition_Cart 2 ⟨6, 6, 1⟩ false false) true).Fill
        (ToRange2D (1, 1) (4, 4)) false).Elements :=
  ⟨rfl, rfl⟩

/-- Counterexample for C18: on the periodic domain of six points with the mask
true on `0..1` and `4..5`, with `UNIQUE` as with `DUPLICATED` storage, inner-edge
detection gives false at index 0 and at index 5: their neighbours across the
seam are true, so they are interior.  (The mirror rule plays no part under the
`FALSE` policy; the identity is passed.) -/
theorem DetectEdge_seam_points_are_interior :
    (DetectEdge id (seamMask false) edge_type.INNER mask_bc.FALSE false).Values
      ⟨0, 0, 0⟩ = false ∧
    (DetectEdge id (seamMask false) edge_type.INNER mask_bc.FALSE false).Values
      ⟨5, 0, 0⟩ = false ∧
    (DetectEdge id (seamMask true) edge_type.INNER mask_bc.FALSE false).Values
      ⟨0, 0, 0⟩ = false ∧
    (DetectEdge id (seamMask true) edge_type.INNER mask_bc.FALSE false).Values
      ⟨5, 0, 0⟩ = false := by
  decide

/-- C18 (amended): on the periodic domain of six points with the mask true on
`0..1` and `4..5`, inner-edge detection marks index 1 and index 4 only, which are
the expected values of the tests for both storages; index 0 and index 5 are
interior. -/
theorem DetectEdge_seam_edges_are_1_and_4 (Mirror : tuple Int → tuple Int)
    (Duplicated : Bool) :
    (DetectEdge Mirror (seamMask Duplicated) edge_type.INNER mask_bc.FALSE false).Elements =
      [false, true, false, false, true, false] ∧
    (DetectEdge Mirror (seamMask Duplicated) edge_type.INNER mask_bc.FALSE false).Elements =
      (seamExpectedValues Duplicated).Elements := by
  cases Duplicated
  · exact ⟨rfl, rfl⟩
  · exact ⟨rfl, rfl⟩

/-- The tests "1D, periodic boundary, outer edge" (lines 192-226), for both
storages. -/
theorem DetectEdge_test_1D_periodic_outer (Mirror : tuple Int → tuple Int)
    (Duplicated : Bool) :
    (DetectEdge Mirror (seamMask Duplicated) edge_type.OUTER mask_bc.FALSE false).Elements =
      (((MakeDistributedField (CreatePartition_Cart 1 ⟨6, 1, 1⟩ true Duplicated) true).Fill
        (ToRange1D 4 5) false).Fill (ToRange1D 0 1) false).Exchange.Elements := by
  cases Duplicated
  · rfl
  · rfl

/-- C19: for `Amount >= 0`, every mask and every boundary policy, a point is true
after `DilateMask` iff some point within Chebyshev distance `Amount` of it has a
true value before (`MaskValue`: wrapped across periodic dimensions, the boundary
policy beyond a non-periodic boundary).  In particular, on a non-periodic line
`[0,N)` with the `FALSE` policy, a mask true exactly on `a..b` becomes true
exactly on the points of the line in `a-Amount..b+Amount`: it grows by `Amount`
on each side and is clipped at the boundaries. -/
theorem DilateMask_matches_reference (Mirror : tuple Int → tuple Int)
    (Mask : distributed_field) (Amount : Int) (BoundaryCondition : mask_bc)
    (hAmount : 0 ≤ Amount) :
    (∀ Point, (DilateMask Mirror Mask Amount BoundaryCondition).Values Point = true ↔
      ∃ Offset, IsNeighborOffset Mask.Cart.Dimension Amount Offset ∧
        MaskValue Mirror BoundaryCondition Mask (Point.add Offset) = true) ∧
    (∀ N a b x : Int, 0 ≤ a → a ≤ b → b < N → 0 ≤ x → x < N →
      ((DilateMask Mirror
        ((MakeDistributedField (CreatePartition_Cart 1 ⟨N, 1, 1⟩ false false) false).Fill
          (ToRange1D a b) true) Amount mask_bc.FALSE).Values ⟨x, 0, 0⟩ = true ↔
        a - Amount ≤ x ∧ x ≤ b + Amount)) := by
  have hRef : ∀ (M : distributed_field) (bc : mask_bc) (Point : tuple Int),
      (DilateMask Mirror M Amount bc).Values Point = true ↔
      ∃ Offset, IsNeighborOffset M.Cart.Dimension Amount Offset ∧
        MaskValue Mirror bc M (Point.add Offset) = true := by
    intro M bc Point
    unfold DilateMask
    simp only [List.any_eq_true, mem_NeighborOffsets]
  refine ⟨hRef Mask BoundaryCondition, ?_⟩
  intro N a b x ha hab hb hx0 hxN
  rw [hRef]
  rw [show ((MakeDistributedField (CreatePartition_Cart 1 ⟨N, 1, 1⟩ false false) false).Fill
      (ToRange1D a b) true).Cart.Dimension = 1 from rfl]
  constructor
  · rintro ⟨Offset, hOffset, hValue⟩
    have h0 := hOffset 0 (by decide)
    have h1 := hOffset 1 (by decide)
    have h2 := hOffset 2 (by decide)
    simp only [tuple.get, Nat.lt_irrefl, if_true, if_false, Nat.lt_one_iff, one_ne_zero,
      OfNat.ofNat_ne_zero, zero_lt_one] at h0 h1 h2
    have e : (⟨x, 0, 0⟩ : tuple Int).add Offset = ⟨x + Offset.v0, 0, 0⟩ := by
      unfold tuple.add
      rw [h1, h2]
      rfl
    rw [e, MaskValue_interval Mirror N a b _ ha hb] at hValue
    omega
  · rintro ⟨h1, h2⟩
    refine ⟨⟨max (a - x) (min (b - x) 0), 0, 0⟩, ?_, ?_⟩
    · intro d hd
      have h : d = 0 ∨ d = 1 ∨ d = 2 := by
        unfold MAX_DIMS at hd
        omega
      rcases h with h | h | h <;> subst h
      · simp only [zero_lt_one, if_true, tuple.get]
        omega
      · simp [tuple.get]
      · simp [tuple.get]
    · have e : (⟨x, 0, 0⟩ : tuple Int).add ⟨max (a - x) (min (b - x) 0), 0, 0⟩ =
          ⟨x + max (a - x) (min (b - x) 0), 0, 0⟩ := rfl
      rw [e, MaskValue_interval Mirror N a b _ ha hb]
      omega

/-- Witness for C19: the test "1D, interior" (lines 763-773): eight points, the
mask true on `3..4`, dilated by 2 with the `FALSE` policy, is true on `1..6`. -/
theorem DilateMask_matches_reference_witness :
    (0 : Int) ≤ 2 ∧
    (DilateMask id
      ((MakeDistributedField (CreatePartition_Cart 1 ⟨8, 1, 1⟩ false false) false).Fill
        (ToRange1D 3 4) true) 2 mask_bc.FALSE).Elements =
      ((MakeDistributedField (CreatePartition_Cart 1 ⟨8, 1, 1⟩ false false) false).Fill
        (ToRange1D 1 6) true).Elements ∧
    ((DilateMask id
      ((MakeDistributedField (CreatePartition_Cart 1 ⟨8, 1, 1⟩ false false) false).Fill
        (ToRange1D 3 4) true) 2 mask_bc.FALSE).Values ⟨1, 0, 0⟩ = true ↔
      (3 : Int) - 2 ≤ 1 ∧ (1 : Int) ≤ 4 + 2) :=
  ⟨by decide, by decide,
    (DilateMask_matches_reference id
      ((MakeDistributedField (CreatePartition_Cart 1 ⟨8, 1, 1⟩ false false) false).Fill
        (ToRange1D 3 4) true) 2 mask_bc.FALSE (by decide)).2 8 3 4 1 (by decide) (by decide)
      (by decide) (by decide) (by decide)⟩

/-- The tests "1D, periodic boundary, unique" and "1D, periodic boundary,
duplicated" of `DilateMask` (lines 775-799): the mask true at `0` and at `7`,
dilated by 2, is true on `0..2` and on `5..7`. -/
theorem DilateMask_test_1D_periodic (Mirror : tuple Int → tuple Int) (Duplicated : Bool) :
    (DilateMask Mirror
      (((MakeDistributedField (CreatePartition_Cart 1 ⟨8, 1, 1⟩ true Duplicated) false).Fill
        (ToRange1D 0 0) true).Fill (ToRange1D 7 7) true) 2 mask_bc.FALSE).Elements =
      (((MakeDistributedField (CreatePartition_Cart 1 ⟨8, 1, 1⟩ true Duplicated) false).Fill
        (ToRange1D 0 2) true).Fill (ToRange1D 5 7) true).Elements := by
  cases Duplicated
  · rfl
  · rfl

/-- The tests "1D, false boundary", "1D, true boundary" and "1D, mirror boundary"
of `DilateMask` (lines 801-837): the mask true on `0..1`, dilated by 2; the
mirror rule is the nearest point of the global range. -/
theorem DilateMask_test_1D_boundary (Mirror : tuple Int → tuple Int) :
    (DilateMask Mirror
      ((MakeDistributedField (CreatePartition_Cart 1 ⟨8, 1, 1⟩ false false) false).Fill
        (ToRange1D 0 1) true) 2 mask_bc.FALSE).Elements =
      ((MakeDistributedField (CreatePartition_Cart 1 ⟨8, 1, 1⟩ false false) false).Fill
        (ToRange1D 0 3) true).Elements ∧
    (DilateMask Mirror
      ((MakeDistributedField (CreatePartition_Cart 1 ⟨8, 1, 1⟩ false false) false).Fill
        (ToRange1D 0 1) true) 2 mask_bc.TRUE).Elements =
      ((MakeDistributedField (CreatePartition_Cart 1 ⟨8, 1, 1⟩ false false) true).Fill
        (ToRange1D 4 5) false).Elements ∧
    (DilateMask (ClampToRange (CreatePartition_Cart 1 ⟨8, 1, 1⟩ false false).Range)
      ((MakeDistributedField (CreatePartition_Cart 1 ⟨8, 1, 1⟩ false false) false).Fill
        (ToRange1D 0 1) true) 2 mask_bc.MIRROR).Elements =
      ((MakeDistributedField (CreatePartition_Cart 1 ⟨8, 1, 1⟩ false false) false).Fill
        (ToRange1D 0 3) true).Elements :=
  ⟨rfl, rfl, rfl⟩

/-- The test "2D, interior" of `DilateMask` (lines 839-849): the mask true on the
square `3..4 x 3..4` of the `8 x 8` domain, dilated by 2, is true on the square
`1..6 x 1..6`. -/
theorem DilateMask_test_2D_interior (Mirror : tuple Int → tuple Int) :
    (DilateMask Mirror
      ((MakeDistributedField (CreatePartition_Cart 2 ⟨8, 8, 1⟩ false false) false).Fill
        (ToRange2D (3, 3) (4, 4)) true) 2 mask_bc.FALSE).Elements =
      ((MakeDistributedField (CreatePartition_Cart 2 ⟨8, 8, 1⟩ false false) false).Fill
        (ToRange2D (1, 1) (6, 6)) true).Elements :=
  rfl

/-! ## Grid events and the life cycle of overlaps -/

theorem SyncEdits_OverlapRecords (Others : List local_edits) (C : overlap_component) :
    (SyncEdits_ Others C).1.OverlapRecords_ = C.OverlapRecords_ := by
  unfold SyncEdits_
  dsimp only
  split_ifs <;> rfl

theorem SyncEdits_GridEventFlags (Others : List local_edits) (C : overlap_component) :
    (SyncEdits_ Others C).1.GridEventFlags_ = C.GridEventFlags_ := by
  unfold SyncEdits_
  dsimp only
  split_ifs <;> rfl

theorem SyncEdits_LocalMs_keys (Others : List local_edits) (C : overlap_component) :
    (SyncEdits_ Others C).1.LocalMs_.map Prod.fst = C.LocalMs_.map Prod.fst := by
  unfold SyncEdits_
  dsimp only
  split_ifs
  · rfl
  · simp only [List.map_map]
    rfl

theorem SyncEdits_LocalNs_keys (Others : List local_edits) (C : overlap_component) :
    (SyncEdits_ Others C).1.LocalNs_.map Prod.fst = C.LocalNs_.map Prod.fst := by
  unfold SyncEdits_
  dsimp only
  split_ifs
  · rfl
  · simp only [List.map_map]
    rfl

theorem SyncEdits_flags_NONE (Others : List local_edits) (C : overlap_component) :
    ∀ Entry ∈ (SyncEdits_ Others C).1.LocalMs_ ++ (SyncEdits_ Others C).1.LocalNs_,
      Entry.2 = overlap_event_flags_NONE := by
  unfold SyncEdits_
  dsimp only
  split_ifs with h
  · rw [Bool.or_eq_false_iff] at h
    exact flags_zero_of_not_HasLocalEdits _ _ h.1
  · intro Entry hEntry
    simp only [List.mem_append, List.mem_map] at hEntry
    rcases hEntry with ⟨e, _, rfl⟩ | ⟨e, _, rfl⟩ <;> rfl

/-- C22: after `SyncEdits_` every local M-side and N-side `EventFlags` is `NONE`,
and `SyncEdits_` changes neither the overlap records nor the keys of the local
maps nor the grid flags; after `OnGridEvent_` the map of accumulated grid flags
is empty. -/
theorem SyncEdits_and_OnGridEvent_consume_flags (GRID_DESTROY DESTROY : Nat)
    (Others : List local_edits) (C : overlap_component) :
    (∀ Entry ∈ (SyncEdits_ Others C).1.LocalMs_, Entry.2 = overlap_event_flags_NONE) ∧
    (∀ Entry ∈ (SyncEdits_ Others C).1.LocalNs_, Entry.2 = overlap_event_flags_NONE) ∧
    (SyncEdits_ Others C).1.OverlapRecords_ = C.OverlapRecords_ ∧
    (SyncEdits_ Others C).1.LocalMs_.map Prod.fst = C.LocalMs_.map Prod.fst ∧
    (SyncEdits_ Others C).1.LocalNs_.map Prod.fst = C.LocalNs_.map Prod.fst ∧
    (OnGridEvent_ GRID_DESTROY DESTROY Others C).1.GridEventFlags_ = [] :=
  ⟨fun Entry h => SyncEdits_flags_NONE Others C Entry (List.mem_append_left _ h),
    fun Entry h => SyncEdits_flags_NONE Others C Entry (List.mem_append_right _ h),
    SyncEdits_OverlapRecords Others C, SyncEdits_LocalMs_keys Others C,
    SyncEdits_LocalNs_keys Others C, rfl⟩

theorem mem_elem_set_Insert (S : List overlap_id) (a x : overlap_id) :
    x ∈ elem_set_Insert S a ↔ x = a ∨ x ∈ S := by
  induction S with
  | nil => simp [elem_set_Insert]
  | cons b S ih =>
    unfold elem_set_Insert
    split_ifs with h1 h2
    · simp
    · subst h2
      simp
    · simp only [List.mem_cons, ih]
      tauto

theorem mem_elem_set_Erase (S : List overlap_id) (a x : overlap_id) :
    x ∈ elem_set_Erase S a ↔ x ∈ S ∧ x ≠ a := by
  simp [elem_set_Erase, List.mem_filter]

theorem foldl_elem_set_Erase (IDs : List overlap_id) :
    ∀ S : List overlap_id,
      IDs.foldl elem_set_Erase S = S.filter fun x => decide (x ∉ IDs) := by
  induction IDs with
  | nil =>
    intro S
    simp
  | cons a IDs ih =>
    intro S
    rw [List.foldl_cons, ih]
    unfold elem_set_Erase
    rw [List.filter_filter]
    apply List.filter_congr
    intro x _
    simp only [List.mem_cons, not_or, Bool.and_eq_true, decide_eq_true_eq, ne_eq, Bool.decide_and,
      Bool.decide_eq_true]
    by_cases h1 : x = a <;> by_cases h2 : x ∈ IDs <;> simp [h1, h2]

theorem mem_foldl_DyingOverlapIDs (Dying : List Int) (Records : List overlap_id) (x : overlap_id) :
    ∀ S : List overlap_id,
      x ∈ Records.foldl
        (fun DyingOverlapIDs OverlapID =>
          if OverlapID.1 ∈ Dying ∨ OverlapID.2 ∈ Dying then
            elem_set_Insert DyingOverlapIDs OverlapID
          else DyingOverlapIDs) S ↔
      x ∈ S ∨ (x ∈ Records ∧ (x.1 ∈ Dying ∨ x.2 ∈ Dying)) := by
  induction Records with
  | nil =>
    intro S
    simp
  | cons R Records ih =>
    intro S
    rw [List.foldl_cons, ih]
    split_ifs with h
    · rw [mem_elem_set_Insert, List.mem_cons]
      constructor
      · rintro ((h1 | h1) | h1)
        · subst h1
          exact Or.inr ⟨Or.inl rfl, h⟩
        · exact Or.inl h1
        · exact Or.inr ⟨Or.inr h1.1, h1.2⟩
      · rintro (h1 | ⟨h1 | h1, h2⟩)
        · exact Or.inl (Or.inr h1)
        · exact Or.inl (Or.inl h1)
        · exact Or.inr ⟨h1, h2⟩
    · rw [List.mem_cons]
      constructor
      · rintro (h1 | h1)
        · exact Or.inl h1
        · exact Or.inr ⟨Or.inr h1.1, h1.2⟩
      · rintro (h1 | ⟨h1 | h1, h2⟩)
        · exact Or.inl h1
        · subst h1
          exact absurd h2 h
        · exact Or.inr ⟨h1, h2⟩

theorem mem_DyingOverlapIDs (Dying : List Int) (Records : List overlap_id) (x : overlap_id) :
    x ∈ DyingOverlapIDs Dying Records ↔ x ∈ Records ∧ (x.1 ∈ Dying ∨ x.2 ∈ Dying) := by
  unfold DyingOverlapIDs
  rw [mem_foldl_DyingOverlapIDs]
  simp

theorem mem_foldl_DyingGridIDs (D : Nat) (M : List (Int × Nat)) (g : Int) :
    ∀ S : List Int,
      g ∈ M.foldl
        (fun DyingGridIDs EventEntry =>
          if EventEntry.2 &&& D ≠ grid_event_flags_NONE then
            set_Insert DyingGridIDs EventEntry.1
          else DyingGridIDs) S ↔
      g ∈ S ∨ ∃ f, (g, f) ∈ M ∧ f &&& D ≠ grid_event_flags_NONE := by
  induction M with
  | nil =>
    intro S
    simp
  | cons e M ih =>
    intro S
    obtain ⟨k, v⟩ := e
    rw [List.foldl_cons, ih]
    split_ifs with h
    · rw [mem_set_Insert]
      constructor
      · rintro ((h1 | h1) | ⟨f, h1, h2⟩)
        · subst h1
          exact Or.inr ⟨v, List.mem_cons_self _ _, h⟩
        · exact Or.inl h1
        · exact Or.inr ⟨f, List.mem_cons_of_mem _ h1, h2⟩
      · rintro (h1 | ⟨f, h1, h2⟩)
        · exact Or.inl (Or.inr h1)
        · rcases List.mem_cons.1 h1 with h3 | h3
          · simp only [Prod.mk.injEq] at h3
            exact Or.inl (Or.inl h3.1)
          · exact Or.inr ⟨f, h3, h2⟩
    · constructor
      · rintro (h1 | ⟨f, h1, h2⟩)
        · exact Or.inl h1
        · exact Or.inr ⟨f, List.mem_cons_of_mem _ h1, h2⟩
      · rintro (h1 | ⟨f, h1, h2⟩)
        · exact Or.inl h1
        · rcases List.mem_cons.1 h1 with h3 | h3
          · simp only [Prod.mk.injEq] at h3
            rw [h3.2] at h2
            exact absurd h2 h
          · exact Or.inr ⟨f, h3, h2⟩

theorem mem_DyingGridIDs (D : Nat) (M : List (Int × Nat)) (g : Int) :
    g ∈ DyingGridIDs D M ↔ ∃ f, (g, f) ∈ M ∧ f &&& D ≠ grid_event_flags_NONE := by
  unfold DyingGridIDs
  rw [mem_foldl_DyingGridIDs]
  simp

theorem map_Insert_keys {β : Type} (M : List (Int × β)) (k : Int) (v : β) :
    (map_Insert M k v).map Prod.fst = set_Insert (M.map Prod.fst) k := by
  induction M with
  | nil => rfl
  | cons e M ih =>
    obtain ⟨a, b⟩ := e
    unfold map_Insert
    simp only [List.map_cons]
    unfold set_Insert
    split_ifs
    · rfl
    · rfl
    · rw [List.map_cons, ih]

theorem mem_iff_map_Find {β : Type} (M : List (Int × β))
    (hM : (M.map Prod.fst).Pairwise (fun x y => x < y)) (k : Int) (v : β) :
    (k, v) ∈ M ↔ map_Find M k = some v := by
  induction M with
  | nil => simp [map_Find]
  | cons e M ih =>
    obtain ⟨a, b⟩ := e
    rw [List.map_cons, List.pairwise_cons] at hM
    have ih2 := ih hM.2
    unfold map_Find at ih2 ⊢
    rw [List.find?_cons]
    by_cases hak : a = k
    · subst hak
      simp only [decide_True, Option.map_some', Option.some.injEq, List.mem_cons, Prod.mk.injEq,
        true_and]
      constructor
      · rintro (h | h)
        · exact h.symm
        · have := hM.1 a (List.mem_map_of_mem Prod.fst h)
          exact absurd this (lt_irrefl _)
      · intro h
        exact Or.inl h.symm
    · simp only [hak, decide_False, List.mem_cons, Prod.mk.injEq]
      rw [← ih2]
      constructor
      · rintro (h | h)
        · exact absurd h.1.symm hak
        · exact h
      · exact Or.inr

theorem foldl_elem_map_Erase {β : Type} (IDs : List overlap_id) :
    ∀ M : List (overlap_id × β),
      IDs.foldl elem_map_Erase M = M.filter fun e => decide (e.1 ∉ IDs) := by
  induction IDs with
  | nil =>
    intro M
    simp
  | cons a IDs ih =>
    intro M
    rw [List.foldl_cons, ih]
    unfold elem_map_Erase
    rw [List.filter_filter]
    apply List.filter_congr
    intro x _
    by_cases h1 : x.1 = a <;> by_cases h2 : x.1 ∈ IDs <;> simp [h1, h2]

theorem sorted_AccumulateGridFlags (M : List (Int × Nat)) (g : Int) (f : Nat)
    (hM : (M.map Prod.fst).Pairwise (fun x y => x < y)) :
    ((AccumulateGridFlags M g f).map Prod.fst).Pairwise (fun x y => x < y) := by
  unfold AccumulateGridFlags
  rw [map_Insert_keys]
  exact sorted_set_Insert _ _ hM

theorem sorted_foldl_AccumulateGridFlags (Events : List (Int × Nat)) :
    ∀ M : List (Int × Nat), (M.map Prod.fst).Pairwise (fun x y => x < y) →
      ((Events.foldl (fun M Event => AccumulateGridFlags M Event.1 Event.2) M).map
        Prod.fst).Pairwise (fun x y => x < y) := by
  induction Events with
  | nil => exact fun _ h => h
  | cons e Events ih =>
    intro M hM
    rw [List.foldl_cons]
    exact ih _ (sorted_AccumulateGridFlags M e.1 e.2 hM)

theorem map_Find_foldl_AccumulateGridFlags (g : Int) (Events : List (Int × Nat)) :
    ∀ M : List (Int × Nat),
      (map_Find (Events.foldl (fun M Event => AccumulateGridFlags M Event.1 Event.2) M) g).getD
          grid_event_flags_NONE =
        (Events.filter fun Event => decide (Event.1 = g)).foldl (fun a Event => a ||| Event.2)
          ((map_Find M g).getD grid_event_flags_NONE) := by
  induction Events with
  | nil =>
    intro M
    rfl
  | cons e Events ih =>
    intro M
    obtain ⟨k, f⟩ := e
    rw [List.foldl_cons, ih, List.filter_cons]
    unfold AccumulateGridFlags
    rw [map_Find_map_Insert]
    by_cases h : k = g
    · subst h
      simp
    · have h2 : ¬ g = k := fun e => h e.symm
      simp [h, h2]

/-- A grid is dying iff the flags of the events of the sequence on it, OR-ed
together, hold the bit `DESTROY`. -/
theorem mem_DyingGridIDs_foldl (D : Nat) (Events : List (Int × Nat)) (g : Int) :
    g ∈ DyingGridIDs D
        (Events.foldl (fun M Event => AccumulateGridFlags M Event.1 Event.2) []) ↔
      SequenceFlags Events g &&& D ≠ grid_event_flags_NONE := by
  have hSorted := sorted_foldl_AccumulateGridFlags Events [] List.Pairwise.nil
  have hFind := map_Find_foldl_AccumulateGridFlags g Events []
  rw [mem_DyingGridIDs]
  have hNone : (map_Find ([] : List (Int × Nat)) g).getD grid_event_flags_NONE =
      grid_event_flags_NONE := rfl
  rw [hNone] at hFind
  unfold SequenceFlags
  rw [← hFind]
  constructor
  · rintro ⟨f, hf, hD⟩
    rw [(mem_iff_map_Find _ hSorted g f).1 hf]
    exact hD
  · intro h
    cases hc : map_Find (Events.foldl (fun M Event => AccumulateGridFlags M Event.1 Event.2) [])
        g with
    | none =>
      rw [hc] at h
      simp [grid_event_flags_NONE] at h
    | some f =>
      rw [hc] at h
      exact ⟨f, (mem_iff_map_Find _ hSorted g f).2 hc, h⟩

theorem foldl_GridEventListener (D1 D2 : Nat) (Others : List local_edits)
    (Events : List (Int × Nat)) :
    ∀ C : overlap_component,
      Events.foldl (fun C Event => (GridEventListener D1 D2 Others C Event.1 Event.2 false).1) C =
        ⟨Events.foldl (fun M Event => AccumulateGridFlags M Event.1 Event.2) C.GridEventFlags_,
          C.OverlapRecords_, C.LocalMs_, C.LocalNs_⟩ := by
  induction Events with
  | nil =>
    intro C
    rfl
  | cons e Events ih =>
    intro C
    rw [List.foldl_cons, ih]
    rfl

theorem DestroyOverlaps_OverlapRecords (DESTROY : Nat) (Others : List local_edits)
    (IDs : List overlap_id) (C : overlap_component) :
    (DestroyOverlaps DESTROY Others IDs C).1.OverlapRecords_ =
      C.OverlapRecords_.filter fun x => decide (x ∉ IDs) := by
  unfold DestroyOverlaps
  dsimp only
  rw [foldl_elem_set_Erase, SyncEdits_OverlapRecords]

/-- C21: a grid event delivered with `LastInSequence = false` destroys nothing: it
leaves the overlap records and the local maps as they are and triggers no
overlap event.  When the sequence ends, the overlap records that remain are those
whose M grid and N grid did not accumulate the bit `DESTROY` (the flags of the
events of the sequence on one grid being OR-ed together), in their order; the
others are destroyed. -/
theorem grid_sequence_destroys_overlaps_of_dying_grids (GRID_DESTROY DESTROY : Nat)
    (Others : List local_edits) (C : overlap_component) (Earlier : List (Int × Nat))
    (Last : Int × Nat) (hStart : C.GridEventFlags_ = []) :
    (∀ GridID Flags,
      (GridEventListener GRID_DESTROY DESTROY Others C GridID Flags false).1.OverlapRecords_ =
        C.OverlapRecords_ ∧
      (GridEventListener GRID_DESTROY DESTROY Others C GridID Flags false).1.LocalMs_ =
        C.LocalMs_ ∧
      (GridEventListener GRID_DESTROY DESTROY Others C GridID Flags false).1.LocalNs_ =
        C.LocalNs_ ∧
      (GridEventListener GRID_DESTROY DESTROY Others C GridID Flags false).2 = []) ∧
    (DeliverGridEvents GRID_DESTROY DESTROY Others C Earlier Last).1.OverlapRecords_ =
      C.OverlapRecords_.filter (fun OverlapID =>
        decide (¬ (SequenceFlags (Earlier ++ [Last]) OverlapID.1 &&& GRID_DESTROY ≠
              grid_event_flags_NONE ∨
            SequenceFlags (Earlier ++ [Last]) OverlapID.2 &&& GRID_DESTROY ≠
              grid_event_flags_NONE))) ∧
    (∀ OverlapID ∈ C.OverlapRecords_,
      OverlapExists (DeliverGridEvents GRID_DESTROY DESTROY Others C Earlier Last).1
          OverlapID = false ↔
        (SequenceFlags (Earlier ++ [Last]) OverlapID.1 &&& GRID_DESTROY ≠
            grid_event_flags_NONE ∨
          SequenceFlags (Earlier ++ [Last]) OverlapID.2 &&& GRID_DESTROY ≠
            grid_event_flags_NONE)) := by
  have hRecords : (DeliverGridEvents GRID_DESTROY DESTROY Others C Earlier Last).1.OverlapRecords_ =
      C.OverlapRecords_.filter (fun OverlapID =>
        decide (¬ (SequenceFlags (Earlier ++ [Last]) OverlapID.1 &&& GRID_DESTROY ≠
              grid_event_flags_NONE ∨
            SequenceFlags (Earlier ++ [Last]) OverlapID.2 &&& GRID_DESTROY ≠
              grid_event_flags_NONE))) := by
    unfold DeliverGridEvents
    rw [foldl_GridEventListener, hStart]
    unfold GridEventListener
    simp only [if_true]
    unfold OnGridEvent_ DestroyOverlapsForDyingGrids_
    dsimp only
    rw [DestroyOverlaps_OverlapRecords]
    dsimp only
    have hAcc : AccumulateGridFlags
        (Earlier.foldl (fun M Event => AccumulateGridFlags M Event.1 Event.2) []) Last.1 Last.2 =
        (Earlier ++ [Last]).foldl (fun M Event => AccumulateGridFlags M Event.1 Event.2) [] := by
      rw [List.foldl_append]
      rfl
    rw [hAcc]
    apply List.filter_congr
    intro x hx
    rw [decide_eq_decide, mem_DyingOverlapIDs, mem_DyingGridIDs_foldl, mem_DyingGridIDs_foldl]
    constructor
    · intro h1 h2
      exact h1 ⟨hx, h2⟩
    · intro h1 h2
      exact h1 h2.2
  refine ⟨fun GridID Flags => ⟨rfl, rfl, rfl, rfl⟩, hRecords, ?_⟩
  intro OverlapID hID
  unfold OverlapExists
  rw [hRecords, decide_eq_false_iff_not, List.mem_filter]
  simp only [decide_not, Bool.not_eq_true', decide_eq_false_iff_not, not_and, not_not]
  constructor
  · intro h
    exact h hID
  · intro h _
    exact h

/-- Witness for C21: three overlap records; grid 2 receives the flags `1` and `4`,
grid 3 the flags `1` and `2`, and `DESTROY` is the bit `4`: the overlaps `(1,2)`
and `(2,1)` of grid 2 are destroyed, `(1,3)` is kept. -/
theorem grid_sequence_destroys_overlaps_of_dying_grids_witness :
    threeRecordComponent.GridEventFlags_ = [] ∧
    (DeliverGridEvents 4 8 secondRankEdits threeRecordComponent [(2, 1), (3, 1), (2, 4)]
      (3, 2)).1.OverlapRecords_ = [(1, 3)] ∧
    (DeliverGridEvents 4 8 secondRankEdits threeRecordComponent [(2, 1), (3, 1), (2, 4)]
      (3, 2)).1.OverlapRecords_ =
      threeRecordComponent.OverlapRecords_.filter (fun OverlapID =>
        decide (¬ (SequenceFlags ([(2, 1), (3, 1), (2, 4)] ++ [(3, 2)]) OverlapID.1 &&& 4 ≠
              grid_event_flags_NONE ∨
            SequenceFlags ([(2, 1), (3, 1), (2, 4)] ++ [(3, 2)]) OverlapID.2 &&& 4 ≠
              grid_event_flags_NONE))) :=
  ⟨rfl, by decide,
    (grid_sequence_destroys_overlaps_of_dying_grids 4 8 secondRankEdits threeRecordComponent
      [(2, 1), (3, 1), (2, 4)] (3, 2) rfl).2.1⟩

theorem mem_keys_elem_map_Insert {β : Type} (M : List (overlap_id × β)) (k x : overlap_id)
    (v : β) : x ∈ (elem_map_Insert M k v).map Prod.fst ↔ x = k ∨ x ∈ M.map Prod.fst := by
  induction M with
  | nil => simp [elem_map_Insert]
  | cons e M ih =>
    obtain ⟨a, b⟩ := e
    unfold elem_map_Insert
    split_ifs with h1 h2
    · simp
    · subst h2
      simp
    · simp only [List.map_cons, List.mem_cons, ih]
      tauto

theorem mem_keys_filter {β : Type} (M : List (overlap_id × β)) (p : overlap_id → Bool)
    (x : overlap_id) :
    x ∈ (M.filter fun e => p e.1).map Prod.fst ↔ x ∈ M.map Prod.fst ∧ p x = true := by
  simp only [List.mem_map, List.mem_filter]
  constructor
  · rintro ⟨e, ⟨h1, h2⟩, rfl⟩
    exact ⟨⟨e, h1, rfl⟩, h2⟩
  · rintro ⟨⟨e, h1, rfl⟩, h2⟩
    exact ⟨e, ⟨h1, h2⟩, rfl⟩

theorem mem_foldl_elem_set_Insert (IDs : List overlap_id) (x : overlap_id) :
    ∀ S : List overlap_id, x ∈ IDs.foldl elem_set_Insert S ↔ x ∈ S ∨ x ∈ IDs := by
  induction IDs with
  | nil =>
    intro S
    simp
  | cons a IDs ih =>
    intro S
    rw [List.foldl_cons, ih, mem_elem_set_Insert, List.mem_cons]
    tauto

theorem mem_keys_foldl_InsertLocal (GridIsLocal : Int → Bool) (IDs : List overlap_id)
    (x : overlap_id) :
    ∀ L : local_edits,
      (x ∈ (IDs.foldl (InsertLocal GridIsLocal) L).LocalMs_.map Prod.fst ↔
        x ∈ L.LocalMs_.map Prod.fst ∨ (x ∈ IDs ∧ GridIsLocal x.1 = true)) ∧
      (x ∈ (IDs.foldl (InsertLocal GridIsLocal) L).LocalNs_.map Prod.fst ↔
        x ∈ L.LocalNs_.map Prod.fst ∨ (x ∈ IDs ∧ GridIsLocal x.2 = true)) := by
  induction IDs with
  | nil =>
    intro L
    simp
  | cons a IDs ih =>
    intro L
    rw [List.foldl_cons]
    have h := ih (InsertLocal GridIsLocal L a)
    rw [h.1, h.2]
    unfold InsertLocal
    dsimp only
    constructor
    · split_ifs with hl
      · rw [mem_keys_elem_map_Insert, List.mem_cons]
        constructor
        · rintro ((h1 | h1) | h1)
          · subst h1
            exact Or.inr ⟨Or.inl rfl, hl⟩
          · exact Or.inl h1
          · exact Or.inr ⟨Or.inr h1.1, h1.2⟩
        · rintro (h1 | ⟨h1 | h1, h2⟩)
          · exact Or.inl (Or.inr h1)
          · exact Or.inl (Or.inl h1)
          · exact Or.inr ⟨h1, h2⟩
      · rw [List.mem_cons]
        constructor
        · rintro (h1 | h1)
          · exact Or.inl h1
          · exact Or.inr ⟨Or.inr h1.1, h1.2⟩
        · rintro (h1 | ⟨h1 | h1, h2⟩)
          · exact Or.inl h1
          · subst h1
            exact absurd h2 hl
          · exact Or.inr ⟨h1, h2⟩
    · split_ifs with hl
      · rw [mem_keys_elem_map_Insert, List.mem_cons]
        constructor
        · rintro ((h1 | h1) | h1)
          · subst h1
            exact Or.inr ⟨Or.inl rfl, hl⟩
          · exact Or.inl h1
          · exact Or.inr ⟨Or.inr h1.1, h1.2⟩
        · rintro (h1 | ⟨h1 | h1, h2⟩)
          · exact Or.inl (Or.inr h1)
          · exact Or.inl (Or.inl h1)
          · exact Or.inr ⟨h1, h2⟩
      · rw [List.mem_cons]
        constructor
        · rintro (h1 | h1)
          · exact Or.inl h1
          · exact Or.inr ⟨Or.inr h1.1, h1.2⟩
        · rintro (h1 | ⟨h1 | h1, h2⟩)
          · exact Or.inl h1
          · subst h1
            exact absurd h2 hl
          · exact Or.inr ⟨h1, h2⟩

theorem TracksOverlaps_ApplyCall (GridIsLocal : Int → Bool) (CREATE DESTROY : Nat)
    (C : overlap_component) (Exists : overlap_id → Bool)
    (Call : List local_edits × overlap_call) (h : TracksOverlaps GridIsLocal C Exists) :
    TracksOverlaps GridIsLocal (ApplyCall GridIsLocal CREATE DESTROY C Call)
      (fun x => CreatedNotDestroyedStep x (Exists x) Call.2) := by
  obtain ⟨Others, call⟩ := Call
  obtain ⟨hR, hM, hN⟩ := h
  have hR2 : ∀ x, x ∈ (SyncEdits_ Others C).1.OverlapRecords_ ↔ Exists x = true := by
    intro x
    rw [SyncEdits_OverlapRecords]
    exact hR x
  have hM2 : ∀ x, x ∈ (SyncEdits_ Others C).1.LocalMs_.map Prod.fst ↔
      Exists x = true ∧ GridIsLocal x.1 = true := by
    intro x
    rw [SyncEdits_LocalMs_keys]
    exact hM x
  have hN2 : ∀ x, x ∈ (SyncEdits_ Others C).1.LocalNs_.map Prod.fst ↔
      Exists x = true ∧ GridIsLocal x.2 = true := by
    intro x
    rw [SyncEdits_LocalNs_keys]
    exact hN x
  cases call with
  | CreateOverlap ID =>
    unfold ApplyCall CreateOverlap CreatedNotDestroyedStep TracksOverlaps
    dsimp only
    refine ⟨?_, ?_, ?_⟩
    · intro x
      rw [mem_elem_set_Insert, hR2, Bool.or_eq_true, decide_eq_true_eq]
      tauto
    · intro x
      rw [Bool.or_eq_true, decide_eq_true_eq]
      split_ifs with hl
      · rw [mem_keys_elem_map_Insert, hM2]
        constructor
        · rintro (h1 | h1)
          · subst h1
            exact ⟨Or.inr rfl, hl⟩
          · exact ⟨Or.inl h1.1, h1.2⟩
        · rintro ⟨h1 | h1, h2⟩
          · exact Or.inr ⟨h1, h2⟩
          · exact Or.inl h1
      · rw [hM2]
        constructor
        · rintro ⟨h1, h2⟩
          exact ⟨Or.inl h1, h2⟩
        · rintro ⟨h1 | h1, h2⟩
          · exact ⟨h1, h2⟩
          · subst h1
            exact absurd h2 hl
    · intro x
      rw [Bool.or_eq_true, decide_eq_true_eq]
      split_ifs with hl
      · rw [mem_keys_elem_map_Insert, hN2]
        constructor
        · rintro (h1 | h1)
          · subst h1
            exact ⟨Or.inr rfl, hl⟩
          · exact ⟨Or.inl h1.1, h1.2⟩
        · rintro ⟨h1 | h1, h2⟩
          · exact Or.inr ⟨h1, h2⟩
          · exact Or.inl h1
      · rw [hN2]
        constructor
        · rintro ⟨h1, h2⟩
          exact ⟨Or.inl h1, h2⟩
        · rintro ⟨h1 | h1, h2⟩
          · exact ⟨h1, h2⟩
          · subst h1
            exact absurd h2 hl
  | CreateOverlaps IDs =>
    unfold ApplyCall CreateOverlaps CreatedNotDestroyedStep TracksOverlaps
    dsimp only
    refine ⟨?_, ?_, ?_⟩
    · intro x
      rw [mem_foldl_elem_set_Insert, hR2, Bool.or_eq_true, decide_eq_true_eq]
    · intro x
      rw [(mem_keys_foldl_InsertLocal GridIsLocal IDs x _).1, hM2, Bool.or_eq_true,
        decide_eq_true_eq]
      tauto
    · intro x
      rw [(mem_keys_foldl_InsertLocal GridIsLocal IDs x _).2, hN2, Bool.or_eq_true,
        decide_eq_true_eq]
      tauto
  | DestroyOverlap ID =>
    unfold ApplyCall DestroyOverlap CreatedNotDestroyedStep TracksOverlaps
    dsimp only
    refine ⟨?_, ?_, ?_⟩
    · intro x
      rw [mem_elem_set_Erase, hR2, Bool.and_eq_true, decide_eq_true_eq]
    · intro x
      unfold elem_map_Erase
      rw [mem_keys_filter _ (fun k => decide (k ≠ ID)), hM2, Bool.and_eq_true,
        decide_eq_true_eq]
      tauto
    · intro x
      unfold elem_map_Erase
      rw [mem_keys_filter _ (fun k => decide (k ≠ ID)), hN2, Bool.and_eq_true,
        decide_eq_true_eq]
      tauto
  | DestroyOverlaps IDs =>
    unfold ApplyCall DestroyOverlaps CreatedNotDestroyedStep TracksOverlaps
    dsimp only
    refine ⟨?_, ?_, ?_⟩
    · intro x
      rw [foldl_elem_set_Erase, List.mem_filter, hR2, Bool.and_eq_true]
    · intro x
      rw [foldl_elem_map_Erase, mem_keys_filter _ (fun k => decide (k ∉ IDs)), hM2,
        Bool.and_eq_true]
      tauto
    · intro x
      rw [foldl_elem_map_Erase, mem_keys_filter _ (fun k => decide (k ∉ IDs)), hN2,
        Bool.and_eq_true]
      tauto

theorem TracksOverlaps_foldl (GridIsLocal : Int → Bool) (CREATE DESTROY : Nat)
    (Calls : List (List local_edits × overlap_call)) :
    ∀ (C : overlap_component) (Exists : overlap_id → Bool),
      TracksOverlaps GridIsLocal C Exists →
      TracksOverlaps GridIsLocal (Calls.foldl (ApplyCall GridIsLocal CREATE DESTROY) C)
        (fun x => Calls.foldl (fun E Call => CreatedNotDestroyedStep x E Call.2) (Exists x)) := by
  induction Calls with
  | nil => exact fun _ _ h => h
  | cons Call Calls ih =>
    intro C Exists h
    rw [List.foldl_cons]
    exact ih _ _ (TracksOverlaps_ApplyCall GridIsLocal CREATE DESTROY C Exists Call h)

theorem TracksOverlaps_RunCalls (GridIsLocal : Int → Bool) (CREATE DESTROY : Nat)
    (Calls : List (List local_edits × overlap_call)) :
    TracksOverlaps GridIsLocal (RunCalls GridIsLocal CREATE DESTROY Calls)
      (CreatedNotDestroyed Calls) := by
  have h0 : TracksOverlaps GridIsLocal NewOverlapComponent (fun _ => false) := by
    unfold TracksOverlaps NewOverlapComponent
    simp
  exact TracksOverlaps_foldl GridIsLocal CREATE DESTROY Calls _ _ h0

/-- The part of C30 that the sources settle: after every sequence of
`CreateOverlap(s)` and `DestroyOverlap(s)` calls on a new component (in
particular every sequence that meets the preconditions of the calls),
`OverlapExists(ID)` is true exactly for the IDs created and not since destroyed,
`LocalMs_` holds an ID iff `OverlapRecords_` holds it and its M grid is local,
and `LocalNs_` holds an ID iff `OverlapRecords_` holds it and its N grid is
local. -/
theorem overlap_records_track_created_not_destroyed (GridIsLocal : Int → Bool)
    (CREATE DESTROY : Nat) (Calls : List (List local_edits × overlap_call)) :
    (∀ ID, OverlapExists (RunCalls GridIsLocal CREATE DESTROY Calls) ID =
      CreatedNotDestroyed Calls ID) ∧
    (∀ ID, ID ∈ (RunCalls GridIsLocal CREATE DESTROY Calls).LocalMs_.map Prod.fst ↔
      ID ∈ (RunCalls GridIsLocal CREATE DESTROY Calls).OverlapRecords_ ∧
        GridIsLocal ID.1 = true) ∧
    (∀ ID, ID ∈ (RunCalls GridIsLocal CREATE DESTROY Calls).LocalNs_.map Prod.fst ↔
      ID ∈ (RunCalls GridIsLocal CREATE DESTROY Calls).OverlapRecords_ ∧
        GridIsLocal ID.2 = true) := by
  obtain ⟨hR, hM, hN⟩ := TracksOverlaps_RunCalls GridIsLocal CREATE DESTROY Calls
  refine ⟨?_, ?_, ?_⟩
  · intro ID
    unfold OverlapExists
    rw [Bool.eq_iff_iff, decide_eq_true_eq]
    exact hR ID
  · intro ID
    rw [hM ID, hR ID]
  · intro ID
    rw [hN ID, hR ID]

/-- When the view of the keys yields, while `OverlapRecords_` is erased from, the
keys that the component held on entry, `ClearOverlaps` is `DestroyOverlaps` of
these keys. -/
theorem ClearOverlaps_of_unchanged_view (DESTROY : Nat) (Others : List local_edits)
    (C : overlap_component) :
    ClearOverlaps DESTROY Others C.OverlapRecords_ C =
      DestroyOverlaps DESTROY Others C.OverlapRecords_ C := rfl

/-- What `ClearOverlaps` does after a sequence of `CreateOverlap(s)` and
`DestroyOverlap(s)` calls on a new component, whatever the view of the keys
yields while `OverlapRecords_` is erased from: `LocalMs_` and `LocalNs_` are
empty, and an overlap exists afterwards iff it existed before and is not among
the keys read from the view.  No overlap exists afterwards iff the keys read
from the view hold every overlap that existed. -/
theorem ClearOverlaps_after_calls (GridIsLocal : Int → Bool) (CREATE DESTROY : Nat)
    (Calls : List (List local_edits × overlap_call)) (Others : List local_edits)
    (ViewDuringErase : List overlap_id) :
    (ClearOverlaps DESTROY Others ViewDuringErase
      (RunCalls GridIsLocal CREATE DESTROY Calls)).1.LocalMs_ = [] ∧
    (ClearOverlaps DESTROY Others ViewDuringErase
      (RunCalls GridIsLocal CREATE DESTROY Calls)).1.LocalNs_ = [] ∧
    (∀ ID, OverlapExists (ClearOverlaps DESTROY Others ViewDuringErase
        (RunCalls GridIsLocal CREATE DESTROY Calls)).1 ID =
      (CreatedNotDestroyed Calls ID && decide (ID ∉ ViewDuringErase))) ∧
    ((∀ ID, OverlapExists (ClearOverlaps DESTROY Others ViewDuringErase
        (RunCalls GridIsLocal CREATE DESTROY Calls)).1 ID = false) ↔
      ∀ ID, CreatedNotDestroyed Calls ID = true → ID ∈ ViewDuringErase) := by
  obtain ⟨hR, hM, hN⟩ := TracksOverlaps_RunCalls GridIsLocal CREATE DESTROY Calls
  have hExists : ∀ ID, OverlapExists (ClearOverlaps DESTROY Others ViewDuringErase
        (RunCalls GridIsLocal CREATE DESTROY Calls)).1 ID =
      (CreatedNotDestroyed Calls ID && decide (ID ∉ ViewDuringErase)) := by
    intro ID
    unfold OverlapExists ClearOverlaps
    dsimp only
    rw [Bool.eq_iff_iff, decide_eq_true_eq, foldl_elem_set_Erase, List.mem_filter,
      SyncEdits_OverlapRecords, hR ID, Bool.and_eq_true]
  refine ⟨?_, ?_, hExists, ?_⟩
  · apply List.eq_nil_iff_forall_not_mem.2
    intro e he
    unfold ClearOverlaps at he
    dsimp only at he
    have h := List.mem_map_of_mem Prod.fst he
    rw [foldl_elem_map_Erase,
      mem_keys_filter _ (fun k => decide (k ∉ (RunCalls GridIsLocal CREATE DESTROY
        Calls).OverlapRecords_)), SyncEdits_LocalMs_keys, hM, decide_eq_true_eq, hR] at h
    exact h.2 h.1.1
  · apply List.eq_nil_iff_forall_not_mem.2
    intro e he
    unfold ClearOverlaps at he
    dsimp only at he
    have h := List.mem_map_of_mem Prod.fst he
    rw [foldl_elem_map_Erase,
      mem_keys_filter _ (fun k => decide (k ∉ (RunCalls GridIsLocal CREATE DESTROY
        Calls).OverlapRecords_)), SyncEdits_LocalNs_keys, hN, decide_eq_true_eq, hR] at h
    exact h.2 h.1.1
  · constructor
    · intro h ID hID
      have h1 := h ID
      rw [hExists, hID, Bool.true_and, decide_eq_false_iff_not, not_not] at h1
      exact h1
    · intro h ID
      rw [hExists]
      cases hc : CreatedNotDestroyed Calls ID
      · rfl
      · rw [Bool.true_and, decide_eq_false_iff_not, not_not]
        exact h ID hc

/-- Two overlaps are created on a new component and `ClearOverlaps` is called.
If the view yields both keys while the records are erased, no overlap is left;
if it yields the first key only, the second overlap still exists and has no
entry in `LocalMs_`. -/
theorem ClearOverlaps_depends_on_view :
    OverlapExists (ClearOverlaps 2 [] [(0, 1), (1, 0)]
      (RunCalls (fun _ => true) 1 2
        [([], overlap_call.CreateOverlaps [(0, 1), (1, 0)])])).1 (1, 0) = false ∧
    OverlapExists (ClearOverlaps 2 [] [(0, 1)]
      (RunCalls (fun _ => true) 1 2
        [([], overlap_call.CreateOverlaps [(0, 1), (1, 0)])])).1 (1, 0) = true ∧
    (ClearOverlaps 2 [] [(0, 1)]
      (RunCalls (fun _ => true) 1 2
        [([], overlap_call.CreateOverlaps [(0, 1), (1, 0)])])).1.LocalMs_ = [] := by
  decide

/-! ## `collect_none::Collect` -/

/-- C23 (failing input): two cells of two vertices each, one component.  The
second cell has no true vertex, yet with the packed buffer `[false, false]` on
entry `Collect` writes `false` for it; and the value written for the first cell,
which has a true vertex, is the value the buffer held on entry for the second
cell (`true` when the buffer was `[false, true]`).  The reference values are
`[false, true]`. -/
theorem CollectNone_reads_packed_value_of_vertex_index :
    CollectNone twoCellVertexValues 2 [false, false] = some [false, false] ∧
    CollectNone twoCellVertexValues 2 [false, true] = some [true, true] ∧
    (List.range 2).map (fun iCell => NoneOfVertices (twoCellVertexValues iCell)) =
      [false, true] := by
  decide

/-! ## `CoordsInCellNonUniform` -/

/-- In three dimensions every index tuple passed to `ToIndex` has `0` as its third
component, whatever the extents and the cell. -/
theorem Points3D_third_component (Extents : range) (Cell : tuple Int) :
    ∀ p ∈ CoordsInCellNonUniform_Points3D Extents Cell, p.v2 = 0 := by
  intro p hp
  unfold CoordsInCellNonUniform_Points3D at hp
  simp only [List.mem_flatMap, List.mem_map] at hp
  obtain ⟨k, _, j, _, i, _, rfl⟩ := hp
  rfl

/-- C24 (failing input): a coordinate field over `[0,4)^3` and the cell `(1,1,1)`.
The 64 stencil nodes are read from 16 grid points only: node 0 (`k = 0`) and node
16 (`k = 1`) differ only in `k` and are both read from `(0,0,0)`, where the
stencil of the claim has `(0,0,0)` and `(0,0,1)`. -/
theorem CoordsInCellNonUniform_ignores_k :
    (CoordsInCellNonUniform_Points3D ⟨⟨0, 0, 0⟩, ⟨4, 4, 4⟩⟩ ⟨1, 1, 1⟩).length = 64 ∧
    (CoordsInCellNonUniform_Points3D ⟨⟨0, 0, 0⟩, ⟨4, 4, 4⟩⟩ ⟨1, 1, 1⟩).dedup.length = 16 ∧
    (CoordsInCellNonUniform_Points3D ⟨⟨0, 0, 0⟩, ⟨4, 4, 4⟩⟩ ⟨1, 1, 1⟩)[0]? = some ⟨0, 0, 0⟩ ∧
    (CoordsInCellNonUniform_Points3D ⟨⟨0, 0, 0⟩, ⟨4, 4, 4⟩⟩ ⟨1, 1, 1⟩)[16]? = some ⟨0, 0, 0⟩ ∧
    (Stencil4x4x4 ⟨⟨0, 0, 0⟩, ⟨4, 4, 4⟩⟩ ⟨1, 1, 1⟩)[0]? = some ⟨0, 0, 0⟩ ∧
    (Stencil4x4x4 ⟨⟨0, 0, 0⟩, ⟨4, 4, 4⟩⟩ ⟨1, 1, 1⟩)[16]? = some ⟨0, 0, 1⟩ ∧
    (Stencil4x4x4 ⟨⟨0, 0, 0⟩, ⟨4, 4, 4⟩⟩ ⟨1, 1, 1⟩).dedup.length = 64 := by
  decide

/-- With at least 4 points in a dimension, the clamped cell lies in
`[Begin+1, End-3]`, the stencil coordinates `ShiftedCell-1 .. ShiftedCell+2` lie
in `[Begin, End)`, and a cell already in `[Begin+1, End-3]` is not moved. -/
theorem ShiftCell_stencil_inside (Extents : range) (Cell : tuple Int) (iDim : Nat)
    (hSize : Extents.Begin.get iDim + 4 ≤ Extents.End.get iDim) :
    (Extents.Begin.get iDim + 1 ≤ ShiftCell Extents Cell iDim ∧
      ShiftCell Extents Cell iDim ≤ Extents.End.get iDim - 3) ∧
    (∀ x ∈ loopValues (ShiftCell Extents Cell iDim - 1) (ShiftCell Extents Cell iDim + 2 + 1),
      Extents.Begin.get iDim ≤ x ∧ x < Extents.End.get iDim) ∧
    (Extents.Begin.get iDim + 1 ≤ Cell.get iDim → Cell.get iDim ≤ Extents.End.get iDim - 3 →
      ShiftCell Extents Cell iDim = Cell.get iDim) := by
  unfold ShiftCell
  refine ⟨by omega, ?_, by omega⟩
  intro x hx
  rw [mem_loopValues] at hx
  omega

/-- C26 (failing input): a coordinate field over `[0,4) x [0,4) x [5,9)` (4 points
in each dimension) and the cell `(1,1,6)`, which lies in `[Begin+1, End-3]`.  The
cell is not moved, but every index tuple passed to `ToIndex` has third component
`0` and lies outside the extents of the field, while every point of the stencil
of the claim lies inside. -/
theorem CoordsInCellNonUniform_reads_outside_extents :
    (∀ d, d < MAX_DIMS →
      (⟨⟨0, 0, 5⟩, ⟨4, 4, 9⟩⟩ : range).Begin.get d + 4 ≤
        (⟨⟨0, 0, 5⟩, ⟨4, 4, 9⟩⟩ : range).End.get d) ∧
    (∀ d, d < MAX_DIMS → ShiftCell ⟨⟨0, 0, 5⟩, ⟨4, 4, 9⟩⟩ ⟨1, 1, 6⟩ d =
      (⟨1, 1, 6⟩ : tuple Int).get d) ∧
    (CoordsInCellNonUniform_Points3D ⟨⟨0, 0, 5⟩, ⟨4, 4, 9⟩⟩ ⟨1, 1, 6⟩)[0]? = some ⟨0, 0, 0⟩ ∧
    (∀ p ∈ CoordsInCellNonUniform_Points3D ⟨⟨0, 0, 5⟩, ⟨4, 4, 9⟩⟩ ⟨1, 1, 6⟩,
      (⟨⟨0, 0, 5⟩, ⟨4, 4, 9⟩⟩ : range).Contains p = false) ∧
    (∀ p ∈ Stencil4x4x4 ⟨⟨0, 0, 5⟩, ⟨4, 4, 9⟩⟩ ⟨1, 1, 6⟩,
      (⟨⟨0, 0, 5⟩, ⟨4, 4, 9⟩⟩ : range).Contains p = true) := by
  decide

/-! ## `IsoLine4NodeInverse` -/

theorem IsoLine4Node_zero_nodes (LagrangeInterpCubic : ℚ → List ℚ) (U : ℚ) :
    IsoLine4Node LagrangeInterpCubic [0, 0, 0, 0] U = 0 := by
  simp [IsoLine4Node, List.range, List.range.loop]

theorem IsoLine4Node_parabola (U : ℚ) :
    IsoLine4Node cubicLagrangeBasis [2, 1, 2, 5] U = U * U + 1 := by
  simp [IsoLine4Node, cubicLagrangeBasis, List.range, List.range.loop]
  ring

theorem IsoLine4NodeDeriv_parabola (U : ℚ) :
    IsoLine4NodeDeriv cubicLagrangeBasisDeriv [2, 1, 2, 5] U = 2 * U := by
  simp [IsoLine4NodeDeriv, cubicLagrangeBasisDeriv, List.range, List.range.loop]
  ring

/-- Whenever the run returns with an error below `-Tolerance`, `Success` is set to
true although the convergence test of the loop, `|Error| <= Tolerance`, fails. -/
theorem IsoLine4NodeInverse_Success_of_negative_Error
    (LagrangeInterpCubic LagrangeInterpCubicDeriv : ℚ → List ℚ) (NodeCoords : List ℚ)
    (Coord Tolerance : ℚ) (MaxSteps : Int) (LocalCoord : ℚ) (Success : Bool)
    (hTolerance : 0 ≤ Tolerance)
    (hRun : IsoLine4NodeInverse LagrangeInterpCubic LagrangeInterpCubicDeriv NodeCoords Coord
      Tolerance MaxSteps = some (LocalCoord, Success))
    (hError : Coord - IsoLine4Node LagrangeInterpCubic NodeCoords LocalCoord < -Tolerance) :
    Success = true ∧
    ¬ |Coord - IsoLine4Node LagrangeInterpCubic NodeCoords LocalCoord| ≤ Tolerance := by
  unfold IsoLine4NodeInverse at hRun
  rw [Option.map_eq_some'] at hRun
  obtain ⟨U, _, hU⟩ := hRun
  rw [Prod.mk.injEq] at hU
  obtain ⟨h1, h2⟩ := hU
  subst h1
  constructor
  · rw [← h2, decide_eq_true_eq]
    linarith
  · intro h
    have := (abs_le.1 h).1
    linarith

/-- C25 (failing inputs).  With `MaxSteps = 0` and all node coordinates `0` the
interpolant is `0` whatever the basis, so for `Coord = -1` the error is `-1`:
`Success` is set to true although `|Error| = 1` exceeds the tolerance.  With the
cubic Lagrange basis, the nodes `2, 1, 2, 5` (the parabola `U^2 + 1`), `Coord = 0`
and `MaxSteps = 3` the Newton steps are `1/2, -3/4, 7/24, -527/336`; the error
stays below `-1`, the loop never meets its convergence test, and `Success` is set
to true. -/
theorem IsoLine4NodeInverse_reports_success_without_convergence :
    (∀ LagrangeInterpCubic LagrangeInterpCubicDeriv : ℚ → List ℚ,
      IsoLine4NodeInverse LagrangeInterpCubic LagrangeInterpCubicDeriv [0, 0, 0, 0] (-1)
          (1 / 1000) 0 = some (1 / 2, true) ∧
      (-1 : ℚ) - IsoLine4Node LagrangeInterpCubic [0, 0, 0, 0] (1 / 2) = -1 ∧
      ¬ |(-1 : ℚ) - IsoLine4Node LagrangeInterpCubic [0, 0, 0, 0] (1 / 2)| ≤ 1 / 1000) ∧
    IsoLine4NodeInverse cubicLagrangeBasis cubicLagrangeBasisDeriv [2, 1, 2, 5] 0
        (1 / 1000000) 3 = some (-527 / 336, true) ∧
    (0 : ℚ) - IsoLine4Node cubicLagrangeBasis [2, 1, 2, 5] (-527 / 336) < -1 ∧
    ¬ |(0 : ℚ) - IsoLine4Node cubicLagrangeBasis [2, 1, 2, 5] (-527 / 336)| ≤ 1 / 1000000 := by
  refine ⟨?_, ?_, ?_, ?_⟩
  · intro LagrangeInterpCubic LagrangeInterpCubicDeriv
    refine ⟨?_, ?_, ?_⟩
    · unfold IsoLine4NodeInverse
      rw [show (0 : Int).toNat = 0 from rfl]
      unfold NewtonLoop
      rw [Option.map_some', IsoLine4Node_zero_nodes]
      norm_num
    · rw [IsoLine4Node_zero_nodes]
      norm_num
    · rw [IsoLine4Node_zero_nodes]
      norm_num [abs_of_neg]
  · unfold IsoLine4NodeInverse
    rw [show (3 : Int).toNat = 3 from rfl]
    simp only [NewtonLoop, IsoLine4Node_parabola, IsoLine4NodeDeriv_parabola]
    norm_num [abs_le]
  · rw [IsoLine4Node_parabola]
    norm_num
  · rw [IsoLine4Node_parabola]
    norm_num [abs_le]

/-! ## `CartPointToCell` -/

theorem CellCartStep_eq (Cart : cart) :
    CellCartStep Cart = PointToCellStep Cart Cart.Range := by
  funext CellRange iDim
  unfold CellCartStep PointToCellStep
  simp only [ne_eq, not_true_eq_false, false_or]

/-- The range of the cell cart is the cell range of the whole point range. -/
theorem CartPointToCell_Range (Cart : cart) :
    (CartPointToCell Cart).Range = RangePointToCell Cart Cart.Range := by
  unfold CartPointToCell RangePointToCell
  rw [CellCartStep_eq]

theorem CartPointToCell_Begin (Cart : cart) (d : Nat) (hd : d < Cart.Dimension)
    (hMax : d < MAX_DIMS) :
    (CartPointToCell Cart).Range.Begin.get d = Cart.Range.Begin.get d := by
  rw [CartPointToCell_Range, RangePointToCell_Begin Cart Cart.Range d hMax, if_pos hd]

theorem CartPointToCell_End (Cart : cart) (d : Nat) (hd : d < Cart.Dimension)
    (hMax : d < MAX_DIMS) :
    (CartPointToCell Cart).Range.End.get d =
      if Cart.Periodic.get d = true ∧ Cart.PeriodicStorage = periodic_storage.UNIQUE then
        Cart.Range.End.get d
      else Cart.Range.End.get d - 1 := by
  rw [CartPointToCell_Range, RangePointToCell_End Cart Cart.Range d hMax, if_pos hd]
  simp only [ne_eq, not_true_eq_false, false_or]

/-- C28: in every dimension below `Cart.Dimension()`, `RangePointToCell(Cart,
Cart.Range())` and `CartPointToCell(Cart).Range()` have the same `Begin(d)` and
`End(d)`: the `Begin(d)` of the cart, and its `End(d)` in a periodic `UNIQUE`
dimension, `End(d) - 1` otherwise.  `CartPointToCell` keeps the dimension and the
periodic flags and returns `UNIQUE` storage. -/
theorem RangePointToCell_agrees_with_CartPointToCell (Cart : cart) (d : Nat)
    (hd : d < Cart.Dimension) (hMax : d < MAX_DIMS) :
    (RangePointToCell Cart Cart.Range).Begin.get d = (CartPointToCell Cart).Range.Begin.get d ∧
    (RangePointToCell Cart Cart.Range).End.get d = (CartPointToCell Cart).Range.End.get d ∧
    (CartPointToCell Cart).Range.Begin.get d = Cart.Range.Begin.get d ∧
    (CartPointToCell Cart).Range.End.get d =
      (if Cart.Periodic.get d = true ∧ Cart.PeriodicStorage = periodic_storage.UNIQUE then
        Cart.Range.End.get d
      else Cart.Range.End.get d - 1) ∧
    (CartPointToCell Cart).Dimension = Cart.Dimension ∧
    (CartPointToCell Cart).Periodic = Cart.Periodic ∧
    (CartPointToCell Cart).PeriodicStorage = periodic_storage.UNIQUE := by
  refine ⟨?_, ?_, CartPointToCell_Begin Cart d hd hMax, CartPointToCell_End Cart d hd hMax,
    rfl, rfl, rfl⟩
  · rw [CartPointToCell_Range]
  · rw [CartPointToCell_Range]

/-- Witness for C28: the periodic `DUPLICATED` line of six points: the cell cart
has the five cells `[0,5)` and `UNIQUE` storage. -/
theorem RangePointToCell_agrees_with_CartPointToCell_witness :
    0 < (periodicCart1D 6 periodic_storage.DUPLICATED).Dimension ∧ 0 < MAX_DIMS ∧
    (CartPointToCell (periodicCart1D 6 periodic_storage.DUPLICATED)).Range.End.get 0 = 5 ∧
    (RangePointToCell (periodicCart1D 6 periodic_storage.DUPLICATED)
        (periodicCart1D 6 periodic_storage.DUPLICATED).Range).End.get 0 =
      (CartPointToCell (periodicCart1D 6 periodic_storage.DUPLICATED)).Range.End.get 0 :=
  ⟨by decide, by decide, by decide,
    (RangePointToCell_agrees_with_CartPointToCell (periodicCart1D 6 periodic_storage.DUPLICATED)
      0 (by decide) (by decide)).2.1⟩

/-- A non-empty range of a partition lies between the bounds of the whole range in
every dimension of the partition. -/
theorem bounds_of_PartitionInDims (NumDims : Nat) (Whole : range) (NumRanks : Nat)
    (RangeOf : Nat → range)
    (hNonEmpty : ∀ r, r < NumRanks → ∀ d, d < NumDims → d < MAX_DIMS →
      (RangeOf r).Begin.get d < (RangeOf r).End.get d)
    (hPartition : PartitionInDims NumDims Whole NumRanks RangeOf)
    (r : Nat) (hr : r < NumRanks) (d : Nat) (hd : d < NumDims) (hMax : d < MAX_DIMS) :
    Whole.Begin.get d ≤ (RangeOf r).Begin.get d ∧ (RangeOf r).End.get d ≤ Whole.End.get d := by
  constructor
  · have hIn : (RangeOf r).ContainsInDims NumDims (RangeOf r).Begin := by
      intro x hx hxMax
      exact ⟨le_refl _, hNonEmpty r hr x hx hxMax⟩
    exact (hPartition.1 r hr _ hIn d hd hMax).1
  · have hIn : (RangeOf r).ContainsInDims NumDims
        ((RangeOf r).Begin.set d ((RangeOf r).End.get d - 1)) := by
      intro x hx hxMax
      by_cases hxd : d = x
      · subst hxd
        rw [tuple.get_set_self _ _ _ hxMax]
        have := hNonEmpty r hr d hx hxMax
        omega
      · rw [tuple.get_set_other _ _ _ _ hxMax hxd]
        exact ⟨le_refl _, hNonEmpty r hr x hx hxMax⟩
    have h := (hPartition.1 r hr _ hIn d hd hMax).2
    rw [tuple.get_set_self _ _ _ hMax] at h
    omega

/-- C29: if non-empty local point ranges partition the point range of the cart
(in the dimensions of the cart), then the cell ranges that `RangePointToCell`
gives for them partition the range of `CartPointToCell(Cart)`: no cell range
reaches outside it, and every cell index of it lies in the cell range of exactly
one rank. -/
theorem RangePointToCell_partitions_cell_range (Cart : cart) (NumRanks : Nat)
    (LocalRangeOf : Nat → range)
    (hNonEmpty : ∀ r, r < NumRanks → ∀ d, d < Cart.Dimension → d < MAX_DIMS →
      (LocalRangeOf r).Begin.get d < (LocalRangeOf r).End.get d)
    (hPartition : PartitionInDims Cart.Dimension Cart.Range NumRanks LocalRangeOf) :
    PartitionInDims Cart.Dimension (CartPointToCell Cart).Range NumRanks
      (fun r => RangePointToCell Cart (LocalRangeOf r)) := by
  have hBounds := bounds_of_PartitionInDims Cart.Dimension Cart.Range NumRanks LocalRangeOf
    hNonEmpty hPartition
  -- a cell index of a rank's cell range is a point of the rank's point range
  have hSub : ∀ r Point, (RangePointToCell Cart (LocalRangeOf r)).ContainsInDims
      Cart.Dimension Point → (LocalRangeOf r).ContainsInDims Cart.Dimension Point := by
    intro r Point h d hd hMax
    have h1 := h d hd hMax
    rw [RangePointToCell_Begin Cart _ d hMax, RangePointToCell_End Cart _ d hMax, if_pos hd,
      if_pos hd] at h1
    split_ifs at h1 <;> omega
  constructor
  · intro r hr Point h d hd hMax
    have h1 := h d hd hMax
    have hb := hBounds r hr d hd hMax
    rw [RangePointToCell_Begin Cart _ d hMax, RangePointToCell_End Cart _ d hMax, if_pos hd,
      if_pos hd] at h1
    rw [CartPointToCell_Begin Cart d hd hMax, CartPointToCell_End Cart d hd hMax]
    by_cases hPU : Cart.Periodic.get d = true ∧ Cart.PeriodicStorage = periodic_storage.UNIQUE <;>
      by_cases hE : (LocalRangeOf r).End.get d = Cart.Range.End.get d <;>
      simp only [hPU, hE, ne_eq, not_true_eq_false, not_false_eq_true, or_true, or_false,
        true_or, false_or, if_true, if_false] at h1 ⊢ <;> omega
  · intro Point h
    have hWhole : Cart.Range.ContainsInDims Cart.Dimension Point := by
      intro d hd hMax
      have h1 := h d hd hMax
      rw [CartPointToCell_Begin Cart d hd hMax, CartPointToCell_End Cart d hd hMax] at h1
      split_ifs at h1 <;> omega
    obtain ⟨r, ⟨hr, hIn⟩, hUnique⟩ := hPartition.2 Point hWhole
    refine ⟨r, ⟨hr, ?_⟩, ?_⟩
    · intro d hd hMax
      have h1 := h d hd hMax
      have h2 := hIn d hd hMax
      rw [CartPointToCell_Begin Cart d hd hMax, CartPointToCell_End Cart d hd hMax] at h1
      rw [RangePointToCell_Begin Cart _ d hMax, RangePointToCell_End Cart _ d hMax, if_pos hd,
        if_pos hd]
      by_cases hPU : Cart.Periodic.get d = true ∧ Cart.PeriodicStorage = periodic_storage.UNIQUE <;>
      by_cases hE : (LocalRangeOf r).End.get d = Cart.Range.End.get d <;>
      simp only [hPU, hE, ne_eq, not_true_eq_false, not_false_eq_true, or_true, or_false,
        true_or, false_or, if_true, if_false] at h1 ⊢ <;> omega
    · rintro s ⟨hs, hsIn⟩
      exact hUnique s ⟨hs, hSub s Point hsIn⟩

theorem nonEmpty_halfRanges_in_dims :
    ∀ r, r < 2 → ∀ d, d < (plainCart1D 6).Dimension → d < MAX_DIMS →
      (halfRanges r).Begin.get d < (halfRanges r).End.get d := by
  decide

theorem partition_halfRanges :
    PartitionInDims (plainCart1D 6).Dimension (plainCart1D 6).Range 2 halfRanges := by
  constructor
  · intro r hr p hp d hd hMax
    have hd0 : d = 0 := by
      have : (plainCart1D 6).Dimension = 1 := rfl
      omega
    subst hd0
    have h := hp 0 hd hMax
    have hcase : r = 0 ∨ r = 1 := by omega
    rcases hcase with h1 | h1 <;> subst h1 <;>
      simp only [halfRanges, range1D, plainCart1D, tuple.get] at h ⊢ <;> omega
  · intro p hp
    have h := hp 0 (by decide) (by decide)
    simp only [range1D, plainCart1D, tuple.get] at h
    by_cases hlow : p.v0 < 3
    · refine ⟨0, ⟨by decide, ?_⟩, ?_⟩
      · intro d hd hMax
        have hd0 : d = 0 := by
          have : (plainCart1D 6).Dimension = 1 := rfl
          omega
        subst hd0
        simp only [halfRanges, range1D, tuple.get]
        omega
      · rintro s ⟨hs, hsIn⟩
        have h2 := hsIn 0 (by decide) (by decide)
        have hcase : s = 0 ∨ s = 1 := by omega
        rcases hcase with h1 | h1
        · exact h1
        · subst h1
          simp only [halfRanges, range1D, tuple.get] at h2
          omega
    · refine ⟨1, ⟨by decide, ?_⟩, ?_⟩
      · intro d hd hMax
        have hd0 : d = 0 := by
          have : (plainCart1D 6).Dimension = 1 := rfl
          omega
        subst hd0
        simp only [halfRanges, range1D, tuple.get]
        omega
      · rintro s ⟨hs, hsIn⟩
        have h2 := hsIn 0 (by decide) (by decide)
        have hcase : s = 0 ∨ s = 1 := by omega
        rcases hcase with h1 | h1
        · subst h1
          simp only [halfRanges, range1D, tuple.get] at h2
          omega
        · exact h1

/-- Witness for C29: six points on two ranks, `[0,3)` and `[3,6)`, without
periodic dimension: the cell ranges `[0,3)` and `[3,5)` partition the five cells
`[0,5)`. -/
theorem RangePointToCell_partitions_cell_range_witness :
    (∀ r, r < 2 → ∀ d, d < (plainCart1D 6).Dimension → d < MAX_DIMS →
      (halfRanges r).Begin.get d < (halfRanges r).End.get d) ∧
    PartitionInDims (plainCart1D 6).Dimension (plainCart1D 6).Range 2 halfRanges ∧
    (RangePointToCell (plainCart1D 6) (halfRanges 0)).End.get 0 = 3 ∧
    (RangePointToCell (plainCart1D 6) (halfRanges 1)).Begin.get 0 = 3 ∧
    (RangePointToCell (plainCart1D 6) (halfRanges 1)).End.get 0 = 5 ∧
    (CartPointToCell (plainCart1D 6)).Range.End.get 0 = 5 ∧
    PartitionInDims (plainCart1D 6).Dimension (CartPointToCell (plainCart1D 6)).Range 2
      (fun r => RangePointToCell (plainCart1D 6) (halfRanges r)) :=
  ⟨nonEmpty_halfRanges_in_dims, partition_halfRanges, by decide, by decide, by decide,
    by decide,
    RangePointToCell_partitions_cell_range (plainCart1D 6) 2 halfRanges
      nonEmpty_halfRanges_in_dims partition_halfRanges⟩

/-! ## The size of `ExtendedPoints` -/

theorem loopValues_append (a m b : Int) (h1 : a ≤ m) (h2 : m ≤ b) :
    loopValues a b = loopValues a m ++ loopValues m b := by
  unfold loopValues
  have e : (b - a).toNat = (m - a).toNat + (b - m).toNat := by omega
  rw [e, List.range_add, List.map_append, List.map_map]
  congr 1
  apply List.map_congr_left
  intro i _
  simp only [Function.comp_apply, Int.ofNat_eq_coe, Nat.cast_add]
  have : ((m - a).toNat : Int) = m - a := Int.toNat_of_nonneg (by omega)
  omega

theorem length_loopValues (a b : Int) (h : a ≤ b) :
    ((loopValues a b).length : Int) = b - a := by
  unfold loopValues
  rw [List.length_map, List.length_range]
  exact Int.toNat_of_nonneg (by omega)

theorem sum_map_const (l : List Int) (g : Int → Int) (c : Int) (h : ∀ x ∈ l, g x = c) :
    (l.map g).sum = (l.length : Int) * c := by
  induction l with
  | nil => simp
  | cons x l ih =>
    rw [List.map_cons, List.sum_cons, h x (List.mem_cons_self _ _),
      ih (fun y hy => h y (List.mem_cons_of_mem _ hy)), List.length_cons]
    push_cast
    ring

/-- The sum over a loop of a function that takes the value `A` on a window
`[lo, hi)` of the loop and `B` elsewhere. -/
theorem window_sum (a lo hi b : Int) (h1 : a ≤ lo) (h2 : lo ≤ hi) (h3 : hi ≤ b)
    (g : Int → Int) (A B : Int) (hg : ∀ x, g x = if lo ≤ x ∧ x < hi then A else B) :
    ((loopValues a b).map g).sum = (b - a) * B + (hi - lo) * (A - B) := by
  rw [loopValues_append a lo b h1 (by omega), loopValues_append lo hi b h2 h3,
    List.map_append, List.map_append, List.sum_append, List.sum_append,
    sum_map_const (loopValues a lo) g B, sum_map_const (loopValues lo hi) g A,
    sum_map_const (loopValues hi b) g B, length_loopValues a lo h1,
    length_loopValues lo hi h2, length_loopValues hi b h3]
  · ring
  · intro x hx
    rw [mem_loopValues] at hx
    rw [hg, if_neg (by omega)]
  · intro x hx
    rw [mem_loopValues] at hx
    rw [hg, if_pos (by omega)]
  · intro x hx
    rw [mem_loopValues] at hx
    rw [hg, if_neg (by omega)]

theorem length_flatMap_int {α : Type} (l : List Int) (f : Int → List α) :
    ((l.flatMap f).length : Int) = (l.map fun x => ((f x).length : Int)).sum := by
  induction l with
  | nil => rfl
  | cons x l ih =>
    rw [List.flatMap_cons, List.length_append, List.map_cons, List.sum_cons, ← ih]
    push_cast
    rfl

/-- The number of index tuples of a box `E` outside a box `L` that lies in `E`. -/
theorem length_points_outside {α : Type} (E L : range) (f : tuple Int → α)
    (h0 : E.Begin.v0 ≤ L.Begin.v0 ∧ L.Begin.v0 ≤ L.End.v0 ∧ L.End.v0 ≤ E.End.v0)
    (h1 : E.Begin.v1 ≤ L.Begin.v1 ∧ L.Begin.v1 ≤ L.End.v1 ∧ L.End.v1 ≤ E.End.v1)
    (h2 : E.Begin.v2 ≤ L.Begin.v2 ∧ L.Begin.v2 ≤ L.End.v2 ∧ L.End.v2 ≤ E.End.v2) :
    ((((loopValues E.Begin.v2 E.End.v2).flatMap fun k =>
        (loopValues E.Begin.v1 E.End.v1).flatMap fun j =>
          (loopValues E.Begin.v0 E.End.v0).flatMap fun i =>
            if L.Contains ⟨i, j, k⟩ then [] else [f ⟨i, j, k⟩]).length : Nat) : Int) =
      E.Count - L.Count := by
  have hInner : ∀ j k : Int,
      ((((loopValues E.Begin.v0 E.End.v0).flatMap fun i =>
          if L.Contains ⟨i, j, k⟩ then [] else [f ⟨i, j, k⟩]).length : Nat) : Int) =
        if (L.Begin.v1 ≤ j ∧ j < L.End.v1) ∧ (L.Begin.v2 ≤ k ∧ k < L.End.v2) then
          (E.End.v0 - E.Begin.v0) - (L.End.v0 - L.Begin.v0)
        else E.End.v0 - E.Begin.v0 := by
    intro j k
    rw [length_flatMap_int]
    split_ifs with hjk
    · rw [window_sum E.Begin.v0 L.Begin.v0 L.End.v0 E.End.v0 h0.1 h0.2.1 h0.2.2 _ 0 1]
      · ring
      · intro x
        unfold range.Contains
        simp only [hjk.1, hjk.2, and_self, decide_True, Bool.and_true, decide_eq_true_eq]
        split_ifs <;> rfl
    · rw [sum_map_const _ _ 1, length_loopValues _ _ (by omega)]
      · ring
      · intro x _
        unfold range.Contains
        have hc : (decide (L.Begin.v0 ≤ x ∧ x < L.End.v0) &&
            decide (L.Begin.v1 ≤ j ∧ j < L.End.v1) &&
            decide (L.Begin.v2 ≤ k ∧ k < L.End.v2)) = false := by
          rw [Bool.and_eq_false_iff, Bool.and_eq_false_iff, decide_eq_false_iff_not,
            decide_eq_false_iff_not, decide_eq_false_iff_not]
          by_cases hj : L.Begin.v1 ≤ j ∧ j < L.End.v1
          · exact Or.inr (fun hk => hjk ⟨hj, hk⟩)
          · exact Or.inl (Or.inr hj)
        rw [hc]
        rfl
  have hMid : ∀ k : Int,
      ((((loopValues E.Begin.v1 E.End.v1).flatMap fun j =>
          (loopValues E.Begin.v0 E.End.v0).flatMap fun i =>
            if L.Contains ⟨i, j, k⟩ then [] else [f ⟨i, j, k⟩]).length : Nat) : Int) =
        if L.Begin.v2 ≤ k ∧ k < L.End.v2 then
          (E.End.v1 - E.Begin.v1) * (E.End.v0 - E.Begin.v0) -
            (L.End.v1 - L.Begin.v1) * (L.End.v0 - L.Begin.v0)
        else (E.End.v1 - E.Begin.v1) * (E.End.v0 - E.Begin.v0) := by
    intro k
    rw [length_flatMap_int]
    simp only [hInner]
    split_ifs with hk
    · rw [window_sum E.Begin.v1 L.Begin.v1 L.End.v1 E.End.v1 h1.1 h1.2.1 h1.2.2 _
        ((E.End.v0 - E.Begin.v0) - (L.End.v0 - L.Begin.v0)) (E.End.v0 - E.Begin.v0)]
      · ring
      · intro x
        simp only [hk, and_self, and_true]
    · rw [sum_map_const _ _ (E.End.v0 - E.Begin.v0), length_loopValues _ _ (by omega)]
      intro x _
      rw [if_neg (fun h => hk h.2)]
  rw [length_flatMap_int]
  simp only [hMid]
  rw [window_sum E.Begin.v2 L.Begin.v2 L.End.v2 E.End.v2 h2.1 h2.2.1 h2.2.2 _
    ((E.End.v1 - E.Begin.v1) * (E.End.v0 - E.Begin.v0) -
      (L.End.v1 - L.Begin.v1) * (L.End.v0 - L.Begin.v0))
    ((E.End.v1 - E.Begin.v1) * (E.End.v0 - E.Begin.v0)) (fun _ => rfl)]
  unfold range.Count
  ring

theorem DetectNeighbors_ExtendedRange_bounds (Cart : cart) (L : range) (d : Nat) (hd : d < 3)
    (hValid : L.Begin.get d ≤ L.End.get d) :
    (DetectNeighbors_ExtendedRange Cart L).Begin.get d ≤ L.Begin.get d ∧
    L.Begin.get d ≤ L.End.get d ∧
    L.End.get d ≤ (DetectNeighbors_ExtendedRange Cart L).End.get d := by
  rw [DetectNeighbors_ExtendedRange_Begin Cart L d hd,
    DetectNeighbors_ExtendedRange_End Cart L d hd]
  refine ⟨?_, hValid, ?_⟩
  · split_ifs <;> omega
  · split_ifs <;> omega

/-- C27: for every local range with `Begin(d) <= End(d)`, the number of columns the
enumeration loop of lines 43-56 writes (one per point of the internally extended
range that `LocalRange` does not contain) is
`NumExtendedPoints = ExtendedRange.Count() - LocalRange.Count()`, the number of
columns of `ExtendedPoints`: the columns written are exactly
`0 .. NumExtendedPoints-1`. -/
theorem ExtendedPoints_length_eq_NumExtendedPoints (Cart : cart) (LocalRange : range)
    (hValid : ∀ d, d < MAX_DIMS → LocalRange.Begin.get d ≤ LocalRange.End.get d) :
    ((DetectNeighbors_ExtendedPoints Cart LocalRange).length : Int) =
      NumExtendedPoints Cart LocalRange ∧
    0 ≤ NumExtendedPoints Cart LocalRange := by
  have h0 := DetectNeighbors_ExtendedRange_bounds Cart LocalRange 0 (by decide)
    (hValid 0 (by decide))
  have h1 := DetectNeighbors_ExtendedRange_bounds Cart LocalRange 1 (by decide)
    (hValid 1 (by decide))
  have h2 := DetectNeighbors_ExtendedRange_bounds Cart LocalRange 2 (by decide)
    (hValid 2 (by decide))
  have hLen : ((DetectNeighbors_ExtendedPoints Cart LocalRange).length : Int) =
      NumExtendedPoints Cart LocalRange := by
    unfold DetectNeighbors_ExtendedPoints NumExtendedPoints
    exact length_points_outside (DetectNeighbors_ExtendedRange Cart LocalRange) LocalRange
      Cart.PeriodicAdjust h0 h1 h2
  refine ⟨hLen, ?_⟩
  rw [← hLen]
  exact Int.ofNat_nonneg _

/-- Witness for C27: rank 0 of the periodic `UNIQUE` line of six points on two
ranks: the extended range `[-1,4)` has the two points `-1` and `3` outside
`[0,3)`. -/
theorem ExtendedPoints_length_eq_NumExtendedPoints_witness :
    (∀ d, d < MAX_DIMS → (range1D 0 3).Begin.get d ≤ (range1D 0 3).End.get d) ∧
    NumExtendedPoints (periodicCart1D 6 periodic_storage.UNIQUE) (range1D 0 3) = 2 ∧
    ((DetectNeighbors_ExtendedPoints (periodicCart1D 6 periodic_storage.UNIQUE)
        (range1D 0 3)).length : Int) =
      NumExtendedPoints (periodicCart1D 6 periodic_storage.UNIQUE) (range1D 0 3) :=
  ⟨by decide, by decide,
    (ExtendedPoints_length_eq_NumExtendedPoints (periodicCart1D 6 periodic_storage.UNIQUE)
      (range1D 0 3) (by decide)).1⟩

/-- In one dimension `CoordsInCellNonUniform` uses the point index itself as the
linear index `Coords(0)[iPoint]` (line 309), where the other cases go through
`ToIndex`: for a field over `[2,8)`, which holds 6 values, and the cell `6` the
indices used are `4, 5, 6, 7`. -/
theorem CoordsInCellNonUniform_Indices1D_example :
    (range1D 2 8).Count = 6 ∧
    CoordsInCellNonUniform_Indices1D (range1D 2 8) ⟨6, 0, 0⟩ = [4, 5, 6, 7] := by
  decide

/-- In two dimensions every index tuple passed to `ToIndex` lies inside the
extents of a field with at least 4 points in both dimensions whose third
dimension holds the index `0`. -/
theorem Points2D_inside_extents (Extents : range) (Cell : tuple Int)
    (h0 : Extents.Begin.v0 + 4 ≤ Extents.End.v0) (h1 : Extents.Begin.v1 + 4 ≤ Extents.End.v1)
    (h2 : Extents.Begin.v2 ≤ 0 ∧ 0 < Extents.End.v2) :
    ∀ p ∈ CoordsInCellNonUniform_Points2D Extents Cell, Extents.Contains p = true := by
  intro p hp
  unfold CoordsInCellNonUniform_Points2D at hp
  simp only [List.mem_flatMap, List.mem_map] at hp
  obtain ⟨j, hj, i, hi, rfl⟩ := hp
  have hi2 := (ShiftCell_stencil_inside Extents Cell 0 h0).2.1 i hi
  have hj2 := (ShiftCell_stencil_inside Extents Cell 1 h1).2.1 j hj
  unfold range.Contains
  simp only [Bool.and_eq_true, decide_eq_true_eq]
  exact ⟨⟨hi2, hj2⟩, h2⟩

end ovk
